import Mathlib

/-!
# my-promise: a shallow embedding of `src/Promise.js`

The JavaScript heap is made explicit.  A `World` holds

* `heap`  : the Promise instances (fields `state`, `value`, `deferreds`), a
  reference being an index into the list;
* `cells` : one record per call of `doResolve`, holding the captured variable
  `done` and the promise that `onFulfilled = bind(resolve, this)` and
  `onRejected = bind(reject, this)` are bound to;
* `queue` : the tasks handed to `ast` (setImmediate / setTimeout 0), in
  submission order;
* `log`   : the calls made to user callbacks, oldest first.

User code appears in three shapes: one-argument callbacks (`Fn.user id`, whose
behaviour is looked up in an environment), scripted two-argument functions
(`Body`: a resolver handed to `new Promise`, or the `then` method of a foreign
object), and events of the surrounding program (`Event`).

Limits of the model: user values are immutable (an object does not gain or lose
`then`), a one-argument callback only returns or throws (what else a callback
does is an `Event` before or after the task), a scripted function only calls
its two arguments, and the scheduler is the default one, a FIFO queue.
-/

namespace MyPromise

/-- Function values that can be stored in a `Handler` or passed around:
a user callback, one of the two closures built by `doResolve`, or one of the
closures that `always` (lines 278-285) and `Promise.all` (lines 222-224) build.
The variables a closure captures are stored in the world under the number the
closure carries. -/
inductive Fn where
  | user (id : Nat)
  | guardFulfilled (cell : Nat)
  | guardRejected (cell : Nat)
  | alwaysValue
  | alwaysReason (slot : Nat)
  | rethrow (slot : Nat)
  | allItem (call : Nat) (i : Nat)
  deriving DecidableEq, Repr

mutual
/-- JavaScript values, as far as `Promise.js` can tell them apart. -/
inductive Val where
  | undefined
  | null
  | prim (n : Nat)
  | typeError (msg : String)
  | array (items : List Val)
  | func (f : Fn)
  | promise (ref : Nat)
  | obj (thenProp : ThenProp)
/-- What reading `newValue.then` on a foreign object (or function) gives. -/
inductive ThenProp where
  | notCallable
  | getterThrows (error : Val)
  | method (body : Body)
/-- The code of a user function of two arguments `(a, b)`: it calls `a(v)` or
`b(v)` any number of times and then returns or throws. -/
inductive Body where
  | callFirst (v : Val) (rest : Body)
  | callSecond (v : Val) (rest : Body)
  | ret
  | throw (error : Val)
end

/-- The field `state`: `'pending'`, `'fulfilled'` or `'rejected'`. -/
inductive State where
  | pending
  | fulfilled
  | rejected
  deriving DecidableEq, Repr

/-- Instance of `Handler` (lines 159-164); `none` is the source's `null`. -/
structure Handler where
  onFulfilled : Option Fn
  onRejected : Option Fn
  resolve : Fn
  reject : Fn

/-- Fields written by the constructor (lines 179-181). -/
structure PromiseObj where
  state : State
  value : Val
  deferreds : List Handler

/-- Variables captured by the two closures of one `doResolve` call. -/
structure Cell where
  done : Bool
  target : Nat

/-- The closure passed to `ast` in `handle` captures `_this` and `deferred`. -/
structure Task where
  self : Nat
  deferred : Handler

/-- Variables of one call of `Promise.all` that `recursive` captures (lines
203-212): the array `args`, the counter `remaining`, and the cell of the two
closures `resolve` and `reject` of the aggregate. -/
structure AllCall where
  args : List Val
  remaining : Int
  cell : Nat

/-- The heap of the program, the scheduler queue and the log of callback calls;
`slots` holds the variable captured by each closure of `always` (`callback` or
`reason`), `alls` the variables of each call of `Promise.all`, and `asap` the
global variable that line 259 assigns. -/
structure World where
  heap : List PromiseObj
  cells : List Cell
  queue : List Task
  log : List (Nat × Val)
  slots : List Val
  alls : List AllCall
  asap : Option Val

/-- The world before the program has created anything. -/
def World.empty : World := ⟨[], [], [], [], [], [], none⟩

/-- Lines 179-181: `state = 'pending'`, `value = undefined`, `deferreds = []`. -/
def PromiseObj.fresh : PromiseObj := ⟨.pending, .undefined, []⟩

/-- The instance behind reference `p`. -/
def World.getP (w : World) (p : Nat) : PromiseObj := (w.heap[p]?).getD PromiseObj.fresh

/-- Read of `p.state`. -/
def World.stateOf (w : World) (p : Nat) : State := (w.getP p).state

/-- Read of `p.value`. -/
def World.valueOf (w : World) (p : Nat) : Val := (w.getP p).value

/-- Read of `p.deferreds`. -/
def World.deferredsOf (w : World) (p : Nat) : List Handler := (w.getP p).deferreds

/-- Read of `done` in the closures of cell `c`. -/
def World.isDone (w : World) (c : Nat) : Bool :=
  match w.cells[c]? with
  | some cell => cell.done
  | none => true

/-- The promise that `onFulfilled` and `onRejected` of cell `c` are bound to. -/
def World.targetOf (w : World) (c : Nat) : Nat :=
  match w.cells[c]? with
  | some cell => cell.target
  | none => 0

/-- Assignment `done = true` in the closures of cell `c`. -/
def World.setDone (w : World) (c : Nat) : World :=
  { w with cells := w.cells.modify (fun cell => { cell with done := true }) c }

/-- Assignments `this.state = s; this.value = v`. -/
def World.settle (w : World) (p : Nat) (s : State) (v : Val) : World :=
  { w with heap := w.heap.modify (fun o => { o with state := s, value := v }) p }

/-- Call `this.deferreds.push(deferred)`. -/
def World.pushDeferred (w : World) (p : Nat) (d : Handler) : World :=
  { w with heap := w.heap.modify (fun o => { o with deferreds := o.deferreds ++ [d] }) p }

/-- Assignment `this.deferreds = []`. -/
def World.clearDeferreds (w : World) (p : Nat) : World :=
  { w with heap := w.heap.modify (fun o => { o with deferreds := [] }) p }

/-- Call `ast(task)`: the default scheduler queues the task. -/
def World.ast (w : World) (t : Task) : World :=
  { w with queue := w.queue ++ [t] }

/-- Lines 71-97: `handle.call(p, deferred)`.  While `p` is pending the handler
is pushed on `p.deferreds`; otherwise the closure of lines 78-96 (`runTask`
below) is handed to `ast`, nothing being called here. -/
def handle (w : World) (p : Nat) (deferred : Handler) : World :=
  if w.stateOf p = .pending then w.pushDeferred p deferred
  else w.ast ⟨p, deferred⟩

/-- Lines 102-107: `finale.call(p)`: `handle` for every element of
`p.deferreds` in index order, then `p.deferreds = []`.  Both callers set the
state first, so `handle` does not push and the list read once is the list the
loop walks. -/
def finale (w : World) (p : Nat) : World :=
  ((w.deferredsOf p).foldl (fun acc d => handle acc p d) w).clearDeferreds p

/-- Lines 146-150: `reject.call(p, newValue)`; no test of the current state and
no inspection of `newValue`. -/
def reject (w : World) (p : Nat) (newValue : Val) : World :=
  finale (w.settle p .rejected newValue) p

/-- A function of two arguments run by `doResolve`: it receives the cell whose
two closures are its arguments, and returns the new world and what it threw. -/
abbrev Executor := Nat → World → World × Option Val

/-- Line 25, `var done = false`, and the creation of the two closures of a
`doResolve` call whose `onFulfilled`/`onRejected` are bound to promise `p`. -/
def World.allocCell (w : World) (p : Nat) : World :=
  { w with cells := w.cells ++ [⟨false, p⟩] }

/-- Lines 179-181: the fields of a new instance. -/
def World.allocPromise (w : World) : World :=
  { w with heap := w.heap ++ [PromiseObj.fresh] }

/-- Lines 24-53: `doResolve(fn, bind(resolve, p), bind(reject, p))`, the only
form in which the source calls it (lines 126 and 183).  A cell is allocated for
`done`, `fn` runs with the two closures of that cell, and what `fn` throws is
caught: ignored when `done` is set, passed to `reject.call(p, error)` otherwise. -/
def doResolve (fn : Executor) (p : Nat) (w : World) : World :=
  let c := w.cells.length
  match fn c (w.allocCell p) with
  | (w2, none) => w2
  | (w2, some error) =>
    if w2.isDone c then w2 else reject (w2.setDone c) p error

/-- Lines 28-35: the first closure of `doResolve`: `if (done) return; done =
true; onFulfilled(value)`.  The call `onFulfilled(value)`, which is
`resolve.call(target, value)`, is given as the continuation. -/
def guardedFulfil (onFulfilled : World → World) (c : Nat) (w : World) : World :=
  if w.isDone c then w else onFulfilled (w.setDone c)

/-- Lines 36-43: the second closure of `doResolve`: `if (done) return; done =
true; onRejected(reason)`, where `onRejected` is `bind(reject, target)`. -/
def guardedReject (c : Nat) (v : Val) (w : World) : World :=
  if w.isDone c then w else reject (w.setDone c) (w.targetOf c) v

/-- Lines 170-184 after the two type checks, for a function `fn`. -/
def newPromise (w : World) (fn : Executor) : Nat × World :=
  let p := w.heap.length
  (p, doResolve fn p w.allocPromise)

/-- Line 160/161: `typeof x === 'function' ? x : null`. -/
def asCallback : Val → Option Fn
  | .func f => some f
  | _ => none

/-- Lines 262-268: `p.then(onFulfilled, onRejected)`. -/
def Promise.then (w : World) (p : Nat) (onFulfilled onRejected : Val) : Nat × World :=
  newPromise w (fun c w1 =>
    (handle w1 p ⟨asCallback onFulfilled, asCallback onRejected,
      .guardFulfilled c, .guardRejected c⟩, none))

mutual
/-- Lines 113-140: `resolve.call(p, newValue)`.  The `try` block throws in two
places only, the self-resolution test and the read of `newValue.then`, and the
`catch` passes the error to `reject.call(p, error)`.  A Promise instance has the
`then` of the prototype; a value without callable `then` is stored and the
deferreds are dispatched. -/
def resolve (w : World) (p : Nat) : Val → World
  | .promise q =>
    if q = p then reject w p (.typeError "A promise cannot be resolved with itself.")
    else doResolve (fun c w1 =>
      ((Promise.then w1 q (.func (.guardFulfilled c)) (.func (.guardRejected c))).2, none)) p w
  | .obj (.getterThrows error) => reject w p error
  | .obj (.method body) => doResolve (fun c w1 => runBody w1 c body) p w
  | v => finale (w.settle p .fulfilled v) p
/-- A scripted function applied to the two closures of cell `c`: the world it
leaves and the value it throws, if any. -/
def runBody (w : World) (c : Nat) : Body → World × Option Val
  | .callFirst v rest =>
    runBody (guardedFulfil (fun w1 => resolve w1 (w.targetOf c) v) c w) c rest
  | .callSecond v rest => runBody (guardedReject c v w) c rest
  | .ret => (w, none)
  | .throw error => (w, some error)
end

/-- The user function with code `fn`, as `doResolve` runs it. -/
def script (fn : Body) : Executor := fun c w => runBody w c fn

/-- Result of calling a function: it returns a value or throws one. -/
inductive Completion where
  | normal (v : Val)
  | throw (error : Val)

/-- Behaviour of the user callbacks: what callback `id` does with its argument. -/
abbrev Env := Nat → Val → Completion

/-- Record of a call of user callback `id` with argument `v`. -/
def World.logCall (w : World) (id : Nat) (v : Val) : World :=
  { w with log := w.log ++ [(id, v)] }

/-- Lines 186-194: `Promise.resolve(value)`. -/
def Promise.resolve (w : World) : Val → Val × World
  | .promise q => (.promise q, w)
  | value =>
    let r := newPromise w (script (.callFirst value .ret))
    (.promise r.1, r.2)

/-- The variables of the `k`-th call of `Promise.all`. -/
def World.getAll (w : World) (k : Nat) : AllCall := (w.alls[k]?).getD ⟨[], 0, 0⟩

/-- The variable captured in slot `s`. -/
def World.slotOf (w : World) (s : Nat) : Val := (w.slots[s]?).getD .undefined

/-- Creation of a closure of `always` that captures `v`. -/
def World.allocSlot (w : World) (v : Val) : World :=
  { w with slots := w.slots ++ [v] }

/-- Array assignment `a[i] = v`; an index past the end leaves holes, read as
`undefined`. -/
def storeAt (a : List Val) (i : Nat) (v : Val) : List Val :=
  if i < a.length then a.set i v
  else a ++ List.replicate (i - a.length) .undefined ++ [v]

/-- Lines 230-233 of `recursive`: `args[i] = val; if (--remaining === 0)
resolve(args)`, where `resolve` is the first closure of the aggregate's cell. -/
def allStore (w : World) (k i : Nat) (val : Val) : World :=
  let a := w.getAll k
  let w1 : World :=
    { w with alls := w.alls.modify (fun _ => ⟨storeAt a.args i val, a.remaining - 1, a.cell⟩) k }
  if a.remaining - 1 = 0 then
    guardedFulfil (fun w2 => resolve w2 (w.targetOf a.cell) (.array (storeAt a.args i val)))
      a.cell w1
  else w1

mutual
/-- Lines 214-237: `recursive(i, val)` of the `k`-th call of `Promise.all`.  A
thenable gets `then.call(val, function (val) { recursive(i, val) }, reject)`;
what is thrown inside the `try` goes to `reject`, the second closure of the
aggregate's cell. -/
def allRecursive (w : World) (k i : Nat) : Val → World
  | .promise q =>
    (Promise.then w q (.func (.allItem k i)) (.func (.guardRejected (w.getAll k).cell))).2
  | .obj (.getterThrows error) => guardedReject (w.getAll k).cell error w
  | .obj (.method body) =>
    match runBodyAll w k i body with
    | (w1, none) => w1
    | (w1, some error) => guardedReject (w1.getAll k).cell error w1
  | val => allStore w k i val
/-- A scripted `then` applied to the closure of lines 222-224 and to `reject`. -/
def runBodyAll (w : World) (k i : Nat) : Body → World × Option Val
  | .callFirst v rest => runBodyAll (allRecursive w k i v) k i rest
  | .callSecond v rest => runBodyAll (guardedReject (w.getAll k).cell v w) k i rest
  | .ret => (w, none)
  | .throw error => (w, some error)
end

/-- Call of a function value `f(v)`, for every function but the closure of line
281, which `callFn` below treats.  A user callback is recorded in the log and
does what the environment says; the closures of `doResolve` return `undefined`
(lines 28-43); the closure of line 278 returns its argument; the one of line 282
throws the captured `reason`; lines 222-224 call `recursive(i, val)`. -/
def callBase (env : Env) (f : Fn) (v : Val) (w : World) : World × Completion :=
  match f with
  | .user id => (w.logCall id v, env id v)
  | .guardFulfilled c =>
    (guardedFulfil (fun w1 => resolve w1 (w.targetOf c) v) c w, .normal .undefined)
  | .guardRejected c => (guardedReject c v w, .normal .undefined)
  | .alwaysValue => (w, .normal v)
  | .rethrow s => (w, .throw (w.slotOf s))
  | .allItem k i => (allRecursive w k i v, .normal .undefined)
  | .alwaysReason _ => (w, .normal .undefined)

/-- The call `callback()` of line 282.  A value that is not a function makes the
call throw a TypeError.  (A closure of line 281 never leaves the library, so no
program can pass one as `callback`; `callBase` lets such a call return
`undefined`.) -/
def callNoArgs (env : Env) (callback : Val) (w : World) : World × Completion :=
  match callback with
  | .func f => callBase env f .undefined w
  | _ => (w, .throw (.typeError "callback is not a function"))

/-- Call of a function value `f(v)`.  For the closure of lines 281-285, `function
(reason) { return constructor.resolve(callback()).then(function () { throw
reason }) }`, `constructor` is `Promise`, so `constructor.resolve` gives a
Promise instance, on which `then` is the method of the prototype. -/
def callFn (env : Env) (f : Fn) (v : Val) (w : World) : World × Completion :=
  match f with
  | .alwaysReason s =>
    match callNoArgs env (w.slotOf s) w with
    | (w1, .throw error) => (w1, .throw error)
    | (w1, .normal result) =>
      match Promise.resolve w1 result with
      | (.promise q, w2) =>
        let r := Promise.then (w2.allocSlot v) q (.func (.rethrow w2.slots.length)) .undefined
        (r.2, .normal (.promise r.1))
      | (_, w2) => (w2, .throw (.typeError "then is not a function"))
  | .user id => callBase env (.user id) v w
  | .guardFulfilled c => callBase env (.guardFulfilled c) v w
  | .guardRejected c => callBase env (.guardRejected c) v w
  | .alwaysValue => callBase env .alwaysValue v w
  | .rethrow s => callBase env (.rethrow s) v w
  | .allItem k i => callBase env (.allItem k i) v w

/-- Lines 78-96: the closure that `handle` passes to `ast`, run later by the
scheduler.  It reads the state and value of `_this` when it runs; what the
selected callback throws is caught and passed to `deferred.reject`. -/
def runTask (env : Env) (t : Task) (w : World) : World × Completion :=
  let callback :=
    if w.stateOf t.self = .fulfilled then t.deferred.onFulfilled else t.deferred.onRejected
  match callback with
  | none =>
    callFn env (if w.stateOf t.self = .fulfilled then t.deferred.resolve else t.deferred.reject)
      (w.valueOf t.self) w
  | some cb =>
    match callFn env cb (w.valueOf t.self) w with
    | (w1, .throw error) => callFn env t.deferred.reject error w1
    | (w1, .normal result) => callFn env t.deferred.resolve result w1

/-- The host scheduler runs the oldest queued task (FIFO). -/
def tick (env : Env) (w : World) : World × Completion :=
  match w.queue with
  | [] => (w, .normal .undefined)
  | t :: ts => runTask env t { w with queue := ts }

/-- The receiver of a call of `Promise`: a fresh instance under `new`, or
another receiver, of which only `typeof this === 'object'` matters. -/
inductive ThisArg where
  | newInstance
  | other (typeofObject : Bool)

/-- The argument of the constructor: a function, or any other value. -/
inductive CtorArg where
  | notFunction (v : Val)
  | function (fn : Executor)

/-- Line 176: evaluating `new TypeError(fn.name + 'not a function')` for a
non-function `fn` without a `name` property; reading `.name` of `undefined` or
`null` is itself a TypeError. -/
def notFunctionError : Val → Val
  | .undefined => .typeError "Cannot read properties of undefined (reading 'name')"
  | .null => .typeError "Cannot read properties of null (reading 'name')"
  | _ => .typeError "undefinednot a function"

/-- Lines 170-184: the constructor, called with receiver `this` and argument `fn`. -/
def Promise.construct (w : World) (this : ThisArg) (fn : CtorArg) : Except Val (Nat × World) :=
  match this with
  | .other false => .error (.typeError "Promises must be constructed via new")
  | _ =>
    match fn with
    | .notFunction v => .error (notFunctionError v)
    | .function f => .ok (newPromise w f)

/-- Lines 196-200: `Promise.reject(reason)`; the function has no `return`. -/
def Promise.reject (w : World) (reason : Val) : Val × World :=
  let r := newPromise w (script (.callSecond reason .ret))
  (.undefined, r.2)

/-- What the surrounding program can do: construct a promise with a scripted
resolver, call a function value it holds (a callback of its own, or a closure
it was handed by `doResolve`, at any later time), register with `then`, or let
the scheduler run the next task. -/
inductive Event where
  | construct (fn : Body)
  | call (f : Fn) (v : Val)
  | thenCall (p : Nat) (onFulfilled onRejected : Val)
  | tick

/-- One event of the surrounding program. -/
def step (env : Env) (w : World) : Event → World
  | .construct fn => (newPromise w (script fn)).2
  | .call f v => (callFn env f v w).1
  | .thenCall p onFulfilled onRejected => (Promise.then w p onFulfilled onRejected).2
  | .tick => (tick env w).1

/-- A sequence of events, oldest first. -/
def run (env : Env) (w : World) (evs : List Event) : World :=
  evs.foldl (step env) w

/-- Cell `c` belongs to promise `t` and its `done` is still `false`. -/
def World.Live (w : World) (c t : Nat) : Prop := w.cells[c]? = some ⟨false, t⟩

/-- The state of the `done` flags that the library maintains: a cell that is
not done belongs to an existing pending promise, and a promise has at most one
such cell. -/
structure Inv (w : World) : Prop where
  pending : ∀ c t, w.Live c t → t < w.heap.length ∧ w.stateOf t = .pending
  unique : ∀ c c' t, w.Live c t → w.Live c' t → c = c'

/-- No cell of promise `p` can still fire. -/
def World.Quiet (w : World) (p : Nat) : Prop := ∀ c, ¬ w.Live c p

/-- Cells are only ever added or marked done. -/
def CellsExt (w w' : World) : Prop :=
  ∀ (c : Nat) (cell : Cell), w.cells[c]? = some cell →
    ∃ cell', w'.cells[c]? = some cell' ∧ cell'.target = cell.target ∧
      (cell.done = true → cell'.done = true)

/-- What a settlement of promise `p` may change: nothing is logged, cells and
heap only grow, every other existing promise keeps its state and value, and
tasks are only appended to the queue. -/
structure Touches (p : Nat) (w w' : World) : Prop where
  log : w'.log = w.log
  cells : CellsExt w w'
  len : w.heap.length ≤ w'.heap.length
  frame : ∀ q, q ≠ p → q < w.heap.length →
    w'.stateOf q = w.stateOf q ∧ w'.valueOf q = w.valueOf q
  queue : ∃ ts, w'.queue = w.queue ++ ts

/-- Settled promises of `w` have the same state and value in `w'`. -/
def Stable (w w' : World) : Prop :=
  ∀ q, w.stateOf q ≠ .pending → w'.stateOf q = w.stateOf q ∧ w'.valueOf q = w.valueOf q

/-- Values on which `resolve` reaches lines 134-136: reading `newValue.then`
does not throw and does not give a function (so neither a Promise instance nor
a foreign thenable). -/
def Val.plain : Val → Bool
  | .promise _ => false
  | .obj (.getterThrows _) => false
  | .obj (.method _) => false
  | _ => true

/-- The `Handler` built by `then` for the derived promise whose closures are in
cell `c` (line 266). -/
def thenHandler (onFulfilled onRejected : Val) (c : Nat) : Handler :=
  ⟨asCallback onFulfilled, asCallback onRejected, .guardFulfilled c, .guardRejected c⟩

/-- What a scripted function finally throws, if anything. -/
def Body.thrown : Body → Option Val
  | .callFirst _ rest => rest.thrown
  | .callSecond _ rest => rest.thrown
  | .ret => none
  | .throw error => some error

mutual
/-- Specification of the resolution procedure (spec 4.2, step 3) as a function
of the reported value alone: the state and value that promise `d` takes when it
is resolved with the value, or `none` when it is left as it was (waiting for
another promise or for a thenable that has not called back). -/
def settles (d : Nat) : Val → Option (State × Val)
  | .promise q =>
    if q = d then some (.rejected, .typeError "A promise cannot be resolved with itself.")
    else none
  | .obj (.getterThrows error) => some (.rejected, error)
  | .obj (.method body) => bodySettles d body
  | v => some (.fulfilled, v)
/-- Specification of the guarded invocation (spec 4.2, steps 1 and 2): the first
call of either callback wins, a throw before any call rejects. -/
def bodySettles (d : Nat) : Body → Option (State × Val)
  | .callFirst v _ => settles d v
  | .callSecond v _ => some (.rejected, v)
  | .ret => none
  | .throw error => some (.rejected, error)
end

/-- Promise `d` has in `w'` the state and value `o`, or those it had in `w`. -/
def Outcome (o : Option (State × Val)) (w w' : World) (d : Nat) : Prop :=
  match o with
  | some (s, x) => w'.stateOf d = s ∧ w'.valueOf d = x
  | none => w'.stateOf d = w.stateOf d ∧ w'.valueOf d = w.valueOf d

/-- A foreign thenable nested `rests.length` levels deep around `v`: each
level's `then` calls its first argument with the next level and then goes on
with the rest of its script. -/
def nested : List Body → Val → Val
  | [], v => v
  | rest :: rests, v => .obj (.method (.callFirst (nested rests v) rest))

/-- A world with one promise, number 0, left pending by a resolver that returns
without calling back; its two closures are in cell 0. -/
def examplePending : World := (newPromise World.empty (script .ret)).2

/-- A world with one promise, number 0, fulfilled with the primitive 1. -/
def exampleFulfilled : World := (newPromise World.empty (script (.callFirst (.prim 1) .ret))).2

/-- A world with one promise, number 0, rejected with the primitive 2. -/
def exampleRejected : World := (newPromise World.empty (script (.callSecond (.prim 2) .ret))).2

/-- An environment in which callback 0 returns the primitive 9 and every other
callback throws its argument. -/
def exampleEnv : Env := fun id v => if id = 0 then .normal (.prim 9) else .throw v

/-- An assignment `o.then = ...` made by the program on the object `o` that
promise `p` holds as its value.  The promise keeps the reference to `o`, so its
`value` is still `o`, and what a read of `o.then` gives from now on is `t`.  A
value that is not an object is left as it is. -/
def World.assignThen (w : World) (p : Nat) (t : ThenProp) : World :=
  { w with heap := w.heap.modify (fun o =>
      match o.value with
      | .obj _ => { o with value := .obj t }
      | _ => o) p }

/-- The world after `o = {}; p = new Promise(function (resolve) { resolve(o) });
o.then = function (a, b) { b(7) }`: promise 0 is fulfilled with `o`, which was
not a thenable when `resolve` stored it and has a callable `then` now. -/
def exampleAssigned : World :=
  (newPromise World.empty (script (.callFirst (.obj .notCallable) .ret))).2.assignThen 0
    (.method (.callSecond (.prim 7) .ret))

/-- Specification of the continuation dispatcher (spec 4.3): what the dispatch
of a registration feeds into the derived promise when the parent has state `s`
and payload `x`.  `normal r` stands for "resolve with `r`", `throw e` for
"reject with `e`".  The selected branch is a user callback or absent. -/
def dispatchSpec (env : Env) (s : State) (x : Val) (onFulfilled onRejected : Val) : Completion :=
  match asCallback (if s = .fulfilled then onFulfilled else onRejected) with
  | some (.user g) => env g x
  | _ => if s = .fulfilled then .normal x else .throw x

/-- The value is not one of the closures that the library builds: it is a
user callback or not a function. -/
def Val.notGuard : Val → Bool
  | .func (.user _) => true
  | .func _ => false
  | _ => true

mutual
/-- Resolving with the value hands promise `d` itself to the resolution
procedure, directly or through the first calls of nested thenables. -/
def Val.handsOver (d : Nat) : Val → Bool
  | .promise q => decide (q = d)
  | .obj (.method body) => body.handsOver d
  | _ => false
/-- The first call of the script hands over promise `d`. -/
def Body.handsOver (d : Nat) : Body → Bool
  | .callFirst v _ => v.handsOver d
  | _ => false
end

/-- The scheduler runs `n` tasks, one after the other. -/
def runTicks (env : Env) : Nat → World → World
  | 0, w => w
  | n + 1, w => runTicks env n (tick env w).1

/-- The outcome for the derived promise `d` of what the dispatch feeds into it:
a returned value goes through the resolution procedure, a thrown one rejects. -/
def feeds (d : Nat) : Completion → Option (State × Val)
  | .normal r => settles d r
  | .throw e => some (.rejected, e)

/-- Calls `p.then(f, g)` for every pair `(f, g)` of user callbacks of the list,
in order. -/
def registerAll (w : World) (p : Nat) (cs : List (Nat × Nat)) : World :=
  cs.foldl (fun acc cb => (Promise.then acc p (.func (.user cb.1)) (.func (.user cb.2))).2) w

/-- The registrations of `registerAll` with the cell of each derived promise,
the first one being cell `m`. -/
def triples : List (Nat × Nat) → Nat → List (Nat × Nat × Nat)
  | [], _ => []
  | cb :: cs, m => (cb.1, cb.2, m) :: triples cs (m + 1)

/-- The `Handler` of a registration of two user callbacks. -/
def mkHandler (t : Nat × Nat × Nat) : Handler :=
  thenHandler (.func (.user t.1)) (.func (.user t.2.1)) t.2.2

/-- The task that dispatches a registration on promise `p`. -/
def mkTask (p : Nat) (t : Nat × Nat × Nat) : Task := ⟨p, mkHandler t⟩

/-- Cell `c` exists and belongs to a promise other than `p`. -/
def GoodCell (w : World) (p c : Nat) : Prop :=
  ∃ cell, w.cells[c]? = some cell ∧ cell.target ≠ p

/-- A relation between the world before and the world after that holds across
every elementary step taken by the closures of the library. -/
structure StepClosed (P : World → World → Prop) : Prop where
  refl : ∀ w, P w w
  trans : ∀ {w1 w2 w3 : World}, P w1 w2 → P w2 w3 → P w1 w3
  register : ∀ w q a b, P w (Promise.then w q a b).2
  reject : ∀ w c v, P w (guardedReject c v w)
  fulfil : ∀ w c v, P w (guardedFulfil (fun w1 => resolve w1 (w.targetOf c) v) c w)
  construct : ∀ w fn, P w (newPromise w (script fn)).2
  slots : ∀ (w : World) (x : List Val), P w { w with slots := x }
  alls : ∀ (w : World) (x : List AllCall), P w { w with alls := x }
  log : ∀ (w : World) (x : List (Nat × Val)), P w { w with log := x }
  asap : ∀ (w : World) (x : Option Val), P w { w with asap := x }

/-- A step keeps the invariant of the `done` flags and leaves settled promises
as they are. -/
def Keeps (w w' : World) : Prop := Inv w → Inv w' ∧ Stable w w'

/-- Lines 10-14: `isArray(value)`. -/
def isArray : Val → Bool
  | .array _ => true
  | _ => false

/-- JavaScript truthiness; the primitive coded 0 stands for the falsy
primitives (`0`, `''`, `false`, `NaN`). -/
def Val.truthy : Val → Bool
  | .undefined => false
  | .null => false
  | .prim n => decide (n ≠ 0)
  | _ => true

/-- Line 204, the argument that line 203 passes to `slice.call`:
`arguments.length === 1 && isArray(arguments[0] ? arguments[0] : arguments)`.
The closing parenthesis of `isArray(` comes after the conditional, so the
value is a boolean; the `arguments` object itself is not an array. -/
def allSelector (arguments : List Val) : Bool :=
  match arguments with
  | [a] => if a.truthy then isArray a else false
  | _ => false

/-- Line 203: `Array.prototype.slice.call(b)` for a boolean `b`.  `slice`
converts its receiver to a Boolean object, which has no `length`, so the length
is 0 and the result is a new empty array. -/
def sliceCall (_b : Bool) : List Val := []

/-- Lines 239-241: `for (var i = 0; i < args.length; i++) recursive(i, args[i])`
from index `i` on, `n` being the number of indices left. -/
def allLoop (k : Nat) : Nat → Nat → World → World
  | 0, _, w => w
  | n + 1, i, w =>
    allLoop k n (i + 1) (allRecursive w k i (((w.getAll k).args[i]?).getD .undefined))

/-- Lines 202-243: `Promise.all(...arguments)`. -/
def Promise.all (w : World) (arguments : List Val) : Nat × World :=
  let args := sliceCall (allSelector arguments)
  newPromise w (fun c w1 =>
    if args.length = 0 then
      (guardedFulfil (fun w2 => MyPromise.resolve w2 (w1.targetOf c) (.array [])) c w1, none)
    else
      (allLoop w1.alls.length args.length 0
        { w1 with alls := w1.alls ++ [⟨args, args.length, c⟩] }, none))

/-- Lines 247-249: the loop `values[i].then(resolve, reject)` of `Promise.race`,
`resolve` and `reject` being the closures of cell `c`.  An element that is not
a Promise instance is called through its own `then`; one without a callable
`then` makes the call throw a TypeError, which ends the loop. -/
def raceLoop (c : Nat) : List Val → World → World × Option Val
  | [], w => (w, none)
  | .promise q :: rest, w =>
    raceLoop c rest (Promise.then w q (.func (.guardFulfilled c)) (.func (.guardRejected c))).2
  | .obj (.method body) :: rest, w =>
    match runBody w c body with
    | (w1, none) => raceLoop c rest w1
    | (w1, some error) => (w1, some error)
  | .obj (.getterThrows error) :: _, w => (w, some error)
  | _ :: _, w => (w, some (.typeError "values[i].then is not a function"))

/-- Lines 245-251: `Promise.race(values)`. -/
def Promise.race (w : World) (values : List Val) : Nat × World :=
  newPromise w (fun c w1 => raceLoop c values w1)

/-- Lines 258-260: `Promise.setImmediateFn(fn)`: the assignment `asap = fn`.
No variable `asap` is declared, so in this non-strict file the assignment
creates a global; the scheduler that `handle` calls is the variable `ast` of
line 3, which nothing assigns after its initialisation. -/
def Promise.setImmediateFn (w : World) (fn : Val) : World :=
  { w with asap := some fn }

/-- Lines 270-272: `p.catch(onRejected)`. -/
def Promise.catch (w : World) (p : Nat) (onRejected : Val) : Nat × World :=
  Promise.then w p .null onRejected

/-- Lines 274-287: `p.always(callback)`.  The second closure captures
`callback` (and `constructor`, which is `Promise`). -/
def Promise.always (w : World) (p : Nat) (callback : Val) : Nat × World :=
  Promise.then (w.allocSlot callback) p (.func .alwaysValue)
    (.func (.alwaysReason w.slots.length))

/-- The receiver of a plain call `Promise(fn)`: the file has no 'use strict'
directive, so `this` is the global object, and `typeof this` is `'object'`. -/
def plainCallThis : ThisArg := .other true

/-- The `Handler` that line 248 of `Promise.race` registers on input number `i`
when the closures `resolve` and `reject` are those of cell `c`: `then` gives
its derived promise the cell `c + 1 + i`. -/
def raceHandler (c i : Nat) : Handler :=
  thenHandler (.func (.guardFulfilled c)) (.func (.guardRejected c)) (c + 1 + i)

/-- The world in which the derived promise `d1` of `always` waits for the
promise of `Promise.resolve(callback()).then(function () { throw reason })`:
`w` is the world after `Promise.resolve(callback())`, which gave promise `q`;
the closure of lines 282-284 captures `reason` and is registered on `q`, and
`resolve.call(d1, ...)` with the closures of cell `c1` registers on the promise
just made. -/
def alwaysWaiting (w : World) (q d1 c1 : Nat) (reason : Val) : World :=
  (((((((w.allocSlot reason).allocPromise.allocCell w.heap.length).ast
    ⟨q, thenHandler (.func (.rethrow w.slots.length)) .undefined w.cells.length⟩).setDone
    c1).allocCell d1).allocPromise.allocCell (w.heap.length + 1)).pushDeferred w.heap.length
    (thenHandler (.func (.guardFulfilled (w.cells.length + 1)))
      (.func (.guardRejected (w.cells.length + 1))) (w.cells.length + 2)))

/-- What the settlement of promise `d` hands to the scheduler: the continuations
stored in `d.deferreds`, in order, after what was queued; closures that could
still fire before it can still fire after it. -/
def Dispatched (d : Nat) (w w' : World) : Prop :=
  w'.queue = w.queue ++ (w.deferredsOf d).map (fun h => (⟨d, h⟩ : Task)) ∧
  ∀ c t, w.Live c t → w'.Live c t

/-- A world with two pending promises, 0 and 1, reached from the empty program
by two resolvers that return without calling back; their closures are in the
cells 0 and 1. -/
def exampleTwoPending : World := run exampleEnv World.empty [.construct .ret, .construct .ret]

/-- The world after `race([p0, p1])` on the two pending promises of
`exampleTwoPending` and the rejection of `p1` with 2 through its closure: the
aggregate is promise 2. -/
def exampleRaceRejected : World :=
  (callFn exampleEnv (.guardRejected 1) (.prim 2)
    (Promise.race exampleTwoPending [.promise 0, .promise 1]).2).1

/-- The world after `agg = race([p])` on the pending promise 0 of
`examplePending`, the fulfilment of `p` with an object `o = {}` through its
closure, and the assignment `o.then = function (a, b) { b(7) }`: the aggregate
is promise 1. -/
def exampleRaceAssigned : World :=
  (callFn exampleEnv (.guardFulfilled 0) (.obj .notCallable)
    (Promise.race examplePending [.promise 0]).2).1.assignThen 0
    (.method (.callSecond (.prim 7) .ret))

/-! ## Elementary facts about the heap operations -/

section basic
variable (w : World) (p q c : Nat) (s : State) (v : Val) (d : Handler) (t : Task)

@[simp] theorem settle_cells : (w.settle p s v).cells = w.cells := rfl
@[simp] theorem settle_log : (w.settle p s v).log = w.log := rfl
@[simp] theorem settle_queue : (w.settle p s v).queue = w.queue := rfl
@[simp] theorem settle_length : (w.settle p s v).heap.length = w.heap.length := by
  simp [World.settle]
@[simp] theorem pushDeferred_cells : (w.pushDeferred p d).cells = w.cells := rfl
@[simp] theorem pushDeferred_log : (w.pushDeferred p d).log = w.log := rfl
@[simp] theorem pushDeferred_queue : (w.pushDeferred p d).queue = w.queue := rfl
@[simp] theorem pushDeferred_length : (w.pushDeferred p d).heap.length = w.heap.length := by
  simp [World.pushDeferred]
@[simp] theorem clearDeferreds_cells : (w.clearDeferreds p).cells = w.cells := rfl
@[simp] theorem clearDeferreds_log : (w.clearDeferreds p).log = w.log := rfl
@[simp] theorem clearDeferreds_queue : (w.clearDeferreds p).queue = w.queue := rfl
@[simp] theorem clearDeferreds_length : (w.clearDeferreds p).heap.length = w.heap.length := by
  simp [World.clearDeferreds]
@[simp] theorem ast_cells : (w.ast t).cells = w.cells := rfl
@[simp] theorem ast_log : (w.ast t).log = w.log := rfl
@[simp] theorem ast_heap : (w.ast t).heap = w.heap := rfl
@[simp] theorem ast_queue : (w.ast t).queue = w.queue ++ [t] := rfl
@[simp] theorem allocCell_heap : (w.allocCell p).heap = w.heap := rfl
@[simp] theorem allocCell_log : (w.allocCell p).log = w.log := rfl
@[simp] theorem allocCell_queue : (w.allocCell p).queue = w.queue := rfl
@[simp] theorem allocCell_cells : (w.allocCell p).cells = w.cells ++ [⟨false, p⟩] := rfl
@[simp] theorem stateOf_allocCell : (w.allocCell p).stateOf q = w.stateOf q := rfl
@[simp] theorem valueOf_allocCell : (w.allocCell p).valueOf q = w.valueOf q := rfl
@[simp] theorem allocPromise_cells : w.allocPromise.cells = w.cells := rfl
@[simp] theorem allocPromise_log : w.allocPromise.log = w.log := rfl
@[simp] theorem allocPromise_queue : w.allocPromise.queue = w.queue := rfl
@[simp] theorem allocPromise_length : w.allocPromise.heap.length = w.heap.length + 1 := by
  simp [World.allocPromise]
@[simp] theorem setDone_heap : (w.setDone c).heap = w.heap := rfl
@[simp] theorem setDone_log : (w.setDone c).log = w.log := rfl
@[simp] theorem setDone_queue : (w.setDone c).queue = w.queue := rfl

theorem stateOf_settle : (w.settle p s v).stateOf q =
    if q = p ∧ p < w.heap.length then s else w.stateOf q := by
  simp only [World.stateOf, World.getP, World.settle, List.getElem?_modify]
  by_cases h : q = p
  · subst h
    by_cases hl : q < w.heap.length
    · simp [hl, List.getElem?_eq_getElem hl]
    · simp [hl, List.getElem?_eq_none (Nat.le_of_not_lt hl)]
  · have h' : ¬ p = q := fun e => h e.symm
    cases hq : w.heap[q]? <;> simp [h, h']

theorem valueOf_settle : (w.settle p s v).valueOf q =
    if q = p ∧ p < w.heap.length then v else w.valueOf q := by
  simp only [World.valueOf, World.getP, World.settle, List.getElem?_modify]
  by_cases h : q = p
  · subst h
    by_cases hl : q < w.heap.length
    · simp [hl, List.getElem?_eq_getElem hl]
    · simp [hl, List.getElem?_eq_none (Nat.le_of_not_lt hl)]
  · have h' : ¬ p = q := fun e => h e.symm
    cases hq : w.heap[q]? <;> simp [h, h']

@[simp] theorem stateOf_pushDeferred : (w.pushDeferred p d).stateOf q = w.stateOf q := by
  simp only [World.stateOf, World.getP, World.pushDeferred, List.getElem?_modify]
  cases hq : w.heap[q]? <;> by_cases h : p = q <;> simp [h]

@[simp] theorem valueOf_pushDeferred : (w.pushDeferred p d).valueOf q = w.valueOf q := by
  simp only [World.valueOf, World.getP, World.pushDeferred, List.getElem?_modify]
  cases hq : w.heap[q]? <;> by_cases h : p = q <;> simp [h]

@[simp] theorem stateOf_clearDeferreds : (w.clearDeferreds p).stateOf q = w.stateOf q := by
  simp only [World.stateOf, World.getP, World.clearDeferreds, List.getElem?_modify]
  cases hq : w.heap[q]? <;> by_cases h : p = q <;> simp [h]

@[simp] theorem valueOf_clearDeferreds : (w.clearDeferreds p).valueOf q = w.valueOf q := by
  simp only [World.valueOf, World.getP, World.clearDeferreds, List.getElem?_modify]
  cases hq : w.heap[q]? <;> by_cases h : p = q <;> simp [h]

@[simp] theorem stateOf_ast : (w.ast t).stateOf q = w.stateOf q := rfl
@[simp] theorem valueOf_ast : (w.ast t).valueOf q = w.valueOf q := rfl
@[simp] theorem stateOf_setDone : (w.setDone c).stateOf q = w.stateOf q := rfl
@[simp] theorem valueOf_setDone : (w.setDone c).valueOf q = w.valueOf q := rfl

@[simp] theorem handle_cells : (handle w p d).cells = w.cells := by
  unfold handle; split <;> rfl
@[simp] theorem handle_log : (handle w p d).log = w.log := by
  unfold handle; split <;> rfl
@[simp] theorem handle_length : (handle w p d).heap.length = w.heap.length := by
  unfold handle; split <;> simp
@[simp] theorem stateOf_handle : (handle w p d).stateOf q = w.stateOf q := by
  unfold handle; split <;> simp
@[simp] theorem valueOf_handle : (handle w p d).valueOf q = w.valueOf q := by
  unfold handle; split <;> simp

end basic

theorem foldl_handle_core (p : Nat) (ds : List Handler) : ∀ w : World,
    (ds.foldl (fun acc d => handle acc p d) w).cells = w.cells ∧
    (ds.foldl (fun acc d => handle acc p d) w).log = w.log ∧
    (ds.foldl (fun acc d => handle acc p d) w).heap.length = w.heap.length ∧
    ∀ q, (ds.foldl (fun acc d => handle acc p d) w).stateOf q = w.stateOf q ∧
      (ds.foldl (fun acc d => handle acc p d) w).valueOf q = w.valueOf q := by
  induction ds with
  | nil => intro w; simp
  | cons d ds ih =>
    intro w
    obtain ⟨h1, h2, h3, h4⟩ := ih (handle w p d)
    simp only [List.foldl_cons]
    refine ⟨by simp [h1], by simp [h2], by simp [h3], fun q => ?_⟩
    simp [h4 q]

section basic2
variable (w : World) (p q : Nat) (v : Val)

@[simp] theorem finale_cells : (finale w p).cells = w.cells := by
  simp [finale, (foldl_handle_core p _ w).1]
@[simp] theorem finale_log : (finale w p).log = w.log := by
  simp [finale, (foldl_handle_core p _ w).2.1]
@[simp] theorem finale_length : (finale w p).heap.length = w.heap.length := by
  simp [finale, (foldl_handle_core p _ w).2.2.1]
@[simp] theorem stateOf_finale : (finale w p).stateOf q = w.stateOf q := by
  simp [finale, ((foldl_handle_core p _ w).2.2.2 q).1]
@[simp] theorem valueOf_finale : (finale w p).valueOf q = w.valueOf q := by
  simp [finale, ((foldl_handle_core p _ w).2.2.2 q).2]

@[simp] theorem reject_cells : (reject w p v).cells = w.cells := by simp [reject]
@[simp] theorem reject_log : (reject w p v).log = w.log := by simp [reject]
@[simp] theorem reject_length : (reject w p v).heap.length = w.heap.length := by simp [reject]
theorem stateOf_reject : (reject w p v).stateOf q =
    if q = p ∧ p < w.heap.length then .rejected else w.stateOf q := by
  simp [reject, stateOf_settle]
theorem valueOf_reject : (reject w p v).valueOf q =
    if q = p ∧ p < w.heap.length then v else w.valueOf q := by
  simp [reject, valueOf_settle]

end basic2

/-! ## Frame properties of settlement -/

theorem CellsExt.refl (w : World) : CellsExt w w :=
  fun _ cell h => ⟨cell, h, rfl, id⟩

theorem CellsExt.trans {w1 w2 w3 : World} (h12 : CellsExt w1 w2) (h23 : CellsExt w2 w3) :
    CellsExt w1 w3 := by
  intro c cell h
  obtain ⟨c2, h2, t2, d2⟩ := h12 c cell h
  obtain ⟨c3, h3, t3, d3⟩ := h23 c c2 h2
  exact ⟨c3, h3, t3.trans t2, fun hd => d3 (d2 hd)⟩

theorem CellsExt.of_eq {w w' : World} (h : w'.cells = w.cells) : CellsExt w w' := by
  intro c cell hc
  exact ⟨cell, by rw [h]; exact hc, rfl, id⟩

theorem CellsExt.setDone (w : World) (c : Nat) : CellsExt w (w.setDone c) := by
  intro c' cell hc
  simp only [World.setDone, List.getElem?_modify, hc]
  by_cases h : c = c' <;> simp [h]

theorem CellsExt.alloc (w : World) (p : Nat) : CellsExt w (w.allocCell p) := by
  intro c cell' hc
  have hlt : c < w.cells.length := by
    by_contra hge
    rw [List.getElem?_eq_none (Nat.le_of_not_lt hge)] at hc
    cases hc
  exact ⟨cell', by simp [World.allocCell, List.getElem?_append_left hlt, hc], rfl, id⟩

theorem touches_refl (p : Nat) (w : World) : Touches p w w :=
  ⟨rfl, CellsExt.refl w, Nat.le_refl _, fun _ _ _ => ⟨rfl, rfl⟩, ⟨[], by simp⟩⟩

theorem touches_trans {p : Nat} {w1 w2 w3 : World} (h12 : Touches p w1 w2)
    (h23 : Touches p w2 w3) : Touches p w1 w3 := by
  refine ⟨h23.log.trans h12.log, h12.cells.trans h23.cells, Nat.le_trans h12.len h23.len, ?_, ?_⟩
  · intro q hq hl
    obtain ⟨a1, a2⟩ := h12.frame q hq hl
    obtain ⟨b1, b2⟩ := h23.frame q hq (Nat.lt_of_lt_of_le hl h12.len)
    exact ⟨b1.trans a1, b2.trans a2⟩
  · obtain ⟨t1, e1⟩ := h12.queue
    obtain ⟨t2, e2⟩ := h23.queue
    exact ⟨t1 ++ t2, by rw [e2, e1, List.append_assoc]⟩

/-- A step that leaves every existing promise alone touches any promise. -/
theorem touches_of_fresh {p p' : Nat} {w w' : World} (h : Touches p w w')
    (hp : w.heap.length ≤ p) : Touches p' w w' :=
  ⟨h.log, h.cells, h.len, fun q _ hl => h.frame q (by omega) hl, h.queue⟩

theorem touches_setDone (p : Nat) (w : World) (c : Nat) : Touches p w (w.setDone c) :=
  ⟨rfl, CellsExt.setDone w c, Nat.le_refl _, fun _ _ _ => ⟨rfl, rfl⟩, ⟨[], by simp⟩⟩

theorem touches_allocCell (p : Nat) (w : World) (t : Nat) : Touches p w (w.allocCell t) :=
  ⟨rfl, CellsExt.alloc w t, Nat.le_refl _, fun _ _ _ => ⟨rfl, rfl⟩, ⟨[], by simp⟩⟩

theorem getP_allocPromise (w : World) (q : Nat) :
    w.allocPromise.getP q = w.getP q := by
  simp only [World.getP, World.allocPromise]
  by_cases h : q < w.heap.length
  · rw [List.getElem?_append_left h]
  · have hge := Nat.le_of_not_lt h
    rw [List.getElem?_append_right hge, List.getElem?_eq_none hge]
    cases hq : q - w.heap.length with
    | zero => rfl
    | succ n => rfl

theorem stateOf_allocPromise (w : World) (q : Nat) :
    w.allocPromise.stateOf q = w.stateOf q := by
  simp only [World.stateOf, getP_allocPromise]

theorem valueOf_allocPromise (w : World) (q : Nat) :
    w.allocPromise.valueOf q = w.valueOf q := by
  simp only [World.valueOf, getP_allocPromise]

theorem touches_allocPromise (p : Nat) (w : World) : Touches p w w.allocPromise :=
  ⟨rfl, CellsExt.of_eq rfl, by simp [World.allocPromise], fun q _ _ =>
    ⟨stateOf_allocPromise w q, valueOf_allocPromise w q⟩, ⟨[], by simp⟩⟩

theorem touches_settle (p : Nat) (w : World) (s : State) (v : Val) :
    Touches p w (w.settle p s v) := by
  refine ⟨rfl, CellsExt.of_eq rfl, by simp, fun q hq _ => ?_, ⟨[], by simp⟩⟩
  simp [stateOf_settle, valueOf_settle, hq]

theorem touches_handle (p : Nat) (w : World) (q : Nat) (d : Handler) :
    Touches p w (handle w q d) := by
  refine ⟨by simp, CellsExt.of_eq (by simp), by simp, fun _ _ _ => by simp, ?_⟩
  unfold handle
  split
  · exact ⟨[], by simp⟩
  · exact ⟨[_], rfl⟩

theorem foldl_handle_queue (p : Nat) (ds : List Handler) : ∀ w : World,
    ∃ ts, (ds.foldl (fun acc d => handle acc p d) w).queue = w.queue ++ ts := by
  induction ds with
  | nil => intro w; exact ⟨[], by simp⟩
  | cons d ds ih =>
    intro w
    obtain ⟨ts, hts⟩ := ih (handle w p d)
    obtain ⟨t1, ht1⟩ := (touches_handle 0 w p d).queue
    exact ⟨t1 ++ ts, by simp only [List.foldl_cons, hts, ht1, List.append_assoc]⟩

theorem touches_finale (p : Nat) (w : World) (q : Nat) : Touches p w (finale w q) := by
  refine ⟨by simp, CellsExt.of_eq (by simp), by simp, fun _ _ _ => by simp, ?_⟩
  obtain ⟨ts, hts⟩ := foldl_handle_queue q (w.deferredsOf q) w
  exact ⟨ts, by simp [finale, hts]⟩

theorem touches_reject (w : World) (p : Nat) (v : Val) : Touches p w (reject w p v) :=
  touches_trans (touches_settle p w .rejected v) (touches_finale p _ p)

theorem touches_fulfil (w : World) (p : Nat) (v : Val) :
    Touches p w (finale (w.settle p .fulfilled v) p) :=
  touches_trans (touches_settle p w .fulfilled v) (touches_finale p _ p)

theorem touches_doResolve (p : Nat) (w : World) (fn : Executor)
    (hfn : Touches p (w.allocCell p) (fn w.cells.length (w.allocCell p)).1) :
    Touches p w (doResolve fn p w) := by
  have h0 := touches_trans (touches_allocCell p w p) hfn
  cases hr : fn w.cells.length (w.allocCell p) with
  | mk w2 thrown =>
    rw [hr] at h0
    cases thrown with
    | none => simpa only [doResolve, hr] using h0
    | some error =>
      simp only [doResolve, hr]
      split
      · exact h0
      · exact touches_trans h0 (touches_trans (touches_setDone p w2 _) (touches_reject _ p error))

theorem touches_newPromise (p' : Nat) (w : World) (fn : Executor)
    (hfn : Touches w.heap.length (w.allocPromise.allocCell w.heap.length)
      (fn w.cells.length (w.allocPromise.allocCell w.heap.length)).1) :
    Touches p' w (newPromise w fn).2 := by
  have h1 := touches_doResolve w.heap.length w.allocPromise fn hfn
  exact touches_of_fresh (touches_trans (touches_allocPromise w.heap.length w) h1) (Nat.le_refl _)

theorem touches_then (p' : Nat) (w : World) (q : Nat) (a b : Val) :
    Touches p' w (Promise.then w q a b).2 :=
  touches_newPromise p' w _ (touches_handle _ _ q _)

theorem targetOf_of_cellsExt {w w' : World} (h : CellsExt w w') {c : Nat} {cell : Cell}
    (hc : w.cells[c]? = some cell) : w'.targetOf c = cell.target := by
  obtain ⟨cell', h1, h2, _⟩ := h c cell hc
  simp [World.targetOf, h1, h2]

theorem isDone_false_iff (w : World) (c : Nat) :
    w.isDone c = false ↔ w.Live c (w.targetOf c) := by
  unfold World.isDone World.Live World.targetOf
  cases hc : w.cells[c]? with
  | none => simp
  | some cell =>
    cases cell with
    | mk d t => cases d <;> simp

mutual
theorem touches_resolve : ∀ (v : Val) (w : World) (p : Nat), Touches p w (resolve w p v)
  | .promise q, w, p => by
    unfold resolve
    split
    · exact touches_reject w p _
    · exact touches_doResolve p w _ (touches_then p _ q _ _)
  | .obj (.getterThrows error), w, p => by
    unfold resolve
    exact touches_reject w p error
  | .obj (.method body), w, p => by
    unfold resolve
    refine touches_doResolve p w _ ?_
    have h := touches_runBody body (w.allocCell p) w.cells.length
    have ht : (w.allocCell p).targetOf w.cells.length = p := by
      simp [World.targetOf, World.allocCell]
    rwa [ht] at h
  | .obj .notCallable, w, p => by unfold resolve; exact touches_fulfil w p _
  | .undefined, w, p => by unfold resolve; exact touches_fulfil w p _
  | .null, w, p => by unfold resolve; exact touches_fulfil w p _
  | .prim n, w, p => by unfold resolve; exact touches_fulfil w p _
  | .typeError msg, w, p => by unfold resolve; exact touches_fulfil w p _
  | .array items, w, p => by unfold resolve; exact touches_fulfil w p _
  | .func f, w, p => by unfold resolve; exact touches_fulfil w p _
theorem touches_runBody : ∀ (b : Body) (w : World) (c : Nat),
    Touches (w.targetOf c) w (runBody w c b).1
  | .ret, w, c => by unfold runBody; exact touches_refl _ w
  | .throw error, w, c => by unfold runBody; exact touches_refl _ w
  | .callFirst v rest, w, c => by
    unfold runBody
    by_cases hd : w.isDone c = true
    · simp only [guardedFulfil, hd, if_true]
      exact touches_runBody rest w c
    · have hd' : w.isDone c = false := by simpa using hd
      have hl := (isDone_false_iff w c).1 hd'
      simp only [guardedFulfil, hd', Bool.false_eq_true, if_false]
      have h1 := touches_trans (touches_setDone (w.targetOf c) w c)
        (touches_resolve v (w.setDone c) (w.targetOf c))
      have ht := targetOf_of_cellsExt h1.cells hl
      have h2 := touches_runBody rest (resolve (w.setDone c) (w.targetOf c) v) c
      rw [ht] at h2
      exact touches_trans h1 h2
  | .callSecond v rest, w, c => by
    unfold runBody
    by_cases hd : w.isDone c = true
    · simp only [guardedReject, hd, if_true]
      exact touches_runBody rest w c
    · have hd' : w.isDone c = false := by simpa using hd
      have hl := (isDone_false_iff w c).1 hd'
      simp only [guardedReject, hd', Bool.false_eq_true, if_false]
      have h1 := touches_trans (touches_setDone (w.targetOf c) w c)
        (touches_reject (w.setDone c) (w.targetOf c) v)
      have ht := targetOf_of_cellsExt h1.cells hl
      have h2 := touches_runBody rest (reject (w.setDone c) (w.targetOf c) v) c
      rw [ht] at h2
      exact touches_trans h1 h2
end

/-! ## The invariant of the `done` flags -/

theorem stateOf_of_length_le (w : World) (p : Nat) (h : w.heap.length ≤ p) :
    w.stateOf p = .pending := by
  simp [World.stateOf, World.getP, List.getElem?_eq_none h, PromiseObj.fresh]

theorem lt_length_of_settled (w : World) (p : Nat) (h : w.stateOf p ≠ .pending) :
    p < w.heap.length := by
  by_contra hge
  exact h (stateOf_of_length_le w p (Nat.le_of_not_lt hge))

theorem inv_of_same {w w' : World} (hc : w'.cells = w.cells)
    (hl : w.heap.length ≤ w'.heap.length) (hs : ∀ q, w'.stateOf q = w.stateOf q) (h : Inv w) :
    Inv w' := by
  constructor
  · intro c t hlive
    have hlive' : w.Live c t := by unfold World.Live at *; rwa [hc] at hlive
    obtain ⟨h1, h2⟩ := h.pending c t hlive'
    exact ⟨Nat.lt_of_lt_of_le h1 hl, by rw [hs]; exact h2⟩
  · intro c c' t h1 h2
    unfold World.Live at h1 h2
    rw [hc] at h1 h2
    exact h.unique c c' t h1 h2

theorem live_setDone {w : World} {c c' t : Nat} (h : (w.setDone c).Live c' t) :
    w.Live c' t ∧ c' ≠ c := by
  unfold World.Live World.setDone at h
  simp only [List.getElem?_modify] at h
  unfold World.Live
  cases hc : w.cells[c']? with
  | none => simp [hc] at h
  | some cell =>
    by_cases e : c = c'
    · subst e
      simp [hc] at h
    · simp [hc, e] at h
      exact ⟨by rw [h], fun e' => e e'.symm⟩

theorem inv_setDone {w : World} (c : Nat) (h : Inv w) : Inv (w.setDone c) := by
  constructor
  · intro c' t hl
    exact h.pending c' t (live_setDone hl).1
  · intro c1 c2 t h1 h2
    exact h.unique c1 c2 t (live_setDone h1).1 (live_setDone h2).1

theorem quiet_setDone {w : World} {c t : Nat} (h : Inv w) (hl : w.Live c t) :
    (w.setDone c).Quiet t := by
  intro c' hl'
  obtain ⟨h1, h2⟩ := live_setDone hl'
  exact h2 (h.unique c' c t h1 hl)

theorem inv_settle {w : World} {p : Nat} (s : State) (v : Val) (h : Inv w) (hq : w.Quiet p) :
    Inv (w.settle p s v) := by
  constructor
  · intro c t hl
    have hl' : w.Live c t := hl
    obtain ⟨h1, h2⟩ := h.pending c t hl'
    have hne : t ≠ p := fun e => hq c (e ▸ hl')
    exact ⟨by simpa using h1, by simp [stateOf_settle, hne, h2]⟩
  · intro c c' t h1 h2
    exact h.unique c c' t h1 h2

theorem inv_handle {w : World} (p : Nat) (d : Handler) (h : Inv w) : Inv (handle w p d) :=
  inv_of_same (by simp) (by simp) (by simp) h

theorem inv_finale {w : World} (p : Nat) (h : Inv w) : Inv (finale w p) :=
  inv_of_same (by simp) (by simp) (by simp) h

theorem quiet_finale {w : World} {p : Nat} (q : Nat) (h : w.Quiet p) : (finale w q).Quiet p := by
  intro c hl
  unfold World.Live at hl
  rw [finale_cells] at hl
  exact h c hl

theorem inv_reject {w : World} {p : Nat} (v : Val) (h : Inv w) (hq : w.Quiet p) :
    Inv (reject w p v) :=
  inv_finale p (inv_settle .rejected v h hq)

theorem inv_fulfil {w : World} {p : Nat} (v : Val) (h : Inv w) (hq : w.Quiet p) :
    Inv (finale (w.settle p .fulfilled v) p) :=
  inv_finale p (inv_settle .fulfilled v h hq)

theorem live_allocCell {w : World} {p c t : Nat} (h : (w.allocCell p).Live c t) :
    w.Live c t ∨ (c = w.cells.length ∧ t = p) := by
  unfold World.Live at *
  simp only [allocCell_cells, List.getElem?_append] at h
  split at h
  · exact Or.inl h
  · rename_i hge
    right
    cases hk : c - w.cells.length with
    | zero =>
      rw [hk] at h
      simp at h
      exact ⟨by omega, h.symm⟩
    | succ n =>
      rw [hk] at h
      simp at h

theorem live_allocCell_self (w : World) (p : Nat) : (w.allocCell p).Live w.cells.length p := by
  simp [World.Live]

theorem inv_allocCell {w : World} {p : Nat} (h : Inv w) (hq : w.Quiet p)
    (hlt : p < w.heap.length) (hp : w.stateOf p = .pending) : Inv (w.allocCell p) := by
  constructor
  · intro c t hl
    rcases live_allocCell hl with h1 | ⟨_, h2⟩
    · exact h.pending c t h1
    · subst h2
      exact ⟨hlt, hp⟩
  · intro c c' t h1 h2
    rcases live_allocCell h1 with a | ⟨a1, a2⟩ <;> rcases live_allocCell h2 with b | ⟨b1, b2⟩
    · exact h.unique c c' t a b
    · subst b2; exact absurd a (hq c)
    · subst a2; exact absurd b (hq c')
    · rw [a1, b1]

theorem inv_allocPromise {w : World} (h : Inv w) : Inv w.allocPromise :=
  inv_of_same (w := w) rfl (by simp) (stateOf_allocPromise w) h

theorem quiet_allocPromise {w : World} (h : Inv w) : w.allocPromise.Quiet w.heap.length := by
  intro c hl
  have hl' : w.Live c w.heap.length := hl
  exact Nat.lt_irrefl _ (h.pending c _ hl').1

theorem inv_doResolve {w : World} {p : Nat} (fn : Executor) (h : Inv w) (hq : w.Quiet p)
    (hlt : p < w.heap.length) (hp : w.stateOf p = .pending)
    (hfn : Inv (w.allocCell p) → Inv (fn w.cells.length (w.allocCell p)).1)
    (hext : CellsExt (w.allocCell p) (fn w.cells.length (w.allocCell p)).1) :
    Inv (doResolve fn p w) := by
  have h1 := hfn (inv_allocCell h hq hlt hp)
  cases hr : fn w.cells.length (w.allocCell p) with
  | mk w2 thrown =>
    rw [hr] at h1 hext
    cases thrown with
    | none => simpa only [doResolve, hr] using h1
    | some error =>
      simp only [doResolve, hr]
      split
      · exact h1
      · rename_i hd
        have hd' : w2.isDone w.cells.length = false := by simpa using hd
        have hl := (isDone_false_iff w2 _).1 hd'
        have ht : w2.targetOf w.cells.length = p :=
          targetOf_of_cellsExt hext (live_allocCell_self w p)
        rw [ht] at hl
        exact inv_reject error (inv_setDone _ h1) (quiet_setDone h1 hl)

theorem inv_newPromise {w : World} (fn : Executor) (h : Inv w)
    (hfn : Inv (w.allocPromise.allocCell w.heap.length) →
      Inv (fn w.cells.length (w.allocPromise.allocCell w.heap.length)).1)
    (hext : CellsExt (w.allocPromise.allocCell w.heap.length)
      (fn w.cells.length (w.allocPromise.allocCell w.heap.length)).1) :
    Inv (newPromise w fn).2 :=
  inv_doResolve fn (inv_allocPromise h) (quiet_allocPromise h) (by simp)
    (by rw [stateOf_allocPromise]; exact stateOf_of_length_le w _ (Nat.le_refl _)) hfn hext

theorem inv_then {w : World} (q : Nat) (a b : Val) (h : Inv w) : Inv (Promise.then w q a b).2 :=
  inv_newPromise _ h (fun hi => inv_handle q _ hi) (CellsExt.of_eq (by simp))

theorem inv_guarded {w : World} (c : Nat) (k : World → World) (h : Inv w)
    (hk : ∀ t, w.Live c t → t = w.targetOf c → Inv (w.setDone c) → (w.setDone c).Quiet t →
      t < (w.setDone c).heap.length → (w.setDone c).stateOf t = .pending → Inv (k (w.setDone c))) :
    Inv (if w.isDone c = true then w else k (w.setDone c)) := by
  split
  · exact h
  · rename_i hd
    have hd' : w.isDone c = false := by simpa using hd
    have hl := (isDone_false_iff w c).1 hd'
    obtain ⟨h1, h2⟩ := h.pending c _ hl
    exact hk _ hl rfl (inv_setDone c h) (quiet_setDone h hl) h1 h2

mutual
theorem inv_resolve : ∀ (v : Val) (w : World) (p : Nat), Inv w → w.Quiet p →
    p < w.heap.length → w.stateOf p = .pending → Inv (resolve w p v)
  | .promise q, w, p, h, hq, hlt, hp => by
    unfold resolve
    split
    · exact inv_reject _ h hq
    · exact inv_doResolve _ h hq hlt hp (fun hi => inv_then q _ _ hi)
        (touches_then 0 _ q _ _).cells
  | .obj (.getterThrows error), w, p, h, hq, _, _ => by
    unfold resolve
    exact inv_reject error h hq
  | .obj (.method body), w, p, h, hq, hlt, hp => by
    unfold resolve
    exact inv_doResolve _ h hq hlt hp (fun hi => inv_runBody body _ _ hi)
      (touches_runBody body _ _).cells
  | .obj .notCallable, w, p, h, hq, _, _ => by unfold resolve; exact inv_fulfil _ h hq
  | .undefined, w, p, h, hq, _, _ => by unfold resolve; exact inv_fulfil _ h hq
  | .null, w, p, h, hq, _, _ => by unfold resolve; exact inv_fulfil _ h hq
  | .prim n, w, p, h, hq, _, _ => by unfold resolve; exact inv_fulfil _ h hq
  | .typeError msg, w, p, h, hq, _, _ => by unfold resolve; exact inv_fulfil _ h hq
  | .array items, w, p, h, hq, _, _ => by unfold resolve; exact inv_fulfil _ h hq
  | .func f, w, p, h, hq, _, _ => by unfold resolve; exact inv_fulfil _ h hq
theorem inv_runBody : ∀ (b : Body) (w : World) (c : Nat), Inv w → Inv (runBody w c b).1
  | .ret, w, c, h => by unfold runBody; exact h
  | .throw error, w, c, h => by unfold runBody; exact h
  | .callFirst v rest, w, c, h => by
    unfold runBody
    refine inv_runBody rest _ c ?_
    unfold guardedFulfil
    exact inv_guarded c (fun w1 => resolve w1 (w.targetOf c) v) h (fun t _ ht hi hq hlt hp => by
      subst ht
      exact inv_resolve v _ _ hi hq hlt hp)
  | .callSecond v rest, w, c, h => by
    unfold runBody
    refine inv_runBody rest _ c ?_
    unfold guardedReject
    exact inv_guarded c (fun w1 => reject w1 (w.targetOf c) v) h (fun t _ ht hi hq _ _ => by
      subst ht
      exact inv_reject v hi hq)
end

/-! ## Properties kept by every closure of the library -/

theorem closed_allStore {P : World → World → Prop} (hP : StepClosed P) (w : World)
    (k i : Nat) (val : Val) : P w (allStore w k i val) := by
  unfold allStore
  simp only
  split
  · exact hP.trans (hP.alls w _) (hP.fulfil _ _ _)
  · exact hP.alls w _

mutual
theorem closed_allRecursive {P : World → World → Prop} (hP : StepClosed P) :
    ∀ (v : Val) (w : World) (k i : Nat), P w (allRecursive w k i v)
  | .promise q, w, k, i => by unfold allRecursive; exact hP.register w q _ _
  | .obj (.getterThrows error), w, k, i => by unfold allRecursive; exact hP.reject w _ error
  | .obj (.method body), w, k, i => by
    unfold allRecursive
    have h := closed_runBodyAll hP body w k i
    cases hr : runBodyAll w k i body with
    | mk w1 thrown =>
      rw [hr] at h
      cases thrown with
      | none => exact h
      | some error => exact hP.trans h (hP.reject w1 _ error)
  | .obj .notCallable, w, k, i => by unfold allRecursive; exact closed_allStore hP w k i _
  | .undefined, w, k, i => by unfold allRecursive; exact closed_allStore hP w k i _
  | .null, w, k, i => by unfold allRecursive; exact closed_allStore hP w k i _
  | .prim n, w, k, i => by unfold allRecursive; exact closed_allStore hP w k i _
  | .typeError msg, w, k, i => by unfold allRecursive; exact closed_allStore hP w k i _
  | .array items, w, k, i => by unfold allRecursive; exact closed_allStore hP w k i _
  | .func f, w, k, i => by unfold allRecursive; exact closed_allStore hP w k i _
theorem closed_runBodyAll {P : World → World → Prop} (hP : StepClosed P) :
    ∀ (b : Body) (w : World) (k i : Nat), P w (runBodyAll w k i b).1
  | .ret, w, k, i => by unfold runBodyAll; exact hP.refl w
  | .throw error, w, k, i => by unfold runBodyAll; exact hP.refl w
  | .callFirst v rest, w, k, i => by
    unfold runBodyAll
    exact hP.trans (closed_allRecursive hP v w k i) (closed_runBodyAll hP rest _ k i)
  | .callSecond v rest, w, k, i => by
    unfold runBodyAll
    exact hP.trans (hP.reject w _ v) (closed_runBodyAll hP rest _ k i)
end

theorem closed_callBase {P : World → World → Prop} (hP : StepClosed P) (env : Env) (f : Fn)
    (v : Val) (w : World) : P w (callBase env f v w).1 := by
  cases f with
  | user id => exact hP.log w _
  | guardFulfilled c => exact hP.fulfil w c v
  | guardRejected c => exact hP.reject w c v
  | alwaysValue => exact hP.refl w
  | alwaysReason s => exact hP.refl w
  | rethrow s => exact hP.refl w
  | allItem k i => exact closed_allRecursive hP v w k i

theorem closed_callNoArgs {P : World → World → Prop} (hP : StepClosed P) (env : Env)
    (cb : Val) (w : World) : P w (callNoArgs env cb w).1 := by
  cases cb with
  | func f => exact closed_callBase hP env f _ w
  | _ => exact hP.refl w

theorem closed_resolveStatic {P : World → World → Prop} (hP : StepClosed P) (w : World)
    (value : Val) : P w (Promise.resolve w value).2 := by
  cases value with
  | promise q => exact hP.refl w
  | obj t => exact hP.construct w (.callFirst (.obj t) .ret)
  | undefined => exact hP.construct w (.callFirst .undefined .ret)
  | null => exact hP.construct w (.callFirst .null .ret)
  | prim n => exact hP.construct w (.callFirst (.prim n) .ret)
  | typeError msg => exact hP.construct w (.callFirst (.typeError msg) .ret)
  | array items => exact hP.construct w (.callFirst (.array items) .ret)
  | func f => exact hP.construct w (.callFirst (.func f) .ret)

theorem closed_callFn {P : World → World → Prop} (hP : StepClosed P) (env : Env) (f : Fn)
    (v : Val) (w : World) : P w (callFn env f v w).1 := by
  cases f with
  | user id => exact closed_callBase hP env _ v w
  | guardFulfilled c => exact closed_callBase hP env _ v w
  | guardRejected c => exact closed_callBase hP env _ v w
  | alwaysValue => exact closed_callBase hP env _ v w
  | rethrow s => exact closed_callBase hP env _ v w
  | allItem k i => exact closed_callBase hP env _ v w
  | alwaysReason s =>
    have h1 := closed_callNoArgs hP env (w.slotOf s) w
    simp only [callFn]
    cases hr : callNoArgs env (w.slotOf s) w with
    | mk w1 r =>
      rw [hr] at h1
      cases r with
      | throw error => exact h1
      | normal result =>
        have h2 := closed_resolveStatic hP w1 result
        simp only
        cases hq : Promise.resolve w1 result with
        | mk val w2 =>
          rw [hq] at h2
          cases val with
          | promise q =>
            exact hP.trans h1 (hP.trans h2 (hP.trans (hP.slots w2 _) (hP.register _ q _ _)))
          | _ => exact hP.trans h1 h2

theorem stable_refl (w : World) : Stable w w := fun _ _ => ⟨rfl, rfl⟩

theorem stable_trans {w1 w2 w3 : World} (h12 : Stable w1 w2) (h23 : Stable w2 w3) :
    Stable w1 w3 := by
  intro q hq
  obtain ⟨a1, a2⟩ := h12 q hq
  obtain ⟨b1, b2⟩ := h23 q (by rw [a1]; exact hq)
  exact ⟨b1.trans a1, b2.trans a2⟩

theorem stable_of_touches {p : Nat} {w w' : World} (h : Touches p w w')
    (hp : w.stateOf p = .pending) : Stable w w' := by
  intro q hq
  exact h.frame q (fun e => hq (e ▸ hp)) (lt_length_of_settled w q hq)

theorem stable_guarded {w : World} (c : Nat) (k : World → World) (h : Inv w)
    (hk : Touches (w.targetOf c) (w.setDone c) (k (w.setDone c))) :
    Stable w (if w.isDone c = true then w else k (w.setDone c)) := by
  split
  · exact stable_refl w
  · rename_i hd
    have hd' : w.isDone c = false := by simpa using hd
    have hl := (isDone_false_iff w c).1 hd'
    exact stable_of_touches (touches_trans (touches_setDone _ w c) hk) (h.pending c _ hl).2

theorem stable_of_same {w w' : World} (hh : w'.heap = w.heap) : Stable w w' := by
  intro q _
  simp only [World.stateOf, World.valueOf, World.getP, hh, and_self]

theorem keeps_of_same {w w' : World} (hc : w'.cells = w.cells) (hh : w'.heap = w.heap) :
    Keeps w w' := fun h =>
  ⟨inv_of_same hc (by rw [hh]) (fun q => by simp only [World.stateOf, World.getP, hh]) h,
    stable_of_same hh⟩

theorem keeps_closed : StepClosed Keeps where
  refl := fun w h => ⟨h, stable_refl w⟩
  trans := fun h12 h23 h =>
    ⟨(h23 (h12 h).1).1, stable_trans (h12 h).2 (h23 (h12 h).1).2⟩
  register := fun w q a b h =>
    ⟨inv_then q a b h, stable_of_touches (touches_then w.heap.length w q a b)
      (stateOf_of_length_le w _ (Nat.le_refl _))⟩
  reject := fun w c v h => by
    unfold guardedReject
    exact ⟨inv_guarded c (fun w1 => reject w1 (w.targetOf c) v) h (fun t _ ht hi hq _ _ => by
        subst ht
        exact inv_reject v hi hq),
      stable_guarded c (fun w1 => reject w1 (w.targetOf c) v) h (touches_reject _ _ v)⟩
  fulfil := fun w c v h => by
    unfold guardedFulfil
    exact ⟨inv_guarded c (fun w1 => resolve w1 (w.targetOf c) v) h
        (fun t _ ht hi hq hlt hp => by
          subst ht
          exact inv_resolve v _ _ hi hq hlt hp),
      stable_guarded c (fun w1 => resolve w1 (w.targetOf c) v) h (touches_resolve v _ _)⟩
  construct := fun w fn h => by
    refine ⟨inv_newPromise _ h (fun hi => inv_runBody fn _ _ hi) (touches_runBody fn _ _).cells, ?_⟩
    have ht : Touches w.heap.length w (newPromise w (script fn)).2 := by
      refine touches_newPromise _ w _ ?_
      have := touches_runBody fn (w.allocPromise.allocCell w.heap.length) w.cells.length
      simpa [World.targetOf, script] using this
    exact stable_of_touches ht (stateOf_of_length_le w _ (Nat.le_refl _))
  slots := fun _ _ => keeps_of_same rfl rfl
  alls := fun _ _ => keeps_of_same rfl rfl
  log := fun _ _ => keeps_of_same rfl rfl
  asap := fun _ _ => keeps_of_same rfl rfl

theorem inv_callFn (env : Env) (f : Fn) (v : Val) {w : World} (h : Inv w) :
    Inv (callFn env f v w).1 :=
  (closed_callFn keeps_closed env f v w h).1

theorem stable_callFn (env : Env) (f : Fn) (v : Val) {w : World} (h : Inv w) :
    Stable w (callFn env f v w).1 :=
  (closed_callFn keeps_closed env f v w h).2

theorem inv_stable_runTask (env : Env) (t : Task) {w : World} (h : Inv w) :
    Inv (runTask env t w).1 ∧ Stable w (runTask env t w).1 := by
  unfold runTask
  simp only
  split
  · exact ⟨inv_callFn env _ _ h, stable_callFn env _ _ h⟩
  · rename_i cb _
    have h1 := inv_callFn env cb (w.valueOf t.self) h
    have s1 := stable_callFn env cb (w.valueOf t.self) h
    cases hr : callFn env cb (w.valueOf t.self) w with
    | mk w1 r =>
      rw [hr] at h1 s1
      cases r with
      | normal result =>
        exact ⟨inv_callFn env _ _ h1, stable_trans s1 (stable_callFn env _ _ h1)⟩
      | throw error =>
        exact ⟨inv_callFn env _ _ h1, stable_trans s1 (stable_callFn env _ _ h1)⟩

theorem inv_stable_step (env : Env) (ev : Event) {w : World} (h : Inv w) :
    Inv (step env w ev) ∧ Stable w (step env w ev) := by
  cases ev with
  | construct fn =>
    refine ⟨inv_newPromise _ h (fun hi => inv_runBody fn _ _ hi) (touches_runBody fn _ _).cells, ?_⟩
    have ht : Touches w.heap.length w (newPromise w (fun c w1 => runBody w1 c fn)).2 := by
      refine touches_newPromise _ w _ ?_
      have := touches_runBody fn (w.allocPromise.allocCell w.heap.length) w.cells.length
      simpa [World.targetOf] using this
    exact stable_of_touches ht (stateOf_of_length_le w _ (Nat.le_refl _))
  | call f v => exact ⟨inv_callFn env f v h, stable_callFn env f v h⟩
  | thenCall p a b =>
    exact ⟨inv_then p a b h, stable_of_touches (touches_then w.heap.length w p a b)
      (stateOf_of_length_le w _ (Nat.le_refl _))⟩
  | tick =>
    simp only [step, tick]
    split
    · exact ⟨h, stable_refl w⟩
    · rename_i t ts _
      have h' : Inv { w with queue := ts } :=
        inv_of_same (w := w) rfl (Nat.le_refl _) (fun _ => rfl) h
      exact inv_stable_runTask env t h'

theorem inv_stable_run (env : Env) (evs : List Event) : ∀ {w : World}, Inv w →
    Inv (run env w evs) ∧ Stable w (run env w evs) := by
  induction evs with
  | nil => intro w h; exact ⟨h, stable_refl w⟩
  | cons ev evs ih =>
    intro w h
    obtain ⟨h1, s1⟩ := inv_stable_step env ev h
    obtain ⟨h2, s2⟩ := ih h1
    exact ⟨h2, stable_trans s1 s2⟩

theorem inv_empty : Inv World.empty := by
  constructor
  · intro c t hl
    simp [World.Live, World.empty] at hl
  · intro c c' t hl
    simp [World.Live, World.empty] at hl

theorem run_append (env : Env) (w : World) (evs evs' : List Event) :
    run env w (evs ++ evs') = run env (run env w evs) evs' := by
  simp [run, List.foldl_append]

/-! ## C1: single assignment -/

/-- C1 (single assignment): in every world reached from the empty program by
any sequence of events (constructions with any resolver script, calls of any
function value, in particular of both closures of any `doResolve` call, any
number of times and in any order, `then` registrations and scheduler ticks), a
promise whose state is fulfilled or rejected keeps its state and its value
through every further sequence of events. -/
theorem single_assignment (env : Env) (evs evs' : List Event) (p : Nat)
    (h : (run env World.empty evs).stateOf p ≠ .pending) :
    (run env (run env World.empty evs) evs').stateOf p = (run env World.empty evs).stateOf p ∧
    (run env (run env World.empty evs) evs').valueOf p = (run env World.empty evs).valueOf p :=
  (inv_stable_run env evs' (inv_stable_run env evs inv_empty).1).2 p h

/-- C1 at a resolver that fulfils with 1, then rejects with 2, then throws 3,
followed by later calls of both closures: the promise stays fulfilled with 1. -/
theorem single_assignment_witness :
    (run (fun _ _ => .normal .undefined) World.empty
      [.construct (.callFirst (.prim 1) (.callSecond (.prim 2) (.throw (.prim 3))))]).stateOf 0
      ≠ .pending ∧
    (run (fun _ _ => .normal .undefined)
      (run (fun _ _ => .normal .undefined) World.empty
        [.construct (.callFirst (.prim 1) (.callSecond (.prim 2) (.throw (.prim 3))))])
      [.call (.guardRejected 0) (.prim 5), .call (.guardFulfilled 0) (.prim 6), .tick]).stateOf 0
      = .fulfilled :=
  ⟨by decide, (single_assignment (fun _ _ => .normal .undefined)
    [.construct (.callFirst (.prim 1) (.callSecond (.prim 2) (.throw (.prim 3))))]
    [.call (.guardRejected 0) (.prim 5), .call (.guardFulfilled 0) (.prim 6), .tick] 0
    (by decide)).1.trans (by decide)⟩

/-! ## Dispatch of one registration -/

theorem resolve_plain (w : World) (p : Nat) (r : Val) (h : r.plain = true) :
    resolve w p r = finale (w.settle p .fulfilled r) p := by
  cases r with
  | obj t => cases t <;> first | (unfold resolve; rfl) | simp [Val.plain] at h
  | promise q => simp [Val.plain] at h
  | _ => unfold resolve; rfl

theorem then_settled (w : World) (p : Nat) (a b : Val) (h : w.stateOf p ≠ .pending) :
    Promise.then w p a b =
      (w.heap.length, (w.allocPromise.allocCell w.heap.length).ast
        ⟨p, thenHandler a b w.cells.length⟩) := by
  simp [Promise.then, newPromise, doResolve, handle, stateOf_allocPromise, h, thenHandler]

theorem then_pending (w : World) (p : Nat) (a b : Val) (h : w.stateOf p = .pending) :
    Promise.then w p a b =
      (w.heap.length, (w.allocPromise.allocCell w.heap.length).pushDeferred p
        (thenHandler a b w.cells.length)) := by
  simp [Promise.then, newPromise, doResolve, handle, stateOf_allocPromise, h, thenHandler]

theorem callFn_user (env : Env) (id : Nat) (v : Val) (w : World) :
    callFn env (.user id) v w = (w.logCall id v, env id v) := rfl

theorem isDone_of_live {w : World} {c t : Nat} (h : w.Live c t) : w.isDone c = false := by
  unfold World.Live at h
  simp [World.isDone, h]

theorem targetOf_of_live {w : World} {c t : Nat} (h : w.Live c t) : w.targetOf c = t := by
  unfold World.Live at h
  simp [World.targetOf, h]

theorem callFn_guardFulfilled_live (env : Env) {w : World} {c d : Nat} (v : Val)
    (h : w.Live c d) :
    callFn env (.guardFulfilled c) v w = (resolve (w.setDone c) d v, .normal .undefined) := by
  simp [callFn, callBase, guardedFulfil, isDone_of_live h, targetOf_of_live h]

theorem callFn_guardRejected_live (env : Env) {w : World} {c d : Nat} (v : Val)
    (h : w.Live c d) :
    callFn env (.guardRejected c) v w = (reject (w.setDone c) d v, .normal .undefined) := by
  simp [callFn, callBase, guardedReject, isDone_of_live h, targetOf_of_live h]

theorem callFn_guard_done (env : Env) {w : World} {c : Nat} (v : Val)
    (h : w.isDone c = true) :
    callFn env (.guardFulfilled c) v w = (w, .normal .undefined) ∧
    callFn env (.guardRejected c) v w = (w, .normal .undefined) := by
  simp [callFn, callBase, guardedFulfil, guardedReject, h]

theorem stateOf_fulfil (w : World) (d : Nat) (r : Val) (h : d < w.heap.length) :
    (finale (w.settle d .fulfilled r) d).stateOf d = .fulfilled ∧
    (finale (w.settle d .fulfilled r) d).valueOf d = r := by
  simp [stateOf_settle, valueOf_settle, h]

theorem stateOf_reject_self (w : World) (d : Nat) (r : Val) (h : d < w.heap.length) :
    (reject w d r).stateOf d = .rejected ∧ (reject w d r).valueOf d = r := by
  simp [stateOf_reject, valueOf_reject, h]

theorem runTask_none (env : Env) (t : Task) (w : World)
    (h : (if w.stateOf t.self = .fulfilled then t.deferred.onFulfilled
      else t.deferred.onRejected) = none) :
    runTask env t w =
      callFn env (if w.stateOf t.self = .fulfilled then t.deferred.resolve else t.deferred.reject)
        (w.valueOf t.self) w := by
  unfold runTask
  simp only [h]

theorem runTask_user_normal (env : Env) (t : Task) (w : World) (f : Nat) (r : Val)
    (h : (if w.stateOf t.self = .fulfilled then t.deferred.onFulfilled
      else t.deferred.onRejected) = some (.user f))
    (hr : env f (w.valueOf t.self) = .normal r) :
    runTask env t w = callFn env t.deferred.resolve r (w.logCall f (w.valueOf t.self)) := by
  unfold runTask
  simp only [h, callFn_user, hr]

theorem runTask_user_throw (env : Env) (t : Task) (w : World) (f : Nat) (e : Val)
    (h : (if w.stateOf t.self = .fulfilled then t.deferred.onFulfilled
      else t.deferred.onRejected) = some (.user f))
    (hr : env f (w.valueOf t.self) = .throw e) :
    runTask env t w = callFn env t.deferred.reject e (w.logCall f (w.valueOf t.self)) := by
  unfold runTask
  simp only [h, callFn_user, hr]

/-- The world in which the task of a `then` on a settled promise runs when the
queue was empty: the derived promise and its cell are allocated. -/
theorem tick_then_settled (env : Env) (w : World) (p : Nat) (a b : Val)
    (hs : w.stateOf p ≠ .pending) (hq : w.queue = []) :
    tick env (Promise.then w p a b).2 =
      runTask env ⟨p, thenHandler a b w.cells.length⟩
        (w.allocPromise.allocCell w.heap.length) := by
  rw [then_settled w p a b hs]
  cases w with
  | mk heap cells queue log slots alls asap =>
    simp only at hq
    subst hq
    rfl

theorem live_fresh (w : World) : (w.allocPromise.allocCell w.heap.length).Live
    w.cells.length w.heap.length := by
  simp [World.Live]

theorem live_logCall {w : World} {c d : Nat} (id : Nat) (v : Val) (h : w.Live c d) :
    (w.logCall id v).Live c d := h

/-! ## C2: the matching branch is called once and its result fulfils the derived promise -/

/-- C2: let `p` be settled with payload `x`, let the scheduler be idle, and let
the argument of `then` matching the state of `p` be a user function `f` that
returns a value `r` whose `then` can be read and is not a function.  After the
scheduled dispatch has run, exactly one callback call has been recorded, the
call `f(x)`, and the derived promise is fulfilled with `r`. -/
theorem then_branch_result (env : Env) (w : World) (p : Nat) (onFulfilled onRejected : Val)
    (f : Nat) (r : Val) (hs : w.stateOf p ≠ .pending) (hq : w.queue = [])
    (hb : (if w.stateOf p = .fulfilled then onFulfilled else onRejected) = .func (.user f))
    (hr : env f (w.valueOf p) = .normal r) (hplain : r.plain = true) :
    (Promise.then w p onFulfilled onRejected).2.log = w.log ∧
    (tick env (Promise.then w p onFulfilled onRejected).2).1.log = w.log ++ [(f, w.valueOf p)] ∧
    (tick env (Promise.then w p onFulfilled onRejected).2).1.stateOf
      (Promise.then w p onFulfilled onRejected).1 = .fulfilled ∧
    (tick env (Promise.then w p onFulfilled onRejected).2).1.valueOf
      (Promise.then w p onFulfilled onRejected).1 = r := by
  have hcb : (if (w.allocPromise.allocCell w.heap.length).stateOf p = .fulfilled
      then (thenHandler onFulfilled onRejected w.cells.length).onFulfilled
      else (thenHandler onFulfilled onRejected w.cells.length).onRejected) = some (.user f) := by
    simp only [stateOf_allocCell, stateOf_allocPromise, thenHandler]
    split <;> rename_i h <;> simp [h] at hb <;> simp [hb, asCallback]
  have hlive := live_logCall f (w.valueOf p) (live_fresh w)
  rw [tick_then_settled env w p _ _ hs hq]
  refine ⟨by rw [then_settled w p _ _ hs]; rfl, ?_⟩
  rw [then_settled w p _ _ hs, runTask_user_normal env _ _ f r hcb
    (by simpa [valueOf_allocPromise] using hr)]
  simp only [valueOf_allocCell, valueOf_allocPromise, thenHandler]
  rw [callFn_guardFulfilled_live env r hlive, resolve_plain _ _ _ hplain]
  have hlt : w.heap.length < ((w.allocPromise.allocCell w.heap.length).logCall f
      (w.valueOf p)).heap.length := by
    simp [World.logCall]
  refine ⟨by simp [World.logCall], ?_⟩
  exact stateOf_fulfil _ _ r (by simpa using hlt)

/-! ## The code refines the resolution procedure -/

theorem runBody_done : ∀ (b : Body) (w : World) (c : Nat), w.isDone c = true →
    runBody w c b = (w, b.thrown)
  | .ret, w, c, _ => by unfold runBody; rfl
  | .throw error, w, c, _ => by unfold runBody; rfl
  | .callFirst v rest, w, c, h => by
    unfold runBody
    simp only [guardedFulfil, h, if_true, Body.thrown]
    exact runBody_done rest w c h
  | .callSecond v rest, w, c, h => by
    unfold runBody
    simp only [guardedReject, h, if_true, Body.thrown]
    exact runBody_done rest w c h

theorem isDone_of_cellsExt {w w' : World} (h : CellsExt w w') {c : Nat}
    (hc : c < w.cells.length) (hd : w.isDone c = true) : w'.isDone c = true := by
  have hs : w.cells[c]? = some w.cells[c] := List.getElem?_eq_getElem hc
  obtain ⟨cell', h1, _, h3⟩ := h c _ hs
  simp only [World.isDone, hs] at hd
  simp [World.isDone, h1, h3 hd]

theorem isDone_setDone (w : World) (c : Nat) : (w.setDone c).isDone c = true := by
  simp only [World.isDone, World.setDone, List.getElem?_modify_eq]
  cases w.cells[c]? <;> simp

theorem setDone_length (w : World) (c : Nat) : (w.setDone c).cells.length = w.cells.length := by
  simp [World.setDone]

theorem runBody_callFirst_live {w : World} {c d : Nat} (v : Val) (rest : Body)
    (h : w.Live c d) :
    runBody w c (.callFirst v rest) = (resolve (w.setDone c) d v, rest.thrown) := by
  have hc : c < w.cells.length := by
    by_contra hge
    unfold World.Live at h
    rw [List.getElem?_eq_none (Nat.le_of_not_lt hge)] at h
    cases h
  unfold runBody
  simp only [guardedFulfil, isDone_of_live h, targetOf_of_live h, Bool.false_eq_true, if_false]
  exact runBody_done rest _ c (isDone_of_cellsExt (touches_resolve v _ d).cells
    (by rw [setDone_length]; exact hc) (isDone_setDone w c))

theorem runBody_callSecond_live {w : World} {c d : Nat} (v : Val) (rest : Body)
    (h : w.Live c d) :
    runBody w c (.callSecond v rest) = (reject (w.setDone c) d v, rest.thrown) := by
  unfold runBody
  simp only [guardedReject, isDone_of_live h, targetOf_of_live h, Bool.false_eq_true, if_false]
  refine runBody_done rest _ c ?_
  simp only [World.isDone, reject_cells]
  exact isDone_setDone w c

theorem live_allocCell_new (w : World) (d : Nat) : (w.allocCell d).Live w.cells.length d := by
  simp [World.Live]

/-- Guarded invocation of a script whose first action calls its first argument. -/
theorem doResolve_callFirst (w : World) (d : Nat) (v : Val) (rest : Body) :
    doResolve (fun c w1 => runBody w1 c (.callFirst v rest)) d w =
      resolve ((w.allocCell d).setDone w.cells.length) d v := by
  have hdone : (resolve ((w.allocCell d).setDone w.cells.length) d v).isDone w.cells.length
      = true :=
    isDone_of_cellsExt (touches_resolve v _ d).cells
      (by rw [setDone_length]; simp) (isDone_setDone _ _)
  simp only [doResolve, runBody_callFirst_live v rest (live_allocCell_new w d)]
  cases rest.thrown with
  | none => rfl
  | some error => simp only [hdone, if_true]

/-- Guarded invocation of a script whose first action calls its second argument. -/
theorem doResolve_callSecond (w : World) (d : Nat) (v : Val) (rest : Body) :
    doResolve (fun c w1 => runBody w1 c (.callSecond v rest)) d w =
      reject ((w.allocCell d).setDone w.cells.length) d v := by
  have hdone : (reject ((w.allocCell d).setDone w.cells.length) d v).isDone w.cells.length
      = true := by
    simp only [World.isDone, reject_cells]
    exact isDone_setDone _ _
  simp only [doResolve, runBody_callSecond_live v rest (live_allocCell_new w d)]
  cases rest.thrown with
  | none => rfl
  | some error => simp only [hdone, if_true]

theorem doResolve_ret (w : World) (d : Nat) :
    doResolve (fun c w1 => runBody w1 c .ret) d w = w.allocCell d := by
  simp [doResolve, runBody]

theorem doResolve_throw (w : World) (d : Nat) (error : Val) :
    doResolve (fun c w1 => runBody w1 c (.throw error)) d w =
      reject ((w.allocCell d).setDone w.cells.length) d error := by
  simp [doResolve, runBody, isDone_of_live (live_allocCell_new w d)]

theorem outcome_reject (w : World) (d : Nat) (v : Val) (h : d < w.heap.length) :
    Outcome (some (.rejected, v)) w (reject w d v) d :=
  stateOf_reject_self w d v h

theorem outcome_fulfil (w : World) (d : Nat) (v : Val) (h : d < w.heap.length) :
    Outcome (some (.fulfilled, v)) w (finale (w.settle d .fulfilled v) d) d :=
  stateOf_fulfil w d v h

theorem outcome_shift {o : Option (State × Val)} {w0 w w' : World} {d : Nat}
    (h : Outcome o w w' d) (hs : w.stateOf d = w0.stateOf d) (hv : w.valueOf d = w0.valueOf d) :
    Outcome o w0 w' d := by
  cases o with
  | none => exact ⟨h.1.trans hs, h.2.trans hv⟩
  | some sx => exact h

mutual
theorem outcome_resolve : ∀ (v : Val) (w : World) (d : Nat), d < w.heap.length →
    Outcome (settles d v) w (resolve w d v) d
  | .promise q, w, d, h => by
    unfold resolve settles
    split
    · exact outcome_reject w d _ h
    · rename_i hne
      have ht : Touches q w (doResolve (fun c w1 =>
          ((Promise.then w1 q (.func (.guardFulfilled c)) (.func (.guardRejected c))).2, none))
          d w) := by
        refine touches_trans (touches_allocCell q w d) ?_
        simp only [doResolve]
        exact touches_then q _ q _ _
      exact ht.frame d (fun e => hne e.symm) h
  | .obj (.getterThrows error), w, d, h => by
    unfold resolve settles
    exact outcome_reject w d error h
  | .obj (.method body), w, d, h => by
    unfold resolve settles
    exact outcome_body body w d h
  | .obj .notCallable, w, d, h => by unfold resolve settles; exact outcome_fulfil w d _ h
  | .undefined, w, d, h => by unfold resolve settles; exact outcome_fulfil w d _ h
  | .null, w, d, h => by unfold resolve settles; exact outcome_fulfil w d _ h
  | .prim n, w, d, h => by unfold resolve settles; exact outcome_fulfil w d _ h
  | .typeError msg, w, d, h => by unfold resolve settles; exact outcome_fulfil w d _ h
  | .array items, w, d, h => by unfold resolve settles; exact outcome_fulfil w d _ h
  | .func f, w, d, h => by unfold resolve settles; exact outcome_fulfil w d _ h
theorem outcome_body : ∀ (b : Body) (w : World) (d : Nat), d < w.heap.length →
    Outcome (bodySettles d b) w (doResolve (fun c w1 => runBody w1 c b) d w) d
  | .ret, w, d, _ => by
    rw [doResolve_ret]
    unfold bodySettles
    exact ⟨rfl, rfl⟩
  | .throw error, w, d, h => by
    rw [doResolve_throw]
    unfold bodySettles
    exact outcome_shift (outcome_reject _ d error h) rfl rfl
  | .callFirst v rest, w, d, h => by
    rw [doResolve_callFirst]
    unfold bodySettles
    exact outcome_shift (outcome_resolve v _ d h) rfl rfl
  | .callSecond v rest, w, d, h => by
    rw [doResolve_callSecond]
    unfold bodySettles
    exact outcome_shift (outcome_reject _ d v h) rfl rfl
end

/-- C2 at a rejected promise whose `onRejected` returns 9: the derived promise
is fulfilled with 9 and only `onRejected` was called, with the reason. -/
theorem then_branch_result_witness :
    (tick exampleEnv (Promise.then exampleRejected 0 (.func (.user 5)) (.func (.user 0))).2).1.log
      = [(0, .prim 2)] ∧
    (tick exampleEnv (Promise.then exampleRejected 0 (.func (.user 5)) (.func (.user 0))).2).1.stateOf
      1 = .fulfilled :=
  ⟨(then_branch_result exampleEnv exampleRejected 0 (.func (.user 5)) (.func (.user 0)) 0
      (.prim 9) (by decide) rfl rfl rfl rfl).2.1,
   (then_branch_result exampleEnv exampleRejected 0 (.func (.user 5)) (.func (.user 0)) 0
      (.prim 9) (by decide) rfl rfl rfl rfl).2.2.1⟩

/-! ## C7: thenable assimilation -/

theorem settles_plain (d : Nat) (v : Val) (h : v.plain = true) :
    settles d v = some (.fulfilled, v) := by
  cases v with
  | obj t => cases t <;> first | (unfold settles; rfl) | simp [Val.plain] at h
  | promise q => simp [Val.plain] at h
  | _ => unfold settles; rfl

theorem settles_nested (d : Nat) (rests : List Body) (v : Val) :
    settles d (nested rests v) = settles d v := by
  induction rests with
  | nil => rfl
  | cons rest rests ih =>
    simp only [nested, settles, bodySettles]
    exact ih

/-- C7: let cell `c` hold the closures of an existing promise `p` and be not
done.  Calling the fulfilment closure with a thenable nested any number of
levels deep (each level's `then` calls its first argument with the next level,
whatever it does afterwards) around a value `v` whose `then` is readable and not
a function leaves `p` fulfilled with `v`; if instead the innermost `then` calls
its second argument with `r`, `p` is rejected with `r`. -/
theorem thenable_assimilation (env : Env) (w : World) (c p : Nat) (rests : List Body)
    (v r : Val) (rest : Body) (hl : w.Live c p) (hp : p < w.heap.length)
    (hv : v.plain = true) :
    ((callFn env (.guardFulfilled c) (nested rests v) w).1.stateOf p = .fulfilled ∧
      (callFn env (.guardFulfilled c) (nested rests v) w).1.valueOf p = v) ∧
    ((callFn env (.guardFulfilled c)
        (nested rests (.obj (.method (.callSecond r rest)))) w).1.stateOf p = .rejected ∧
      (callFn env (.guardFulfilled c)
        (nested rests (.obj (.method (.callSecond r rest)))) w).1.valueOf p = r) := by
  have hp' : p < (w.setDone c).heap.length := hp
  constructor
  · have h := outcome_resolve (nested rests v) (w.setDone c) p hp'
    rw [settles_nested, settles_plain p v hv] at h
    rw [callFn_guardFulfilled_live env _ hl]
    exact h
  · have h := outcome_resolve (nested rests (.obj (.method (.callSecond r rest))))
      (w.setDone c) p hp'
    rw [settles_nested] at h
    unfold settles bodySettles at h
    rw [callFn_guardFulfilled_live env _ hl]
    exact h

/-- C7 at three levels of nesting around the primitive 4, each level throwing
after its call. -/
theorem thenable_assimilation_witness :
    (callFn exampleEnv (.guardFulfilled 0)
      (nested [.throw (.prim 7), .throw (.prim 8), .ret] (.prim 4)) examplePending).1.valueOf 0
      = .prim 4 :=
  (thenable_assimilation exampleEnv examplePending 0 0 [.throw (.prim 7), .throw (.prim 8), .ret]
    (.prim 4) (.prim 5) .ret rfl (by decide) rfl).1.2

/-! ## C8: self-resolution -/

/-- C8: let cell `c` hold the closures of an existing promise `p` and be not
done.  Calling the fulfilment closure with `p` itself returns normally and
leaves `p` rejected with the TypeError of line 117. -/
theorem self_resolution (env : Env) (w : World) (c p : Nat) (hl : w.Live c p)
    (hp : p < w.heap.length) :
    (callFn env (.guardFulfilled c) (.promise p) w).2 = .normal .undefined ∧
    (callFn env (.guardFulfilled c) (.promise p) w).1.stateOf p = .rejected ∧
    (callFn env (.guardFulfilled c) (.promise p) w).1.valueOf p =
      .typeError "A promise cannot be resolved with itself." := by
  have hp' : p < (w.setDone c).heap.length := hp
  have h := outcome_resolve (.promise p) (w.setDone c) p hp'
  unfold settles at h
  simp only [if_true] at h
  rw [callFn_guardFulfilled_live env _ hl]
  exact ⟨rfl, h⟩

/-- C8 at the pending promise 0 of `examplePending`. -/
theorem self_resolution_witness :
    examplePending.stateOf 0 = .pending ∧
    (callFn exampleEnv (.guardFulfilled 0) (.promise 0) examplePending).1.stateOf 0 = .rejected :=
  ⟨by decide, (self_resolution exampleEnv examplePending 0 0 rfl (by decide)).2.1⟩

/-! ## C9: exceptions thrown by the resolver -/

theorem newPromise_fst (w : World) (fn : Executor) : (newPromise w fn).1 = w.heap.length := rfl

theorem newPromise_callFirst (w : World) (v : Val) (rest : Body) :
    newPromise w (script (.callFirst v rest)) =
      (w.heap.length, resolve ((w.allocPromise.allocCell w.heap.length).setDone w.cells.length)
        w.heap.length v) := by
  show (w.heap.length, doResolve (fun c w1 => runBody w1 c (.callFirst v rest)) w.heap.length
    w.allocPromise) = _
  rw [doResolve_callFirst]
  rfl

theorem newPromise_callSecond (w : World) (v : Val) (rest : Body) :
    newPromise w (script (.callSecond v rest)) =
      (w.heap.length, reject ((w.allocPromise.allocCell w.heap.length).setDone w.cells.length)
        w.heap.length v) := by
  show (w.heap.length, doResolve (fun c w1 => runBody w1 c (.callSecond v rest)) w.heap.length
    w.allocPromise) = _
  rw [doResolve_callSecond]
  rfl

theorem newPromise_throw (w : World) (e : Val) :
    newPromise w (script (.throw e)) =
      (w.heap.length, reject ((w.allocPromise.allocCell w.heap.length).setDone w.cells.length)
        w.heap.length e) := by
  show (w.heap.length, doResolve (fun c w1 => runBody w1 c (.throw e)) w.heap.length
    w.allocPromise) = _
  rw [doResolve_throw]
  rfl

/-- C9: `new Promise(fn)` returns the new instance for every scripted resolver.
If `fn` throws `e` without having called back, the promise is rejected with `e`.
If the first action of `fn` is a call of either callback, whatever `fn` does
afterwards (further calls, a throw) is ignored: the result is the world of the
resolver that makes this call and returns; after a call of the second callback
with `v` the promise is rejected with `v`. -/
theorem resolver_exceptions (w : World) :
    (∀ fn : Body, Promise.construct w .newInstance (.function (script fn)) =
      .ok (newPromise w (script fn))) ∧
    (∀ e : Val, (newPromise w (script (.throw e))).2.stateOf w.heap.length = .rejected ∧
      (newPromise w (script (.throw e))).2.valueOf w.heap.length = e) ∧
    (∀ (v : Val) (rest : Body),
      newPromise w (script (.callFirst v rest)) = newPromise w (script (.callFirst v .ret))) ∧
    (∀ (v : Val) (rest : Body),
      newPromise w (script (.callSecond v rest)) = newPromise w (script (.callSecond v .ret)) ∧
      (newPromise w (script (.callSecond v rest))).2.stateOf w.heap.length = .rejected ∧
      (newPromise w (script (.callSecond v rest))).2.valueOf w.heap.length = v) := by
  refine ⟨fun _ => rfl, fun e => ?_, fun v rest => ?_, fun v rest => ?_⟩
  · rw [newPromise_throw]
    exact stateOf_reject_self _ _ e (by simp)
  · rw [newPromise_callFirst, newPromise_callFirst]
  · rw [newPromise_callSecond, newPromise_callSecond]
    exact ⟨rfl, stateOf_reject_self _ _ v (by simp)⟩

/-! ## C10: `Promise.reject` -/

/-- C10: `Promise.reject(x)` builds a promise rejected with `x` but, having no
`return` statement, hands `undefined` to its caller, while `Promise.resolve(x)`
returns the promise it builds. -/
theorem reject_returns_undefined (w : World) (x : Val) :
    (Promise.reject w x).1 = .undefined ∧
    (Promise.reject w x).2.stateOf w.heap.length = .rejected ∧
    (Promise.reject w x).2.valueOf w.heap.length = x ∧
    (Promise.resolve w (.prim 1)).1 = .promise w.heap.length := by
  refine ⟨rfl, ?_, ?_, rfl⟩
  · show (newPromise w (script (.callSecond x .ret))).2.stateOf w.heap.length = .rejected
    rw [newPromise_callSecond]
    exact (stateOf_reject_self _ _ x (by simp)).1
  · show (newPromise w (script (.callSecond x .ret))).2.valueOf w.heap.length = x
    rw [newPromise_callSecond]
    exact (stateOf_reject_self _ _ x (by simp)).2

/-! ## C5: no synchronous dispatch -/

/-- C5: no user callback is called (the log is unchanged) by `then`, whether the
promise is pending or settled, by a call of either closure of `doResolve` (the
settlement entry points), or by the construction of a promise; a callback is
called only when a task runs: every task queued by these operations is left in
the queue behind the tasks already there. -/
theorem no_synchronous_dispatch (env : Env) (w : World) :
    (∀ (p : Nat) (onFulfilled onRejected : Val),
      (Promise.then w p onFulfilled onRejected).2.log = w.log ∧
      ∃ ts, (Promise.then w p onFulfilled onRejected).2.queue = w.queue ++ ts) ∧
    (∀ (c : Nat) (v : Val),
      (callFn env (.guardFulfilled c) v w).1.log = w.log ∧
      (callFn env (.guardRejected c) v w).1.log = w.log ∧
      (∃ ts, (callFn env (.guardFulfilled c) v w).1.queue = w.queue ++ ts) ∧
      ∃ ts, (callFn env (.guardRejected c) v w).1.queue = w.queue ++ ts) ∧
    (∀ fn : Body, (newPromise w (script fn)).2.log = w.log) := by
  refine ⟨fun p a b => ⟨(touches_then 0 w p a b).log, (touches_then 0 w p a b).queue⟩,
    fun c v => ?_, fun fn => ?_⟩
  · have h1 : Touches (w.targetOf c) w (callFn env (.guardFulfilled c) v w).1 := by
      simp only [callFn, callBase, guardedFulfil]
      split
      · exact touches_refl _ w
      · exact touches_trans (touches_setDone _ w c) (touches_resolve v _ _)
    have h2 : Touches (w.targetOf c) w (callFn env (.guardRejected c) v w).1 := by
      simp only [callFn, callBase, guardedReject]
      split
      · exact touches_refl _ w
      · exact touches_trans (touches_setDone _ w c) (touches_reject _ _ v)
    exact ⟨h1.log, h2.log, h1.queue, h2.queue⟩
  · refine (touches_newPromise 0 w (script fn) ?_).log
    have := touches_runBody fn (w.allocPromise.allocCell w.heap.length) w.cells.length
    simpa [World.targetOf, script] using this

/-! ## C4: pass-through -/

/-- C4: in every world in which the scheduler is idle, let `p` be
settled and let the argument of `then` matching the state of `p` be missing or
not a function; when `p` is fulfilled, let its value be, at that time, a value
whose `then` can be read and is not a function.  After the scheduled dispatch
has run no callback has been called (in particular not the other argument) and
the derived promise has the state and the value of `p`. -/
theorem pass_through (env : Env) (w : World) (p : Nat) (onFulfilled onRejected : Val)
    (hs : w.stateOf p ≠ .pending) (hq : w.queue = [])
    (hb : asCallback (if w.stateOf p = .fulfilled then onFulfilled else onRejected) = none)
    (hv : w.stateOf p = .fulfilled → (w.valueOf p).plain = true) :
    (tick env (Promise.then w p onFulfilled onRejected).2).1.log = w.log ∧
    (tick env (Promise.then w p onFulfilled onRejected).2).1.stateOf
      (Promise.then w p onFulfilled onRejected).1 = w.stateOf p ∧
    (tick env (Promise.then w p onFulfilled onRejected).2).1.valueOf
      (Promise.then w p onFulfilled onRejected).1 = w.valueOf p := by
  have hcb : (if (w.allocPromise.allocCell w.heap.length).stateOf p = .fulfilled
      then (thenHandler onFulfilled onRejected w.cells.length).onFulfilled
      else (thenHandler onFulfilled onRejected w.cells.length).onRejected) = none := by
    simp only [stateOf_allocCell, stateOf_allocPromise, thenHandler]
    split <;> rename_i h <;> simp only [h, if_true, if_false] at hb <;> exact hb
  have hlive := live_fresh w
  have hlt : w.heap.length < ((w.allocPromise.allocCell w.heap.length).setDone
      w.cells.length).heap.length := by
    simp
  rw [tick_then_settled env w p _ _ hs hq, then_settled w p _ _ hs, runTask_none env _ _ hcb]
  simp only [stateOf_allocCell, stateOf_allocPromise, valueOf_allocCell, valueOf_allocPromise,
    thenHandler]
  by_cases hf : w.stateOf p = .fulfilled
  · simp only [hf, if_true]
    rw [callFn_guardFulfilled_live env _ hlive, resolve_plain _ _ _ (hv hf)]
    exact ⟨by simp, stateOf_fulfil _ _ _ hlt⟩
  · have hr : w.stateOf p = .rejected := by
      cases hst : w.stateOf p with
      | pending => exact absurd hst hs
      | fulfilled => exact absurd hst hf
      | rejected => rfl
    simp only [hf, if_false]
    rw [callFn_guardRejected_live env _ hlive, hr]
    exact ⟨by simp, stateOf_reject_self _ _ _ hlt⟩

/-- C4 at `p.then(f)` on a promise rejected with 2: `f` is not called and the
derived promise is rejected with 2. -/
theorem pass_through_witness :
    (tick exampleEnv (Promise.then exampleRejected 0 (.func (.user 0)) .undefined).2).1.log
      = [] ∧
    (tick exampleEnv (Promise.then exampleRejected 0 (.func (.user 0)) .undefined).2).1.stateOf 1
      = .rejected ∧
    (tick exampleEnv (Promise.then exampleRejected 0 (.func (.user 0)) .undefined).2).1.valueOf 1
      = .prim 2 :=
  pass_through exampleEnv exampleRejected 0 (.func (.user 0)) .undefined (by decide) rfl rfl
    (fun h => absurd h (by decide))

/-- C4 does not hold without the condition on the value of a fulfilled `p`:
promise 0 of `exampleAssigned` is fulfilled with an
object that has gained a callable `then` since; the scheduler is idle; after
`p.then()` and the dispatch, the derived promise 1 is not fulfilled with that
object but rejected with 7, what the object's `then` passes to its second
argument (lines 83-87 call `deferred.resolve(p.value)`, which reads
`value.then` again at line 124). -/
theorem pass_through_counterexample :
    exampleAssigned.stateOf 0 = .fulfilled ∧ exampleAssigned.queue = [] ∧
    asCallback Val.undefined = none ∧
    (tick exampleEnv (Promise.then exampleAssigned 0 .undefined .undefined).2).1.stateOf 1
      = .rejected ∧
    (tick exampleEnv (Promise.then exampleAssigned 0 .undefined .undefined).2).1.valueOf 1
      = .prim 7 ∧
    (tick exampleEnv (Promise.then exampleAssigned 0 .undefined .undefined).2).1.stateOf 1
      ≠ exampleAssigned.stateOf 0 :=
  ⟨by decide, rfl, rfl, by decide, rfl, by decide⟩

/-! ## The dispatch of a `then` registration refines the dispatcher of the spec -/

mutual
theorem settles_of_not_handsOver : ∀ (v : Val) (d d' : Nat), v.handsOver d = false →
    v.handsOver d' = false → settles d v = settles d' v
  | .promise q, d, d', h, h' => by
    simp only [Val.handsOver, decide_eq_false_iff_not] at h h'
    simp only [settles, h, h', if_false]
  | .obj (.method body), d, d', h, h' => by
    simp only [Val.handsOver] at h h'
    simp only [settles]
    exact bodySettles_of_not_handsOver body d d' h h'
  | .obj (.getterThrows error), d, d', _, _ => by simp only [settles]
  | .obj .notCallable, d, d', _, _ => by simp only [settles]
  | .undefined, d, d', _, _ => by simp only [settles]
  | .null, d, d', _, _ => by simp only [settles]
  | .prim n, d, d', _, _ => by simp only [settles]
  | .typeError msg, d, d', _, _ => by simp only [settles]
  | .array items, d, d', _, _ => by simp only [settles]
  | .func f, d, d', _, _ => by simp only [settles]
theorem bodySettles_of_not_handsOver : ∀ (b : Body) (d d' : Nat), b.handsOver d = false →
    b.handsOver d' = false → bodySettles d b = bodySettles d' b
  | .callFirst v rest, d, d', h, h' => by
    simp only [Body.handsOver] at h h'
    simp only [bodySettles]
    exact settles_of_not_handsOver v d d' h h'
  | .callSecond v rest, d, d', _, _ => by simp only [bodySettles]
  | .ret, d, d', _, _ => by simp only [bodySettles]
  | .throw error, d, d', _, _ => by simp only [bodySettles]
end

/-- What `dispatchSpec` feeds into the derived promise `d`, as an outcome. -/
theorem runTask_then (env : Env) (u : World) (p c d : Nat) (b1 b2 : Val) (hl : u.Live c d)
    (hg : (if u.stateOf p = .fulfilled then b1 else b2).notGuard = true) :
    ∃ u0, (u0 = u ∨ ∃ g, u0 = u.logCall g (u.valueOf p)) ∧
      runTask env ⟨p, thenHandler b1 b2 c⟩ u =
        (match dispatchSpec env (u.stateOf p) (u.valueOf p) b1 b2 with
          | .normal r => resolve (u0.setDone c) d r
          | .throw e => reject (u0.setDone c) d e, .normal .undefined) := by
  have hsel : (if u.stateOf p = .fulfilled then (thenHandler b1 b2 c).onFulfilled
      else (thenHandler b1 b2 c).onRejected) =
      asCallback (if u.stateOf p = .fulfilled then b1 else b2) := by
    simp only [thenHandler]
    split <;> rfl
  cases hcb : asCallback (if u.stateOf p = .fulfilled then b1 else b2) with
  | none =>
    refine ⟨u, Or.inl rfl, ?_⟩
    rw [runTask_none env _ _ (hsel.trans hcb)]
    simp only [dispatchSpec, hcb, thenHandler]
    by_cases hf : u.stateOf p = .fulfilled
    · simp only [hf, if_true]
      exact callFn_guardFulfilled_live env _ hl
    · simp only [hf, if_false]
      exact callFn_guardRejected_live env _ hl
  | some f =>
    cases f with
    | user g =>
      refine ⟨u.logCall g (u.valueOf p), Or.inr ⟨g, rfl⟩, ?_⟩
      have hl' : (u.logCall g (u.valueOf p)).Live c d := hl
      simp only [dispatchSpec, hcb]
      cases hr : env g (u.valueOf p) with
      | normal r =>
        rw [runTask_user_normal env _ _ g r (hsel.trans hcb) hr]
        exact callFn_guardFulfilled_live env _ hl'
      | throw e =>
        rw [runTask_user_throw env _ _ g e (hsel.trans hcb) hr]
        exact callFn_guardRejected_live env _ hl'
    | _ =>
      exfalso
      cases hv : (if u.stateOf p = .fulfilled then b1 else b2) with
      | func f' =>
        rw [hv] at hcb hg
        simp only [asCallback, Option.some.injEq] at hcb
        subst hcb
        simp [Val.notGuard] at hg
      | _ => rw [hv] at hcb; simp [asCallback] at hcb

theorem touches_guarded (w : World) (c : Nat) (k : World → World)
    (hk : Touches (w.targetOf c) (w.setDone c) (k (w.setDone c))) :
    Touches (w.targetOf c) w (if w.isDone c = true then w else k (w.setDone c)) := by
  split
  · exact touches_refl _ w
  · exact touches_trans (touches_setDone _ w c) hk

theorem touches_callFn_guard (env : Env) (w : World) (c : Nat) (v : Val) :
    Touches (w.targetOf c) w (callFn env (.guardFulfilled c) v w).1 ∧
    Touches (w.targetOf c) w (callFn env (.guardRejected c) v w).1 := by
  constructor
  · simp only [callFn, guardedFulfil]
    exact touches_guarded w c (fun w1 => resolve w1 (w.targetOf c) v) (touches_resolve v _ _)
  · simp only [callFn, guardedReject]
    exact touches_guarded w c (fun w1 => reject w1 (w.targetOf c) v) (touches_reject _ _ v)

theorem callFn_guard_completion (env : Env) (w : World) (c : Nat) (v : Val) :
    (callFn env (.guardFulfilled c) v w).2 = .normal .undefined ∧
    (callFn env (.guardRejected c) v w).2 = .normal .undefined := ⟨rfl, rfl⟩

/-- The dispatch of a `then` registration whose selected branch is a user
callback or absent returns normally and touches only the promise that the
closures of cell `c` are bound to, after logging at most one call. -/
theorem touches_runTask_then (env : Env) (u : World) (p c : Nat) (b1 b2 : Val)
    (hg : (if u.stateOf p = .fulfilled then b1 else b2).notGuard = true) :
    (runTask env ⟨p, thenHandler b1 b2 c⟩ u).2 = .normal .undefined ∧
    ∃ u0, (u0 = u ∨ ∃ g, u0 = u.logCall g (u.valueOf p)) ∧
      Touches (u.targetOf c) u0 (runTask env ⟨p, thenHandler b1 b2 c⟩ u).1 := by
  have hsel : (if u.stateOf p = .fulfilled then (thenHandler b1 b2 c).onFulfilled
      else (thenHandler b1 b2 c).onRejected) =
      asCallback (if u.stateOf p = .fulfilled then b1 else b2) := by
    simp only [thenHandler]
    split <;> rfl
  cases hcb : asCallback (if u.stateOf p = .fulfilled then b1 else b2) with
  | none =>
    rw [runTask_none env _ _ (hsel.trans hcb)]
    simp only [thenHandler]
    by_cases hf : u.stateOf p = .fulfilled
    · simp only [hf, if_true]
      exact ⟨rfl, u, Or.inl rfl, (touches_callFn_guard env u c _).1⟩
    · simp only [hf, if_false]
      exact ⟨rfl, u, Or.inl rfl, (touches_callFn_guard env u c _).2⟩
  | some f =>
    cases f with
    | user g =>
      cases hr : env g (u.valueOf p) with
      | normal r =>
        rw [runTask_user_normal env _ _ g r (hsel.trans hcb) hr]
        exact ⟨rfl, u.logCall g (u.valueOf p), Or.inr ⟨g, rfl⟩,
          (touches_callFn_guard env (u.logCall g (u.valueOf p)) c r).1⟩
      | throw e =>
        rw [runTask_user_throw env _ _ g e (hsel.trans hcb) hr]
        exact ⟨rfl, u.logCall g (u.valueOf p), Or.inr ⟨g, rfl⟩,
          (touches_callFn_guard env (u.logCall g (u.valueOf p)) c e).2⟩
    | _ =>
      exfalso
      cases hv : (if u.stateOf p = .fulfilled then b1 else b2) with
      | func f' =>
        rw [hv] at hcb hg
        simp only [asCallback, Option.some.injEq] at hcb
        subst hcb
        simp [Val.notGuard] at hg
      | _ => rw [hv] at hcb; simp [asCallback] at hcb

/-- The dispatch of a registration settles the derived promise as the
dispatcher of the spec says. -/
theorem dispatch_outcome (env : Env) (u : World) (p c d : Nat) (b1 b2 : Val) (hl : u.Live c d)
    (hd : d < u.heap.length)
    (hg : (if u.stateOf p = .fulfilled then b1 else b2).notGuard = true) :
    Outcome (feeds d (dispatchSpec env (u.stateOf p) (u.valueOf p) b1 b2)) u
      (runTask env ⟨p, thenHandler b1 b2 c⟩ u).1 d := by
  obtain ⟨u0, hu0, hrun⟩ := runTask_then env u p c d b1 b2 hl hg
  have hs0 : (u0.setDone c).stateOf d = u.stateOf d := by
    rcases hu0 with h | ⟨g, h⟩ <;> subst h <;> rfl
  have hv0 : (u0.setDone c).valueOf d = u.valueOf d := by
    rcases hu0 with h | ⟨g, h⟩ <;> subst h <;> rfl
  have hd0 : d < (u0.setDone c).heap.length := by
    rcases hu0 with h | ⟨g, h⟩ <;> subst h <;> exact hd
  rw [hrun]
  cases hspec : dispatchSpec env (u.stateOf p) (u.valueOf p) b1 b2 with
  | normal r => exact outcome_shift (outcome_resolve r _ d hd0) hs0 hv0
  | throw e => exact outcome_shift (outcome_reject _ d e hd0) hs0 hv0

theorem outcome_agree {o : Option (State × Val)} {u u' v v' : World} {d d' : Nat}
    (h : Outcome o u u' d) (h' : Outcome o v v' d') (hs : u.stateOf d = v.stateOf d')
    (hv : u.valueOf d = v.valueOf d') :
    u'.stateOf d = v'.stateOf d' ∧ u'.valueOf d = v'.valueOf d' := by
  cases o with
  | none => exact ⟨h.1.trans (hs.trans h'.1.symm), h.2.trans (hv.trans h'.2.symm)⟩
  | some sx => exact ⟨h.1.trans h'.1.symm, h.2.trans h'.2.symm⟩

theorem tick_cons (env : Env) (w : World) (t : Task) (ts : List Task) (h : w.queue = t :: ts) :
    tick env w = runTask env t { w with queue := ts } := by
  simp only [tick, h]

/-- What a `then` on a settled promise leaves behind. -/
theorem then_settled_facts (w : World) (p : Nat) (a b : Val) (hs : w.stateOf p ≠ .pending) :
    (Promise.then w p a b).1 = w.heap.length ∧
    (Promise.then w p a b).2.queue = w.queue ++ [⟨p, thenHandler a b w.cells.length⟩] ∧
    (Promise.then w p a b).2.heap.length = w.heap.length + 1 ∧
    (Promise.then w p a b).2.cells = w.cells ++ [⟨false, w.heap.length⟩] ∧
    (Promise.then w p a b).2.log = w.log ∧
    ∀ q, (Promise.then w p a b).2.getP q = w.getP q := by
  rw [then_settled w p a b hs]
  refine ⟨rfl, rfl, by simp, rfl, rfl, fun q => ?_⟩
  exact getP_allocPromise w q

theorem live_append_left {w : World} {cells : List Cell} {c t : Nat} (h : w.Live c t)
    (extra : List Cell) (hc : cells = w.cells ++ extra) : cells[c]? = some ⟨false, t⟩ := by
  unfold World.Live at h
  have hlt : c < w.cells.length := by
    by_contra hge
    rw [List.getElem?_eq_none (Nat.le_of_not_lt hge)] at h
    cases h
  rw [hc, List.getElem?_append_left hlt]
  exact h

theorem live_setDone_ne {w : World} {c c' t : Nat} (h : w.Live c t) (hne : c' ≠ c) :
    (w.setDone c').Live c t := by
  unfold World.Live at *
  simp only [World.setDone, List.getElem?_modify_ne _ _ hne]
  exact h

theorem stateOf_eq_of_getP {w w' : World} {q q' : Nat} (h : w'.getP q' = w.getP q) :
    w'.stateOf q' = w.stateOf q ∧ w'.valueOf q' = w.valueOf q := by
  simp only [World.stateOf, World.valueOf, h, and_self]

theorem valueOf_of_length_le (w : World) (p : Nat) (h : w.heap.length ≤ p) :
    w.valueOf p = .undefined := by
  simp [World.valueOf, World.getP, List.getElem?_eq_none h, PromiseObj.fresh]

/-- Dispatch of a registration in a world where the parent has state `s` and
value `x` and cell `c` is the live cell of the derived promise `d`. -/
theorem dispatch_at (env : Env) (u : World) (p c d : Nat) (b1 b2 : Val) (s : State) (x : Val)
    (hs : u.stateOf p = s) (hx : u.valueOf p = x) (hl : u.Live c d) (hd : d < u.heap.length)
    (hg : (if s = .fulfilled then b1 else b2).notGuard = true) :
    (runTask env ⟨p, thenHandler b1 b2 c⟩ u).2 = .normal .undefined ∧
    Outcome (feeds d (dispatchSpec env s x b1 b2)) u (runTask env ⟨p, thenHandler b1 b2 c⟩ u).1 d ∧
    (∃ ts, (runTask env ⟨p, thenHandler b1 b2 c⟩ u).1.queue = u.queue ++ ts) ∧
    (∀ q, q ≠ d → q < u.heap.length →
      (runTask env ⟨p, thenHandler b1 b2 c⟩ u).1.stateOf q = u.stateOf q ∧
      (runTask env ⟨p, thenHandler b1 b2 c⟩ u).1.valueOf q = u.valueOf q) ∧
    CellsExt u (runTask env ⟨p, thenHandler b1 b2 c⟩ u).1 ∧
    u.heap.length ≤ (runTask env ⟨p, thenHandler b1 b2 c⟩ u).1.heap.length := by
  subst hs hx
  obtain ⟨hc, u0, hu0, ht⟩ := touches_runTask_then env u p c b1 b2 hg
  rw [targetOf_of_live hl] at ht
  refine ⟨hc, dispatch_outcome env u p c d b1 b2 hl hd hg, ?_, ?_, ?_, ?_⟩
  · rcases hu0 with h | ⟨g, h⟩ <;> subst h <;> exact ht.queue
  · intro q hq hlt
    rcases hu0 with h | ⟨g, h⟩ <;> subst h <;> exact ht.frame q hq hlt
  · rcases hu0 with h | ⟨g, h⟩ <;> subst h <;> exact ht.cells
  · rcases hu0 with h | ⟨g, h⟩ <;> subst h <;> exact ht.len

theorem dispatchSpec_user (env : Env) (s : State) (x : Val) (a1 a2 : Val) (f : Nat)
    (h : (if s = .fulfilled then a1 else a2) = .func (.user f)) :
    dispatchSpec env s x a1 a2 = env f x := by
  simp only [dispatchSpec, h, asCallback]

/-- The throwing registration alone. -/
theorem isolation_alone (env : Env) (w : World) (p : Nat) (a1 a2 : Val) (fA : Nat) (e : Val)
    (hs : w.stateOf p ≠ .pending) (hq : w.queue = [])
    (ha : (if w.stateOf p = .fulfilled then a1 else a2) = .func (.user fA))
    (he : env fA (w.valueOf p) = .throw e) :
    (tick env (Promise.then w p a1 a2).2).2 = .normal .undefined ∧
    (tick env (Promise.then w p a1 a2).2).1.stateOf w.heap.length = .rejected ∧
    (tick env (Promise.then w p a1 a2).2).1.valueOf w.heap.length = e := by
  rw [tick_then_settled env w p a1 a2 hs hq]
  have hg : (if w.stateOf p = .fulfilled then a1 else a2).notGuard = true := by rw [ha]; rfl
  have h := dispatch_at env (w.allocPromise.allocCell w.heap.length) p w.cells.length
    w.heap.length a1 a2 (w.stateOf p) (w.valueOf p) (stateOf_allocPromise w p)
    (valueOf_allocPromise w p) (live_fresh w) (by simp) hg
  rw [dispatchSpec_user env _ _ a1 a2 fA ha, he] at h
  exact ⟨h.1, h.2.1⟩

theorem runTicks_two (env : Env) (w : World) :
    runTicks env 2 w = (tick env (tick env w).1).1 := rfl

/-- A sibling alone: its dispatch settles the derived promise as `feeds` says. -/
theorem sibling_alone (env : Env) (w : World) (p : Nat) (b1 b2 : Val)
    (hs : w.stateOf p ≠ .pending) (hq : w.queue = [])
    (hb : (if w.stateOf p = .fulfilled then b1 else b2).notGuard = true) :
    Outcome (feeds w.heap.length (dispatchSpec env (w.stateOf p) (w.valueOf p) b1 b2))
      (w.allocPromise.allocCell w.heap.length) (tick env (Promise.then w p b1 b2).2).1
      w.heap.length := by
  rw [tick_then_settled env w p b1 b2 hs hq]
  exact (dispatch_at env (w.allocPromise.allocCell w.heap.length) p w.cells.length
    w.heap.length b1 b2 (w.stateOf p) (w.valueOf p) (stateOf_allocPromise w p)
    (valueOf_allocPromise w p) (live_fresh w) (by simp) hb).2.1

/-- State of the world after two registrations on a settled promise. -/
theorem two_registrations (w : World) (p : Nat) (a1 a2 b1 b2 : Val)
    (hs : w.stateOf p ≠ .pending) (hq : w.queue = []) :
    (Promise.then (Promise.then w p a1 a2).2 p b1 b2).2.queue =
      [⟨p, thenHandler a1 a2 w.cells.length⟩, ⟨p, thenHandler b1 b2 (w.cells.length + 1)⟩] ∧
    (Promise.then (Promise.then w p a1 a2).2 p b1 b2).2.heap.length = w.heap.length + 2 ∧
    (Promise.then (Promise.then w p a1 a2).2 p b1 b2).2.cells =
      w.cells ++ [⟨false, w.heap.length⟩] ++ [⟨false, w.heap.length + 1⟩] ∧
    ∀ q, (Promise.then (Promise.then w p a1 a2).2 p b1 b2).2.getP q = w.getP q := by
  obtain ⟨_, fq, fl, fc, _, fg⟩ := then_settled_facts w p a1 a2 hs
  have hs' : (Promise.then w p a1 a2).2.stateOf p ≠ .pending := by
    rw [(stateOf_eq_of_getP (fg p)).1]; exact hs
  obtain ⟨_, gq, gl, gc, _, gg⟩ := then_settled_facts (Promise.then w p a1 a2).2 p b1 b2 hs'
  refine ⟨?_, ?_, ?_, fun q => (gg q).trans (fg q)⟩
  · rw [gq, fq, hq, fc]; simp
  · rw [gl, fl]
  · rw [gc, fc, fl]

theorem live_first (w : World) (x y : Nat) (cells : List Cell)
    (h : cells = w.cells ++ [⟨false, x⟩] ++ [⟨false, y⟩]) :
    cells[w.cells.length]? = some ⟨false, x⟩ := by
  subst h
  rw [List.append_assoc, List.getElem?_append_right (Nat.le_refl _), Nat.sub_self]
  rfl

theorem live_second (w : World) (x y : Nat) (cells : List Cell)
    (h : cells = w.cells ++ [⟨false, x⟩] ++ [⟨false, y⟩]) :
    cells[w.cells.length + 1]? = some ⟨false, y⟩ := by
  subst h
  have h1 : w.cells.length + 1 - w.cells.length = 1 := by omega
  rw [List.append_assoc, List.getElem?_append_right (Nat.le_succ _)]
  show ([⟨false, x⟩] ++ [⟨false, y⟩] : List Cell)[w.cells.length + 1 - w.cells.length]? = _
  rw [h1]
  rfl

/-- The throwing registration is made before its sibling. -/
theorem isolation_later_sibling (env : Env) (w : World) (p : Nat) (a1 a2 b1 b2 : Val)
    (fA : Nat) (e : Val) (hs : w.stateOf p ≠ .pending) (hq : w.queue = [])
    (ha : (if w.stateOf p = .fulfilled then a1 else a2) = .func (.user fA))
    (he : env fA (w.valueOf p) = .throw e)
    (hb : (if w.stateOf p = .fulfilled then b1 else b2).notGuard = true)
    (hr : ∀ r, dispatchSpec env (w.stateOf p) (w.valueOf p) b1 b2 = .normal r →
      r.handsOver w.heap.length = false ∧ r.handsOver (w.heap.length + 1) = false) :
    (tick env (Promise.then (Promise.then w p a1 a2).2 p b1 b2).2).2 = .normal .undefined ∧
    (runTicks env 2 (Promise.then (Promise.then w p a1 a2).2 p b1 b2).2).stateOf
      (w.heap.length + 1) = (tick env (Promise.then w p b1 b2).2).1.stateOf w.heap.length ∧
    (runTicks env 2 (Promise.then (Promise.then w p a1 a2).2 p b1 b2).2).valueOf
      (w.heap.length + 1) = (tick env (Promise.then w p b1 b2).2).1.valueOf w.heap.length := by
  obtain ⟨fq, fl, fc, fg⟩ := two_registrations w p a1 a2 b1 b2 hs hq
  have hplt : p < w.heap.length := lt_length_of_settled w p hs
  generalize (Promise.then (Promise.then w p a1 a2).2 p b1 b2).2 = W at fq fl fc fg
  have hga : (if w.stateOf p = .fulfilled then a1 else a2).notGuard = true := by rw [ha]; rfl
  -- first tick: the throwing registration
  rw [runTicks_two, tick_cons env W _ _ fq]
  have hl0 : World.Live { W with queue := [⟨p, thenHandler b1 b2 (w.cells.length + 1)⟩] }
      w.cells.length w.heap.length := live_first w _ _ _ fc
  obtain ⟨u0, hu0, hrun⟩ := runTask_then env
    { W with queue := [⟨p, thenHandler b1 b2 (w.cells.length + 1)⟩] } p w.cells.length
    w.heap.length a1 a2 hl0 (by
      show (if W.stateOf p = .fulfilled then a1 else a2).notGuard = true
      rw [(stateOf_eq_of_getP (fg p)).1]; exact hga)
  have hspec : dispatchSpec env
      (World.stateOf { W with queue := [⟨p, thenHandler b1 b2 (w.cells.length + 1)⟩] } p)
      (World.valueOf { W with queue := [⟨p, thenHandler b1 b2 (w.cells.length + 1)⟩] } p)
      a1 a2 = .throw e := by
    show dispatchSpec env (W.stateOf p) (W.valueOf p) a1 a2 = .throw e
    rw [(stateOf_eq_of_getP (fg p)).1, (stateOf_eq_of_getP (fg p)).2,
      dispatchSpec_user env _ _ a1 a2 fA ha, he]
  rw [hspec] at hrun
  rw [hrun]
  refine ⟨rfl, ?_⟩
  simp only
  -- facts about the world after the first tick
  have hu0c : u0.cells = W.cells := by rcases hu0 with h | ⟨g, h⟩ <;> subst h <;> rfl
  have hu0h : u0.heap = W.heap := by rcases hu0 with h | ⟨g, h⟩ <;> subst h <;> rfl
  have hu0q : u0.queue = [⟨p, thenHandler b1 b2 (w.cells.length + 1)⟩] := by
    rcases hu0 with h | ⟨g, h⟩ <;> subst h <;> rfl
  have hu0g : ∀ q, u0.getP q = w.getP q := by
    intro q
    rw [← fg q]
    simp only [World.getP, hu0h]
  obtain ⟨ts, hts⟩ := (touches_reject (u0.setDone w.cells.length) w.heap.length e).queue
  rw [setDone_queue, hu0q] at hts
  have hlive1 : (reject (u0.setDone w.cells.length) w.heap.length e).Live
      (w.cells.length + 1) (w.heap.length + 1) := by
    unfold World.Live
    rw [reject_cells]
    have : u0.Live (w.cells.length + 1) (w.heap.length + 1) := by
      unfold World.Live
      rw [hu0c]
      exact live_second w _ _ _ fc
    exact live_setDone_ne this (by omega)
  have hlen1 : (reject (u0.setDone w.cells.length) w.heap.length e).heap.length
      = w.heap.length + 2 := by
    rw [reject_length, setDone_heap, hu0h, fl]
  have hst : ∀ q, q ≠ w.heap.length →
      (reject (u0.setDone w.cells.length) w.heap.length e).stateOf q = w.stateOf q ∧
      (reject (u0.setDone w.cells.length) w.heap.length e).valueOf q = w.valueOf q := by
    intro q hq
    rw [stateOf_reject, valueOf_reject]
    simp only [hq, false_and, if_false, stateOf_setDone, valueOf_setDone]
    exact stateOf_eq_of_getP (hu0g q)
  -- second tick: the sibling
  rw [tick_cons env _ _ ts hts]
  have h2 := dispatch_at env
    { reject (u0.setDone w.cells.length) w.heap.length e with queue := ts } p
    (w.cells.length + 1) (w.heap.length + 1) b1 b2 (w.stateOf p) (w.valueOf p)
    (hst p (by omega)).1 (hst p (by omega)).2 hlive1
    (by show w.heap.length + 1 <
          (reject (u0.setDone w.cells.length) w.heap.length e).heap.length
        omega) hb
  have h1 := sibling_alone env w p b1 b2 hs hq hb
  have hfeed : feeds (w.heap.length + 1) (dispatchSpec env (w.stateOf p) (w.valueOf p) b1 b2)
      = feeds w.heap.length (dispatchSpec env (w.stateOf p) (w.valueOf p) b1 b2) := by
    cases hd : dispatchSpec env (w.stateOf p) (w.valueOf p) b1 b2 with
    | normal r =>
      simp only [feeds]
      exact settles_of_not_handsOver r _ _ (hr r hd).2 (hr r hd).1
    | throw e' => rfl
  rw [hfeed] at h2
  refine outcome_agree h2.2.1 h1 ?_ ?_
  · show (reject (u0.setDone w.cells.length) w.heap.length e).stateOf (w.heap.length + 1) = _
    rw [(hst _ (by omega)).1, stateOf_allocCell, stateOf_allocPromise,
      stateOf_of_length_le w _ (Nat.le_succ _), stateOf_of_length_le w _ (Nat.le_refl _)]
  · show (reject (u0.setDone w.cells.length) w.heap.length e).valueOf (w.heap.length + 1) = _
    rw [(hst _ (by omega)).2, valueOf_allocCell, valueOf_allocPromise,
      valueOf_of_length_le w _ (Nat.le_succ _), valueOf_of_length_le w _ (Nat.le_refl _)]

/-- The throwing registration is made after its sibling. -/
theorem isolation_earlier_sibling (env : Env) (w : World) (p : Nat) (a1 a2 b1 b2 : Val)
    (fA : Nat) (hs : w.stateOf p ≠ .pending) (hq : w.queue = [])
    (ha : (if w.stateOf p = .fulfilled then a1 else a2) = .func (.user fA))
    (hb : (if w.stateOf p = .fulfilled then b1 else b2).notGuard = true) :
    (runTicks env 2 (Promise.then (Promise.then w p b1 b2).2 p a1 a2).2).stateOf w.heap.length
      = (tick env (Promise.then w p b1 b2).2).1.stateOf w.heap.length ∧
    (runTicks env 2 (Promise.then (Promise.then w p b1 b2).2 p a1 a2).2).valueOf w.heap.length
      = (tick env (Promise.then w p b1 b2).2).1.valueOf w.heap.length := by
  obtain ⟨fq, fl, fc, fg⟩ := two_registrations w p b1 b2 a1 a2 hs hq
  have hplt : p < w.heap.length := lt_length_of_settled w p hs
  generalize (Promise.then (Promise.then w p b1 b2).2 p a1 a2).2 = W at fq fl fc fg
  have hga : (if w.stateOf p = .fulfilled then a1 else a2).notGuard = true := by rw [ha]; rfl
  -- first tick: the sibling
  rw [runTicks_two, tick_cons env W _ _ fq]
  have hl0 : World.Live { W with queue := [⟨p, thenHandler a1 a2 (w.cells.length + 1)⟩] }
      w.cells.length w.heap.length := live_first w _ _ _ fc
  obtain ⟨_, o1, ⟨ts, hts⟩, frame1, ext1, len1⟩ := dispatch_at env
    { W with queue := [⟨p, thenHandler a1 a2 (w.cells.length + 1)⟩] } p w.cells.length
    w.heap.length b1 b2 (w.stateOf p) (w.valueOf p) (stateOf_eq_of_getP (fg p)).1
    (stateOf_eq_of_getP (fg p)).2 hl0 (by show w.heap.length < W.heap.length; omega) hb
  generalize (runTask env ⟨p, thenHandler b1 b2 w.cells.length⟩
    { W with queue := [⟨p, thenHandler a1 a2 (w.cells.length + 1)⟩] }).1 = R1
    at o1 hts frame1 ext1 len1
  have hlen0 : World.heap { W with queue := [⟨p, thenHandler a1 a2 (w.cells.length + 1)⟩] }
      = W.heap := rfl
  rw [hlen0] at len1
  have hR1p : R1.stateOf p = w.stateOf p := by
    rw [(frame1 p (by omega) (by show p < W.heap.length; omega)).1]
    exact (stateOf_eq_of_getP (fg p)).1
  -- second tick: the throwing registration
  rw [tick_cons env R1 _ ts hts]
  obtain ⟨_, u0, hu0, ht⟩ := touches_runTask_then env { R1 with queue := ts } p
    (w.cells.length + 1) a1 a2 (by
      show (if R1.stateOf p = .fulfilled then a1 else a2).notGuard = true
      rw [hR1p]; exact hga)
  have htgt : World.targetOf { R1 with queue := ts } (w.cells.length + 1)
      = w.heap.length + 1 := by
    show R1.targetOf (w.cells.length + 1) = w.heap.length + 1
    have hc2 : W.cells[w.cells.length + 1]? = some (Cell.mk false (w.heap.length + 1)) :=
      live_second w _ _ _ fc
    exact targetOf_of_cellsExt ext1 hc2
  rw [htgt] at ht
  have hu0s : u0.heap = R1.heap := by rcases hu0 with h | ⟨g, h⟩ <;> subst h <;> rfl
  have hfr := ht.frame w.heap.length (by omega) (by rw [hu0s]; omega)
  have hu0n : u0.stateOf w.heap.length = R1.stateOf w.heap.length ∧
      u0.valueOf w.heap.length = R1.valueOf w.heap.length := by
    simp only [World.stateOf, World.valueOf, World.getP, hu0s, and_self]
  rw [hfr.1, hfr.2, hu0n.1, hu0n.2]
  refine outcome_agree o1 (sibling_alone env w p b1 b2 hs hq hb) ?_ ?_
  · show W.stateOf w.heap.length = _
    rw [(stateOf_eq_of_getP (fg _)).1, stateOf_allocCell, stateOf_allocPromise]
  · show W.valueOf w.heap.length = _
    rw [(stateOf_eq_of_getP (fg _)).2, valueOf_allocCell, valueOf_allocPromise]

/-! ## C3: exception isolation -/

/-- C3: let `p` be settled, the scheduler idle, and let the branch of
`then(a1, a2)` matching the state of `p` be a user callback that throws `e`.
Then (1) the dispatch of this registration returns normally and leaves its
derived promise rejected with `e`; (2) if a sibling `then(b1, b2)` is registered
after it, the first dispatch returns normally and, after both dispatches, the
sibling's derived promise has the state and value it has when the sibling is
registered and dispatched alone; (3) the same holds for a sibling registered
before it.  The sibling's selected branch is a user callback or absent, and
for (2) the value it feeds into its derived promise does not hand over one of
the two derived promises themselves (whose numbers differ between the two runs). -/
theorem exception_isolation (env : Env) (w : World) (p : Nat) (a1 a2 b1 b2 : Val)
    (fA : Nat) (e : Val) (hs : w.stateOf p ≠ .pending) (hq : w.queue = [])
    (ha : (if w.stateOf p = .fulfilled then a1 else a2) = .func (.user fA))
    (he : env fA (w.valueOf p) = .throw e)
    (hb : (if w.stateOf p = .fulfilled then b1 else b2).notGuard = true)
    (hr : ∀ r, dispatchSpec env (w.stateOf p) (w.valueOf p) b1 b2 = .normal r →
      r.handsOver w.heap.length = false ∧ r.handsOver (w.heap.length + 1) = false) :
    ((Promise.then w p a1 a2).1 = w.heap.length ∧
      (tick env (Promise.then w p a1 a2).2).2 = .normal .undefined ∧
      (tick env (Promise.then w p a1 a2).2).1.stateOf w.heap.length = .rejected ∧
      (tick env (Promise.then w p a1 a2).2).1.valueOf w.heap.length = e) ∧
    ((Promise.then (Promise.then w p a1 a2).2 p b1 b2).1 = w.heap.length + 1 ∧
      (Promise.then w p b1 b2).1 = w.heap.length ∧
      (tick env (Promise.then (Promise.then w p a1 a2).2 p b1 b2).2).2 = .normal .undefined ∧
      (runTicks env 2 (Promise.then (Promise.then w p a1 a2).2 p b1 b2).2).stateOf
        (w.heap.length + 1) = (tick env (Promise.then w p b1 b2).2).1.stateOf w.heap.length ∧
      (runTicks env 2 (Promise.then (Promise.then w p a1 a2).2 p b1 b2).2).valueOf
        (w.heap.length + 1) = (tick env (Promise.then w p b1 b2).2).1.valueOf w.heap.length) ∧
    ((runTicks env 2 (Promise.then (Promise.then w p b1 b2).2 p a1 a2).2).stateOf w.heap.length
        = (tick env (Promise.then w p b1 b2).2).1.stateOf w.heap.length ∧
      (runTicks env 2 (Promise.then (Promise.then w p b1 b2).2 p a1 a2).2).valueOf w.heap.length
        = (tick env (Promise.then w p b1 b2).2).1.valueOf w.heap.length) := by
  have hA := isolation_alone env w p a1 a2 fA e hs hq ha he
  have hAB := isolation_later_sibling env w p a1 a2 b1 b2 fA e hs hq ha he hb hr
  have hBA := isolation_earlier_sibling env w p a1 a2 b1 b2 fA hs hq ha hb
  have hl : (Promise.then (Promise.then w p a1 a2).2 p b1 b2).1 = w.heap.length + 1 := by
    show (Promise.then w p a1 a2).2.heap.length = w.heap.length + 1
    exact (then_settled_facts w p a1 a2 hs).2.2.1
  exact ⟨⟨rfl, hA⟩, ⟨hl, rfl, hAB⟩, hBA⟩

/-- C3 on the promise fulfilled with 1: callback 3 throws its argument, the
sibling callback 0 returns 9.  The thrower's promise is rejected with 1 and the
sibling's promise is fulfilled as when it is alone. -/
theorem exception_isolation_witness :
    (tick exampleEnv (Promise.then exampleFulfilled 0 (.func (.user 3)) .undefined).2).1.valueOf 1
      = .prim 1 ∧
    (runTicks exampleEnv 2 (Promise.then (Promise.then exampleFulfilled 0 (.func (.user 3))
      .undefined).2 0 (.func (.user 0)) .undefined).2).stateOf 2 =
      (tick exampleEnv (Promise.then exampleFulfilled 0 (.func (.user 0)) .undefined).2).1.stateOf
        1 ∧
    (tick exampleEnv (Promise.then exampleFulfilled 0 (.func (.user 0)) .undefined).2).1.stateOf 1
      = .fulfilled :=
  ⟨(exception_isolation exampleEnv exampleFulfilled 0 (.func (.user 3)) .undefined
      (.func (.user 0)) .undefined 3 (.prim 1) (by decide) rfl rfl rfl rfl
      (fun r h => by cases h; exact ⟨rfl, rfl⟩)).1.2.2.2,
   (exception_isolation exampleEnv exampleFulfilled 0 (.func (.user 3)) .undefined
      (.func (.user 0)) .undefined 3 (.prim 1) (by decide) rfl rfl rfl rfl
      (fun r h => by cases h; exact ⟨rfl, rfl⟩)).2.1.2.2.2.1,
   by decide⟩

/-! ## Registrations and their dispatch order -/

theorem deferredsOf_pushDeferred (w : World) (p : Nat) (d : Handler) (h : p < w.heap.length) :
    (w.pushDeferred p d).deferredsOf p = w.deferredsOf p ++ [d] := by
  simp [World.deferredsOf, World.getP, World.pushDeferred, List.getElem?_eq_getElem h]

theorem deferredsOf_settle (w : World) (p : Nat) (s : State) (v : Val) :
    (w.settle p s v).deferredsOf p = w.deferredsOf p := by
  simp only [World.deferredsOf, World.getP, World.settle, List.getElem?_modify_eq]
  cases w.heap[p]? <;> rfl

theorem goodCell_of_cellsExt {w w' : World} {p c : Nat} (h : CellsExt w w')
    (hg : GoodCell w p c) : GoodCell w' p c := by
  obtain ⟨cell, h1, h2⟩ := hg
  obtain ⟨cell', h3, h4, _⟩ := h c cell h1
  exact ⟨cell', h3, by rw [h4]; exact h2⟩

theorem foldl_handle_settled (p : Nat) (ds : List Handler) : ∀ w : World,
    w.stateOf p ≠ .pending →
    (ds.foldl (fun acc d => handle acc p d) w).queue = w.queue ++ ds.map (fun d => ⟨p, d⟩) := by
  induction ds with
  | nil => intro w _; simp
  | cons d ds ih =>
    intro w hs
    have h1 : handle w p d = w.ast ⟨p, d⟩ := by simp [handle, hs]
    simp only [List.foldl_cons, h1]
    rw [ih (w.ast ⟨p, d⟩) (by simpa using hs)]
    simp

theorem finale_queue (w : World) (p : Nat) (hs : w.stateOf p ≠ .pending) :
    (finale w p).queue = w.queue ++ (w.deferredsOf p).map (fun d => ⟨p, d⟩) := by
  simp only [finale, clearDeferreds_queue]
  exact foldl_handle_settled p _ w hs

theorem registerAll_cons (w : World) (p : Nat) (cb : Nat × Nat) (cs : List (Nat × Nat)) :
    registerAll w p (cb :: cs) =
      registerAll (Promise.then w p (.func (.user cb.1)) (.func (.user cb.2))).2 p cs := rfl

theorem triples_length (cs : List (Nat × Nat)) : ∀ m, (triples cs m).length = cs.length := by
  induction cs with
  | nil => intro m; rfl
  | cons cb cs ih => intro m; simp [triples, ih]

theorem triples_append (cs1 cs2 : List (Nat × Nat)) : ∀ m,
    triples (cs1 ++ cs2) m = triples cs1 m ++ triples cs2 (m + cs1.length) := by
  induction cs1 with
  | nil => intro m; simp [triples]
  | cons cb cs ih =>
    intro m
    have e : m + 1 + cs.length = m + (cs.length + 1) := by omega
    show (cb.1, cb.2, m) :: triples (cs ++ cs2) (m + 1) =
      (cb.1, cb.2, m) :: triples cs (m + 1) ++ triples cs2 (m + (cs.length + 1))
    rw [ih (m + 1), e]
    rfl

theorem triples_map (cs : List (Nat × Nat)) (g : Nat → Nat → Nat × Val) : ∀ m,
    (triples cs m).map (fun t => g t.1 t.2.1) = cs.map (fun cb => g cb.1 cb.2) := by
  induction cs with
  | nil => intro m; rfl
  | cons cb cs ih => intro m; simp [triples, ih]

/-- Registrations on a pending promise are queued in its `deferreds`, in order. -/
theorem registerAll_pending (p : Nat) (cs : List (Nat × Nat)) : ∀ w : World,
    w.stateOf p = .pending → p < w.heap.length →
    (registerAll w p cs).stateOf p = .pending ∧
    (registerAll w p cs).deferredsOf p =
      w.deferredsOf p ++ (triples cs w.cells.length).map mkHandler ∧
    (registerAll w p cs).queue = w.queue ∧
    (registerAll w p cs).log = w.log ∧
    w.heap.length ≤ (registerAll w p cs).heap.length ∧
    (registerAll w p cs).cells.length = w.cells.length + cs.length ∧
    (∀ c t, w.Live c t → (registerAll w p cs).Live c t) ∧
    (∀ c, GoodCell w p c → GoodCell (registerAll w p cs) p c) ∧
    ∀ t ∈ triples cs w.cells.length, GoodCell (registerAll w p cs) p t.2.2 := by
  induction cs with
  | nil =>
    intro w hs _
    exact ⟨hs, by simp [registerAll, triples], rfl, rfl, Nat.le_refl _, rfl, fun _ _ h => h,
      fun _ h => h, fun t ht => by simp [triples] at ht⟩
  | cons cb cs ih =>
    intro w hs hlt
    rw [registerAll_cons, then_pending w p _ _ hs]
    have hs1 : ((w.allocPromise.allocCell w.heap.length).pushDeferred p
        (thenHandler (.func (.user cb.1)) (.func (.user cb.2)) w.cells.length)).stateOf p
        = .pending := by
      rw [stateOf_pushDeferred, stateOf_allocCell, stateOf_allocPromise]; exact hs
    have hlt1 : p < ((w.allocPromise.allocCell w.heap.length).pushDeferred p
        (thenHandler (.func (.user cb.1)) (.func (.user cb.2)) w.cells.length)).heap.length := by
      simp; omega
    obtain ⟨i1, i2, i3, i4, i5, i6, i7, i8, i9⟩ := ih _ hs1 hlt1
    have hcells : ((w.allocPromise.allocCell w.heap.length).pushDeferred p
        (thenHandler (.func (.user cb.1)) (.func (.user cb.2)) w.cells.length)).cells
        = w.cells ++ [⟨false, w.heap.length⟩] := rfl
    have hext : CellsExt w ((w.allocPromise.allocCell w.heap.length).pushDeferred p
        (thenHandler (.func (.user cb.1)) (.func (.user cb.2)) w.cells.length)) :=
      CellsExt.alloc w w.heap.length
    have hclen : ((w.allocPromise.allocCell w.heap.length).pushDeferred p
        (thenHandler (.func (.user cb.1)) (.func (.user cb.2)) w.cells.length)).cells.length
        = w.cells.length + 1 := by
      rw [hcells]; simp
    have hnew : GoodCell ((w.allocPromise.allocCell w.heap.length).pushDeferred p
        (thenHandler (.func (.user cb.1)) (.func (.user cb.2)) w.cells.length)) p
        w.cells.length :=
      ⟨⟨false, w.heap.length⟩, by rw [hcells]; simp, by
        show w.heap.length ≠ p
        omega⟩
    rw [hclen] at i2 i6 i9
    refine ⟨i1, ?_, i3, i4, ?_, ?_, ?_, ?_, ?_⟩
    · rw [i2, deferredsOf_pushDeferred _ _ _ (by simp; omega)]
      have : (w.allocPromise.allocCell w.heap.length).deferredsOf p = w.deferredsOf p := by
        simp only [World.deferredsOf]
        exact congrArg _ (getP_allocPromise w p)
      rw [this]
      simp [triples, mkHandler]
    · refine Nat.le_trans ?_ i5
      simp
    · rw [i6]; simp; omega
    · intro c t hl
      exact i7 c t (live_append_left hl [⟨false, w.heap.length⟩] hcells)
    · intro c hg
      exact i8 c (goodCell_of_cellsExt hext hg)
    · intro t ht
      simp only [triples, List.mem_cons] at ht
      rcases ht with h | h
      · subst h
        exact i8 _ hnew
      · exact i9 t h

/-- Registrations on a settled promise are handed to the scheduler, in order. -/
theorem registerAll_settled (p : Nat) (cs : List (Nat × Nat)) : ∀ w : World,
    w.stateOf p ≠ .pending →
    (registerAll w p cs).queue = w.queue ++ (triples cs w.cells.length).map (mkTask p) ∧
    (∀ q, (registerAll w p cs).getP q = w.getP q) ∧
    (registerAll w p cs).log = w.log ∧
    (∀ c, GoodCell w p c → GoodCell (registerAll w p cs) p c) ∧
    ∀ t ∈ triples cs w.cells.length, GoodCell (registerAll w p cs) p t.2.2 := by
  induction cs with
  | nil =>
    intro w _
    exact ⟨by simp [registerAll, triples], fun _ => rfl, rfl, fun _ h => h,
      fun t ht => by simp [triples] at ht⟩
  | cons cb cs ih =>
    intro w hs
    have hplt : p < w.heap.length := lt_length_of_settled w p hs
    obtain ⟨_, fq, _, fc, flog, fg⟩ :=
      then_settled_facts w p (.func (.user cb.1)) (.func (.user cb.2)) hs
    have hs1 : (Promise.then w p (.func (.user cb.1)) (.func (.user cb.2))).2.stateOf p
        ≠ .pending := by
      rw [(stateOf_eq_of_getP (fg p)).1]; exact hs
    rw [registerAll_cons]
    obtain ⟨i1, i2, i3, i4, i5⟩ := ih _ hs1
    have hclen : (Promise.then w p (.func (.user cb.1)) (.func (.user cb.2))).2.cells.length
        = w.cells.length + 1 := by
      rw [fc]; simp
    have hext : CellsExt w (Promise.then w p (.func (.user cb.1)) (.func (.user cb.2))).2 :=
      (touches_then 0 w p _ _).cells
    have hnew : GoodCell (Promise.then w p (.func (.user cb.1)) (.func (.user cb.2))).2 p
        w.cells.length :=
      ⟨⟨false, w.heap.length⟩, by rw [fc]; simp, by
        show w.heap.length ≠ p
        omega⟩
    rw [hclen] at i1 i5
    refine ⟨?_, fun q => (i2 q).trans (fg q), i3.trans flog, ?_, ?_⟩
    · rw [i1, fq]
      simp [triples, mkTask, mkHandler]
    · intro c hg
      exact i4 c (goodCell_of_cellsExt hext hg)
    · intro t ht
      simp only [triples, List.mem_cons] at ht
      rcases ht with h | h
      · subst h
        exact i4 _ hnew
      · exact i5 t h

/-- The dispatch of a registration of two user callbacks logs the call of the
selected one and then touches only the derived promise. -/
theorem touches_runTask_mkTask (env : Env) (u : World) (p : Nat) (t : Nat × Nat × Nat) :
    Touches (u.targetOf t.2.2)
      (u.logCall (if u.stateOf p = .fulfilled then t.1 else t.2.1) (u.valueOf p))
      (runTask env (mkTask p t) u).1 := by
  have hsel : (if u.stateOf (mkTask p t).self = .fulfilled then (mkTask p t).deferred.onFulfilled
      else (mkTask p t).deferred.onRejected) =
      some (.user (if u.stateOf p = .fulfilled then t.1 else t.2.1)) := by
    simp only [mkTask, mkHandler, thenHandler, asCallback]
    split <;> rfl
  cases hr : env (if u.stateOf p = .fulfilled then t.1 else t.2.1) (u.valueOf p) with
  | normal r =>
    rw [runTask_user_normal env _ _ _ r hsel hr]
    exact (touches_callFn_guard env (u.logCall _ (u.valueOf p)) t.2.2 r).1
  | throw e =>
    rw [runTask_user_throw env _ _ _ e hsel hr]
    exact (touches_callFn_guard env (u.logCall _ (u.valueOf p)) t.2.2 e).2

theorem targetOf_of_goodCell {w : World} {p c : Nat} (h : GoodCell w p c) :
    w.targetOf c ≠ p := by
  obtain ⟨cell, h1, h2⟩ := h
  simp [World.targetOf, h1, h2]

/-- A FIFO scheduler runs the queued dispatches of `p` in queue order: each
logs the call of its branch selected by the state of `p`, with the value of `p`. -/
theorem drain (env : Env) (p : Nat) (s : State) (x : Val) (hs : s ≠ .pending) :
    ∀ (ts : List (Nat × Nat × Nat)) (w : World) (extra : List Task),
    w.queue = ts.map (mkTask p) ++ extra → w.stateOf p = s → w.valueOf p = x →
    (∀ t ∈ ts, GoodCell w p t.2.2) →
    (runTicks env ts.length w).log =
      w.log ++ ts.map (fun t => (if s = .fulfilled then t.1 else t.2.1, x)) := by
  intro ts
  induction ts with
  | nil => intro w extra _ _ _ _; simp [runTicks]
  | cons t ts ih =>
    intro w extra hq hst hv hgood
    have hplt : p < w.heap.length := lt_length_of_settled w p (by rw [hst]; exact hs)
    simp only [List.length_cons, runTicks]
    rw [tick_cons env w (mkTask p t) (ts.map (mkTask p) ++ extra) (by simpa using hq)]
    have ht := touches_runTask_mkTask env
      { w with queue := ts.map (mkTask p) ++ extra } p t
    have hs0 : World.stateOf { w with queue := ts.map (mkTask p) ++ extra } p = s := hst
    have hv0 : World.valueOf { w with queue := ts.map (mkTask p) ++ extra } p = x := hv
    rw [hs0, hv0] at ht
    have hgt : GoodCell { w with queue := ts.map (mkTask p) ++ extra } p t.2.2 :=
      hgood t (List.mem_cons_self _ _)
    have hne := targetOf_of_goodCell hgt
    generalize (runTask env (mkTask p t) { w with queue := ts.map (mkTask p) ++ extra }).1 = R
      at ht
    obtain ⟨ts', hts'⟩ := ht.queue
    have hfr := ht.frame p (fun e => hne e.symm) hplt
    have hRq : R.queue = ts.map (mkTask p) ++ (extra ++ ts') := by
      rw [hts']
      show (ts.map (mkTask p) ++ extra) ++ ts' = _
      rw [List.append_assoc]
    have hRgood : ∀ t' ∈ ts, GoodCell R p t'.2.2 := by
      intro t' ht'
      exact goodCell_of_cellsExt ht.cells (hgood t' (List.mem_cons_of_mem _ ht'))
    rw [ih R (extra ++ ts') hRq (hfr.1.trans hst) (hfr.2.trans hv) hRgood, ht.log]
    simp [World.logCall]

/-! ## C6: order preservation -/

/-- C6: let `p` be a pending promise without registrations whose closures are in
the live cell `c`, and let the scheduler be idle.  Register the continuations
`cs1` with `then`, settle `p` (fulfil it with a plain value `v`, or reject it
with `v`), register the continuations `cs2`, and let the FIFO scheduler run as
many tasks as there are continuations.  The callbacks called are then exactly
the branches selected by the settlement, one per continuation, in registration
order, each with argument `v`. -/
theorem order_preservation (env : Env) (w : World) (p c : Nat) (cs1 cs2 : List (Nat × Nat))
    (v : Val) (viaReject : Bool) (hl : w.Live c p) (hlt : p < w.heap.length)
    (hp : w.stateOf p = .pending) (hd : w.deferredsOf p = []) (hq : w.queue = [])
    (hv : viaReject = false → v.plain = true) :
    (runTicks env (cs1.length + cs2.length)
      (registerAll (callFn env (if viaReject then .guardRejected c else .guardFulfilled c) v
        (registerAll w p cs1)).1 p cs2)).log =
      w.log ++ (cs1 ++ cs2).map (fun cb => (if viaReject then cb.2 else cb.1, v)) := by
  obtain ⟨_, a2, a3, a4, a5, a6, a7, _, a9⟩ := registerAll_pending p cs1 w hp hlt
  generalize registerAll w p cs1 = w1 at a2 a3 a4 a5 a6 a7 a9
  have hl1 : w1.Live c p := a7 c p hl
  have hlt1 : p < w1.heap.length := Nat.lt_of_lt_of_le hlt a5
  -- the settlement
  have hw2 : ∃ s, s ≠ State.pending ∧ (s = .fulfilled ↔ viaReject = false) ∧
      (callFn env (if viaReject then .guardRejected c else .guardFulfilled c) v w1).1 =
        finale ((w1.setDone c).settle p s v) p := by
    cases viaReject with
    | false =>
      refine ⟨.fulfilled, by decide, by simp, ?_⟩
      simp only [Bool.false_eq_true, if_false]
      rw [callFn_guardFulfilled_live env v hl1, resolve_plain _ _ _ (hv rfl)]
    | true =>
      refine ⟨.rejected, by decide, by simp, ?_⟩
      simp only [if_true]
      rw [callFn_guardRejected_live env v hl1]
      rfl
  obtain ⟨s, hs, hsv, hw2⟩ := hw2
  rw [hw2]
  have hlt2 : p < (w1.setDone c).heap.length := hlt1
  have b1 : (finale ((w1.setDone c).settle p s v) p).stateOf p = s := by
    simp [stateOf_settle, hlt1]
  have b2 : (finale ((w1.setDone c).settle p s v) p).valueOf p = v := by
    simp [valueOf_settle, hlt1]
  have b3 : (finale ((w1.setDone c).settle p s v) p).queue
      = (triples cs1 w.cells.length).map (mkTask p) := by
    rw [finale_queue _ _ (by simp [stateOf_settle, hlt1, hs]), deferredsOf_settle]
    have : (w1.setDone c).deferredsOf p = w1.deferredsOf p := rfl
    rw [this, a2, hd, settle_queue, setDone_queue, a3, hq]
    simp [mkTask, List.map_map, Function.comp_def]
  have b4 : (finale ((w1.setDone c).settle p s v) p).log = w.log := by
    rw [finale_log, settle_log, setDone_log, a4]
  have b5 : (finale ((w1.setDone c).settle p s v) p).cells.length
      = w.cells.length + cs1.length := by
    rw [finale_cells, settle_cells, setDone_length, a6]
  have b6 : ∀ t ∈ triples cs1 w.cells.length,
      GoodCell (finale ((w1.setDone c).settle p s v) p) p t.2.2 := by
    intro t ht
    refine goodCell_of_cellsExt ?_ (a9 t ht)
    exact CellsExt.trans (CellsExt.setDone w1 c) (CellsExt.of_eq (by simp))
  generalize finale ((w1.setDone c).settle p s v) p = w2 at b1 b2 b3 b4 b5 b6
  -- the later registrations
  obtain ⟨c1, c2, c3, c4, c5⟩ := registerAll_settled p cs2 w2 (by rw [b1]; exact hs)
  rw [b5] at c1 c5
  generalize registerAll w2 p cs2 = w3 at c1 c2 c3 c4 c5
  have hq3 : w3.queue = (triples (cs1 ++ cs2) w.cells.length).map (mkTask p) ++ [] := by
    rw [c1, b3, triples_append]; simp
  have hgood : ∀ t ∈ triples (cs1 ++ cs2) w.cells.length, GoodCell w3 p t.2.2 := by
    intro t ht
    rw [triples_append, List.mem_append] at ht
    rcases ht with h | h
    · exact c4 _ (b6 t h)
    · exact c5 t h
  have hdrain := drain env p s v hs (triples (cs1 ++ cs2) w.cells.length) w3 [] hq3
    ((stateOf_eq_of_getP (c2 p)).1.trans b1) ((stateOf_eq_of_getP (c2 p)).2.trans b2) hgood
  rw [triples_length, List.length_append] at hdrain
  rw [hdrain, c3, b4,
    triples_map (cs1 ++ cs2) (fun a b => (if s = .fulfilled then a else b, v))]
  congr 1
  apply List.map_congr_left
  intro cb _
  cases viaReject with
  | false => simp [hsv.2 rfl]
  | true =>
    have : s ≠ .fulfilled := fun e => by simpa using hsv.1 e
    simp [this]

/-- C6 on the pending promise of `examplePending`: two continuations before
the fulfilment with 4 and one after it are called in registration order. -/
theorem order_preservation_witness :
    (runTicks exampleEnv 3 (registerAll (callFn exampleEnv (.guardFulfilled 0) (.prim 4)
      (registerAll examplePending 0 [(10, 20), (11, 21)])).1 0 [(12, 22)])).log =
      [(10, .prim 4), (11, .prim 4), (12, .prim 4)] :=
  order_preservation exampleEnv examplePending 0 0 [(10, 20), (11, 21)] [(12, 22)] (.prim 4)
    false rfl (by decide) rfl rfl rfl (fun _ => rfl)

/-! ## `Promise.all` -/

theorem deferredsOf_settle_ne (w : World) (p q : Nat) (s : State) (v : Val) (hne : p ≠ q) :
    (w.settle p s v).deferredsOf q = w.deferredsOf q := by
  simp only [World.deferredsOf, World.getP, World.settle, List.getElem?_modify_ne _ _ hne]

theorem foldl_handle_heap (p : Nat) (ds : List Handler) : ∀ u : World,
    u.stateOf p ≠ .pending → (ds.foldl (fun acc d => handle acc p d) u).heap = u.heap := by
  induction ds with
  | nil => intro u _; rfl
  | cons d ds ih =>
    intro u hu
    have h1 : handle u p d = u.ast ⟨p, d⟩ := by simp [handle, hu]
    simp only [List.foldl_cons, h1]
    rw [ih _ (by simpa using hu)]
    rfl

theorem deferredsOf_finale_ne (w : World) (p q : Nat) (hne : p ≠ q)
    (hs : w.stateOf p ≠ .pending) : (finale w p).deferredsOf q = w.deferredsOf q := by
  simp only [World.deferredsOf, World.getP, finale, World.clearDeferreds,
    List.getElem?_modify_ne _ _ hne, foldl_handle_heap p _ w hs]

/-- Whatever its arguments, `Promise.all` builds a promise and fulfils it at
once with a new empty array. -/
theorem all_result (w : World) (arguments : List Val) :
    Promise.all w arguments =
      (w.heap.length,
        finale (((w.allocPromise.allocCell w.heap.length).setDone w.cells.length).settle
          w.heap.length .fulfilled (.array [])) w.heap.length) := by
  have hl := live_fresh w
  simp only [Promise.all, sliceCall, newPromise, doResolve, List.length_nil, if_true,
    guardedFulfil, allocPromise_cells, isDone_of_live hl, targetOf_of_live hl,
    Bool.false_eq_true, if_false]
  rw [resolve_plain _ _ (.array []) rfl]

theorem all_state (w : World) (arguments : List Val) :
    (Promise.all w arguments).2.stateOf w.heap.length = .fulfilled ∧
    (Promise.all w arguments).2.valueOf w.heap.length = .array [] := by
  rw [all_result]
  exact stateOf_fulfil _ _ _ (by simp)

/-! ## C11: `Promise.all` and the values of its inputs -/

/-- C11: for every list of arguments, in particular for one non-empty array of
values or promises, `Promise.all` returns a promise that is fulfilled with the
empty array: `args` (lines 203-205) is `slice.call` of a boolean, so no input
reaches the result. -/
theorem all_drops_inputs (w : World) (arguments : List Val) :
    (Promise.all w arguments).1 = w.heap.length ∧
    (Promise.all w arguments).2.stateOf w.heap.length = .fulfilled ∧
    (Promise.all w arguments).2.valueOf w.heap.length = .array [] ∧
    (Promise.all w [.array [.prim 3, .prim 4]]).2.valueOf w.heap.length = .array [] :=
  ⟨by rw [all_result], (all_state w arguments).1, (all_state w arguments).2,
    (all_state w _).2⟩

/-! ## C12: `Promise.all` and the rejection of an input -/

/-- C12: for every list of arguments, in particular for an array holding a
rejected promise, `Promise.all` returns a promise that is already fulfilled
(with the empty array) when the call returns; nothing has been handed to the
scheduler and nothing has been registered on an existing promise, so no later
rejection of an input can reach it. -/
theorem all_ignores_rejection (w : World) (arguments : List Val) :
    (Promise.all w arguments).2.stateOf w.heap.length = .fulfilled ∧
    (Promise.all w arguments).2.queue = w.queue ∧
    (∀ q, q < w.heap.length →
      (Promise.all w arguments).2.deferredsOf q = w.deferredsOf q) ∧
    (Promise.all exampleRejected [.array [.promise 0]]).2.stateOf 1 = .fulfilled := by
  refine ⟨(all_state w arguments).1, ?_, ?_, by decide⟩
  · rw [all_result]
    have hd : ((((w.allocPromise.allocCell w.heap.length).setDone w.cells.length).settle
        w.heap.length .fulfilled (.array [])).deferredsOf w.heap.length) = [] := by
      rw [deferredsOf_settle]
      show (w.allocPromise.getP w.heap.length).deferreds = []
      rw [getP_allocPromise]
      simp [World.getP, PromiseObj.fresh]
    rw [finale_queue _ _ (by simp [stateOf_settle]), hd]
    simp
  · intro q hq
    rw [all_result, deferredsOf_finale_ne _ _ _ (by omega) (by simp [stateOf_settle]),
      deferredsOf_settle_ne _ _ _ _ _ (by omega)]
    show (w.allocPromise.getP q).deferreds = (w.getP q).deferreds
    rw [getP_allocPromise]

/-! ## C19: `Promise.all` of the empty array -/

/-- C19: `Promise.all([])` returns a promise that is fulfilled with an empty
array when the call returns. -/
theorem all_empty (w : World) :
    (Promise.all w [.array []]).1 = w.heap.length ∧
    (Promise.all w [.array []]).2.stateOf w.heap.length = .fulfilled ∧
    (Promise.all w [.array []]).2.valueOf w.heap.length = .array [] :=
  ⟨by rw [all_result], all_state w _⟩

/-! ## C16: `Promise.setImmediateFn` -/

/-- C16: `Promise.setImmediateFn(f)` stores `f` in the global `asap` and leaves
the rest of the world as it is; `handle`, which schedules with `ast`, does after
it what it does without it: on a settled promise the dispatch task is appended
to the queue of the default scheduler and `f` is not called (nothing is logged). -/
theorem setImmediateFn_ignored (w : World) (f : Val) (p : Nat) (d : Handler) :
    (Promise.setImmediateFn w f).asap = some f ∧
    handle (Promise.setImmediateFn w f) p d = Promise.setImmediateFn (handle w p d) f ∧
    (w.stateOf p ≠ .pending →
      (handle (Promise.setImmediateFn w f) p d).queue = w.queue ++ [⟨p, d⟩] ∧
      (handle (Promise.setImmediateFn w f) p d).log = w.log) := by
  have hs : (Promise.setImmediateFn w f).stateOf p = w.stateOf p := rfl
  refine ⟨rfl, ?_, fun hp => ?_⟩
  · unfold handle
    rw [hs]
    split <;> rfl
  · unfold handle
    rw [hs, if_neg hp]
    exact ⟨rfl, rfl⟩

/-! ## C17: construction errors -/

/-- C17: `new Promise(fn)` throws a TypeError for every `fn` that is not a
function (nothing is returned, so no field is written and `fn` is not called).
A plain call `Promise(fn)` with a function `fn` does not throw: `this` is the
global object, the test of line 171 passes, the fields are written and `fn` is
run, as under `new`. -/
theorem construct_errors (w : World) (v : Val) (fn : Executor) :
    (∃ msg, Promise.construct w .newInstance (.notFunction v) = .error (.typeError msg)) ∧
    (∃ msg, Promise.construct w plainCallThis (.notFunction v) = .error (.typeError msg)) ∧
    Promise.construct w plainCallThis (.function fn) = .ok (newPromise w fn) ∧
    (∃ r, Promise.construct w plainCallThis (.function (script (.callFirst (.prim 1) .ret)))
        = .ok r ∧ r.2.stateOf w.heap.length = .fulfilled ∧ r.2.heap.length = w.heap.length + 1) ∧
    Promise.construct w (.other false) (.function fn) =
      .error (.typeError "Promises must be constructed via new") := by
  refine ⟨?_, ?_, rfl, ⟨_, rfl, ?_, ?_⟩, rfl⟩
  · cases v <;> exact ⟨_, rfl⟩
  · cases v <;> exact ⟨_, rfl⟩
  · rw [newPromise_callFirst, resolve_plain _ _ (.prim 1) rfl]
    exact (stateOf_fulfil _ _ _ (by simp)).1
  · rw [newPromise_callFirst, resolve_plain _ _ (.prim 1) rfl]
    simp

/-! ## C18: `Promise.resolve` of a promise -/

/-- C18: for a Promise instance `x`, `Promise.resolve(x)` returns `x` and
changes nothing (no promise is constructed); hence for every `y`,
`Promise.resolve(Promise.resolve(y))` is the promise `Promise.resolve(y)` and
the second call changes nothing. -/
theorem resolve_identity (w : World) (q : Nat) (y : Val) :
    Promise.resolve w (.promise q) = (.promise q, w) ∧
    Promise.resolve (Promise.resolve w y).2 (Promise.resolve w y).1 = Promise.resolve w y := by
  refine ⟨rfl, ?_⟩
  cases y with
  | obj t => rfl
  | _ => rfl

/-! ## C20: rejection reasons are opaque -/

/-- C20: let cell `c` hold the closures of an existing promise `p` and be not
done.  Calling the rejection closure with any value `r`, a thenable, an object
whose `then` getter throws, or `p` itself included, returns normally and leaves
`p` rejected with `r`; no `doResolve` call is made (no cell is added), so the
`then` of `r` is neither read nor called, and nothing is logged. -/
theorem reject_keeps_reason (env : Env) (w : World) (c p : Nat) (r : Val) (hl : w.Live c p)
    (hp : p < w.heap.length) :
    (callFn env (.guardRejected c) r w).2 = .normal .undefined ∧
    (callFn env (.guardRejected c) r w).1.stateOf p = .rejected ∧
    (callFn env (.guardRejected c) r w).1.valueOf p = r ∧
    (callFn env (.guardRejected c) r w).1.cells.length = w.cells.length ∧
    (callFn env (.guardRejected c) r w).1.heap.length = w.heap.length ∧
    (callFn env (.guardRejected c) r w).1.log = w.log := by
  rw [callFn_guardRejected_live env r hl]
  have hp' : p < (w.setDone c).heap.length := hp
  refine ⟨rfl, (stateOf_reject_self _ _ r hp').1, (stateOf_reject_self _ _ r hp').2, ?_, ?_, ?_⟩
  · rw [reject_cells, setDone_length]
  · rw [reject_length, setDone_heap]
  · rw [reject_log, setDone_log]

/-- C20 on the pending promise 0 of `examplePending`, rejected with a thenable
whose `then` would fulfil: the promise is rejected with the thenable itself. -/
theorem reject_keeps_reason_witness :
    (callFn exampleEnv (.guardRejected 0) (.obj (.method (.callFirst (.prim 4) .ret)))
      examplePending).1.stateOf 0 = .rejected ∧
    (callFn exampleEnv (.guardRejected 0) (.obj (.method (.callFirst (.prim 4) .ret)))
      examplePending).1.valueOf 0 = .obj (.method (.callFirst (.prim 4) .ret)) ∧
    (callFn exampleEnv (.guardRejected 0) (.promise 0) examplePending).1.valueOf 0
      = .promise 0 :=
  ⟨(reject_keeps_reason exampleEnv examplePending 0 0 _ rfl (by decide)).2.1,
   (reject_keeps_reason exampleEnv examplePending 0 0 _ rfl (by decide)).2.2.1,
   (reject_keeps_reason exampleEnv examplePending 0 0 (.promise 0) rfl (by decide)).2.2.1⟩

/-! ## Dispatch of a registration whose callbacks are the closures of a cell -/

theorem isDone_of_lt_of_cellsExt {w w' : World} (h : CellsExt w w') {c : Nat}
    (hd : w.isDone c = true) (hc : c < w.cells.length) : w'.isDone c = true :=
  isDone_of_cellsExt h hc hd

theorem lt_cells_of_live {w : World} {c t : Nat} (h : w.Live c t) : c < w.cells.length := by
  by_contra hge
  unfold World.Live at h
  rw [List.getElem?_eq_none (Nat.le_of_not_lt hge)] at h
  cases h

theorem runTask_some (env : Env) (t : Task) (w : World) (cb : Fn)
    (h : (if w.stateOf t.self = .fulfilled then t.deferred.onFulfilled
      else t.deferred.onRejected) = some cb) :
    runTask env t w =
      match callFn env cb (w.valueOf t.self) w with
      | (w1, .throw error) => callFn env t.deferred.reject error w1
      | (w1, .normal result) => callFn env t.deferred.resolve result w1 := by
  unfold runTask
  simp only [h]

/-- The first dispatch: the task of a registration `then(resolve, reject)` on a
settled promise `q`, where `resolve` and `reject` are the closures of the live
cell `c` of promise `agg`, gives `agg` the state and the value of `q`. -/
theorem runTask_guards (env : Env) (u : World) (q c ci agg : Nat) (hl : u.Live c agg)
    (hagg : agg < u.heap.length) (hs : u.stateOf q ≠ .pending)
    (hv : u.stateOf q = .fulfilled → (u.valueOf q).plain = true)
    (hci : u.targetOf ci ≠ agg) :
    (runTask env ⟨q, thenHandler (.func (.guardFulfilled c)) (.func (.guardRejected c)) ci⟩
      u).2 = .normal .undefined ∧
    (runTask env ⟨q, thenHandler (.func (.guardFulfilled c)) (.func (.guardRejected c)) ci⟩
      u).1.stateOf agg = u.stateOf q ∧
    (runTask env ⟨q, thenHandler (.func (.guardFulfilled c)) (.func (.guardRejected c)) ci⟩
      u).1.valueOf agg = u.valueOf q ∧
    (runTask env ⟨q, thenHandler (.func (.guardFulfilled c)) (.func (.guardRejected c)) ci⟩
      u).1.isDone c = true := by
  have hagg' : agg < (u.setDone c).heap.length := hagg
  have hclt : c < (u.setDone c).cells.length := by
    rw [setDone_length]; exact lt_cells_of_live hl
  by_cases hf : u.stateOf q = .fulfilled
  · rw [runTask_some env _ u (.guardFulfilled c) (by simp [thenHandler, asCallback, hf]),
      callFn_guardFulfilled_live env _ hl, resolve_plain _ _ _ (hv hf)]
    simp only [thenHandler]
    rw [hf]
    have ht := (touches_callFn_guard env
      (finale ((u.setDone c).settle agg .fulfilled (u.valueOf q)) agg) ci .undefined).1
    have htg : (finale ((u.setDone c).settle agg .fulfilled (u.valueOf q)) agg).targetOf ci
        = u.targetOf ci := by
      simp only [World.targetOf, finale_cells, settle_cells, World.setDone,
        List.getElem?_modify]
      cases u.cells[ci]? <;> simp
      split <;> rfl
    rw [htg] at ht
    have hfr := ht.frame agg (fun e => hci e.symm) (by simpa using hagg)
    have h0 := stateOf_fulfil (u.setDone c) agg (u.valueOf q) hagg'
    refine ⟨rfl, hfr.1.trans h0.1, hfr.2.trans h0.2, ?_⟩
    refine isDone_of_cellsExt ht.cells (by simpa using hclt) ?_
    simp only [World.isDone, finale_cells, settle_cells]
    exact isDone_setDone u c
  · have hr : u.stateOf q = .rejected := by
      cases hst : u.stateOf q with
      | pending => exact absurd hst hs
      | fulfilled => exact absurd hst hf
      | rejected => rfl
    rw [runTask_some env _ u (.guardRejected c) (by simp [thenHandler, asCallback, hf]),
      callFn_guardRejected_live env _ hl]
    simp only [thenHandler]
    rw [hr]
    have ht := (touches_callFn_guard env (reject (u.setDone c) agg (u.valueOf q)) ci
      .undefined).1
    have htg : (reject (u.setDone c) agg (u.valueOf q)).targetOf ci = u.targetOf ci := by
      simp only [World.targetOf, reject_cells, World.setDone, List.getElem?_modify]
      cases u.cells[ci]? <;> simp
      split <;> rfl
    rw [htg] at ht
    have hfr := ht.frame agg (fun e => hci e.symm) (by simpa using hagg)
    have h0 := stateOf_reject_self (u.setDone c) agg (u.valueOf q) hagg'
    refine ⟨rfl, hfr.1.trans h0.1, hfr.2.trans h0.2, ?_⟩
    refine isDone_of_cellsExt ht.cells (by simpa using hclt) ?_
    simp only [World.isDone, reject_cells]
    exact isDone_setDone u c

/-- A later dispatch: once cell `c` is done, the task of a registration
`then(resolve, reject)` with the closures of `c` leaves promise `agg` as it is,
whatever the state of the promise it was registered on. -/
theorem runTask_guards_done (env : Env) (u : World) (q c ci agg : Nat)
    (hd : u.isDone c = true) (hagg : agg < u.heap.length) (hci : u.targetOf ci ≠ agg) :
    (runTask env ⟨q, thenHandler (.func (.guardFulfilled c)) (.func (.guardRejected c)) ci⟩
      u).2 = .normal .undefined ∧
    (runTask env ⟨q, thenHandler (.func (.guardFulfilled c)) (.func (.guardRejected c)) ci⟩
      u).1.stateOf agg = u.stateOf agg ∧
    (runTask env ⟨q, thenHandler (.func (.guardFulfilled c)) (.func (.guardRejected c)) ci⟩
      u).1.valueOf agg = u.valueOf agg := by
  have ht := (touches_callFn_guard env u ci .undefined).1
  have hfr := ht.frame agg (fun e => hci e.symm) hagg
  by_cases hf : u.stateOf q = .fulfilled
  · rw [runTask_some env _ u (.guardFulfilled c) (by simp [thenHandler, asCallback, hf]),
      (callFn_guard_done env _ hd).1]
    exact ⟨rfl, hfr⟩
  · rw [runTask_some env _ u (.guardRejected c) (by simp [thenHandler, asCallback, hf]),
      (callFn_guard_done env _ hd).2]
    exact ⟨rfl, hfr⟩

/-! ## What a registration leaves behind -/

theorem deferredsOf_pushDeferred_ne (w : World) (p q : Nat) (d : Handler) (hne : p ≠ q) :
    (w.pushDeferred p d).deferredsOf q = w.deferredsOf q := by
  simp only [World.deferredsOf, World.getP, World.pushDeferred, List.getElem?_modify_ne _ _ hne]

theorem mem_deferredsOf_pushDeferred {w : World} {p q : Nat} (h d : Handler)
    (hd : d ∈ w.deferredsOf q) : d ∈ (w.pushDeferred p h).deferredsOf q := by
  by_cases hpq : p = q
  · subst hpq
    by_cases hlt : p < w.heap.length
    · rw [deferredsOf_pushDeferred w p h hlt]
      exact List.mem_append_left _ hd
    · have : w.pushDeferred p h = w := by
        simp only [World.pushDeferred, List.modify_eq_self (Nat.le_of_not_lt hlt)]
      rw [this]
      exact hd
  · rw [deferredsOf_pushDeferred_ne w p q h hpq]
    exact hd

theorem deferredsOf_alloc (w : World) (t q : Nat) :
    (w.allocPromise.allocCell t).deferredsOf q = w.deferredsOf q := by
  show (w.allocPromise.getP q).deferreds = (w.getP q).deferreds
  rw [getP_allocPromise]

/-- What `p.then(a, b)` leaves behind, whatever the state of `p`. -/
theorem then_facts (w : World) (p : Nat) (a b : Val) :
    (Promise.then w p a b).1 = w.heap.length ∧
    (Promise.then w p a b).2.cells = w.cells ++ [⟨false, w.heap.length⟩] ∧
    (Promise.then w p a b).2.heap.length = w.heap.length + 1 ∧
    (∀ q, (Promise.then w p a b).2.stateOf q = w.stateOf q ∧
      (Promise.then w p a b).2.valueOf q = w.valueOf q) ∧
    (∀ q d, d ∈ w.deferredsOf q → d ∈ (Promise.then w p a b).2.deferredsOf q) ∧
    (∀ t, t ∈ w.queue → t ∈ (Promise.then w p a b).2.queue) ∧
    (w.stateOf p = .pending → p < w.heap.length →
      thenHandler a b w.cells.length ∈ (Promise.then w p a b).2.deferredsOf p) ∧
    (w.stateOf p ≠ .pending →
      (⟨p, thenHandler a b w.cells.length⟩ : Task) ∈ (Promise.then w p a b).2.queue) ∧
    (Promise.then w p a b).2.log = w.log := by
  by_cases hs : w.stateOf p = .pending
  · rw [then_pending w p a b hs]
    refine ⟨rfl, rfl, by simp, fun q => ?_, fun q d hd => ?_, fun t ht => ht, fun _ hlt => ?_,
      fun h => absurd hs h, rfl⟩
    · rw [stateOf_pushDeferred, valueOf_pushDeferred, stateOf_allocCell, valueOf_allocCell,
        stateOf_allocPromise, valueOf_allocPromise]
      exact ⟨rfl, rfl⟩
    · refine mem_deferredsOf_pushDeferred _ d ?_
      rw [deferredsOf_alloc]
      exact hd
    · rw [deferredsOf_pushDeferred _ _ _ (by simp; omega), deferredsOf_alloc]
      exact List.mem_append_right _ (List.mem_singleton_self _)
  · rw [then_settled w p a b hs]
    refine ⟨rfl, rfl, by simp, fun q => ?_, fun q d hd => ?_, fun t ht => ?_,
      fun h => absurd h hs, fun _ => ?_, rfl⟩
    · rw [stateOf_ast, valueOf_ast, stateOf_allocCell, valueOf_allocCell,
        stateOf_allocPromise, valueOf_allocPromise]
      exact ⟨rfl, rfl⟩
    · show d ∈ (w.allocPromise.allocCell w.heap.length).deferredsOf q
      rw [deferredsOf_alloc]
      exact hd
    · show t ∈ w.queue ++ [_]
      exact List.mem_append_left _ ht
    · show _ ∈ w.queue ++ [_]
      exact List.mem_append_right _ (List.mem_singleton_self _)

/-- The loop of `Promise.race` over Promise instances: every input gets one
registration whose two callbacks are the closures of cell `c`; the cells
already there, the states and values, the earlier registrations are kept. -/
theorem raceLoop_facts (c agg : Nat) : ∀ (qs : List Nat) (w : World),
    (∀ q ∈ qs, q < w.heap.length) → agg < w.heap.length →
    (raceLoop c (qs.map .promise) w).2 = none ∧
    (∀ c' t, w.Live c' t → (raceLoop c (qs.map .promise) w).1.Live c' t) ∧
    (∀ q, (raceLoop c (qs.map .promise) w).1.stateOf q = w.stateOf q ∧
      (raceLoop c (qs.map .promise) w).1.valueOf q = w.valueOf q) ∧
    (∀ q d, d ∈ w.deferredsOf q → d ∈ (raceLoop c (qs.map .promise) w).1.deferredsOf q) ∧
    (∀ t, t ∈ w.queue → t ∈ (raceLoop c (qs.map .promise) w).1.queue) ∧
    (∀ c', GoodCell w agg c' → GoodCell (raceLoop c (qs.map .promise) w).1 agg c') ∧
    (raceLoop c (qs.map .promise) w).1.log = w.log ∧
    ∀ i q, qs[i]? = some q →
      (w.stateOf q = .pending →
        thenHandler (.func (.guardFulfilled c)) (.func (.guardRejected c)) (w.cells.length + i)
          ∈ (raceLoop c (qs.map .promise) w).1.deferredsOf q) ∧
      (w.stateOf q ≠ .pending →
        (⟨q, thenHandler (.func (.guardFulfilled c)) (.func (.guardRejected c))
          (w.cells.length + i)⟩ : Task) ∈ (raceLoop c (qs.map .promise) w).1.queue) ∧
      GoodCell (raceLoop c (qs.map .promise) w).1 agg (w.cells.length + i) := by
  intro qs
  induction qs with
  | nil =>
    intro w _ _
    exact ⟨rfl, fun _ _ h => h, fun _ => ⟨rfl, rfl⟩, fun _ _ h => h, fun _ h => h,
      fun _ h => h, rfl, fun i q hq => by simp at hq⟩
  | cons q0 qs ih =>
    intro w hqs hagg
    obtain ⟨_, f2, f3, f4, f5, f6, f7, f8, f9⟩ :=
      then_facts w q0 (.func (.guardFulfilled c)) (.func (.guardRejected c))
    have hq0 : q0 < w.heap.length := hqs q0 (List.mem_cons_self _ _)
    have hext : CellsExt w (Promise.then w q0 (.func (.guardFulfilled c))
        (.func (.guardRejected c))).2 := (touches_then 0 w q0 _ _).cells
    have hnew : GoodCell (Promise.then w q0 (.func (.guardFulfilled c))
        (.func (.guardRejected c))).2 agg w.cells.length :=
      ⟨⟨false, w.heap.length⟩, by rw [f2]; simp, by
        show w.heap.length ≠ agg
        omega⟩
    obtain ⟨i1, i2, i3, i4, i5, i6, i7, i8⟩ := ih
      (Promise.then w q0 (.func (.guardFulfilled c)) (.func (.guardRejected c))).2
      (fun q hq => by rw [f3]; exact Nat.lt_succ_of_lt (hqs q (List.mem_cons_of_mem _ hq)))
      (by rw [f3]; omega)
    have hlen : (Promise.then w q0 (.func (.guardFulfilled c))
        (.func (.guardRejected c))).2.cells.length = w.cells.length + 1 := by
      rw [f2]; simp
    rw [hlen] at i8
    simp only [List.map_cons, raceLoop]
    refine ⟨i1, ?_, fun q => ⟨(i3 q).1.trans (f4 q).1, (i3 q).2.trans (f4 q).2⟩,
      fun q d hd => i4 q d (f5 q d hd), fun t ht => i5 t (f6 t ht),
      fun c' hg => i6 c' (goodCell_of_cellsExt hext hg), i7.trans f9, ?_⟩
    · intro c' t hl
      exact i2 c' t (live_append_left hl [⟨false, w.heap.length⟩] f2)
    · intro i q hq
      cases i with
      | zero =>
        simp only [List.getElem?_cons_zero, Option.some.injEq] at hq
        subst hq
        exact ⟨fun hp => i4 _ _ (f7 hp hq0), fun hp => i5 _ (f8 hp), i6 _ hnew⟩
      | succ j =>
        simp only [List.getElem?_cons_succ] at hq
        have e : w.cells.length + (j + 1) = w.cells.length + 1 + j := by omega
        rw [e]
        obtain ⟨g1, g2, g3⟩ := i8 j q hq
        exact ⟨fun hp => g1 (by rw [(f4 q).1]; exact hp),
          fun hp => g2 (by rw [(f4 q).1]; exact hp), g3⟩

/-! ## `Promise.race` -/

/-- The world after `Promise.race` on Promise instances: the aggregate is the
new promise, pending, with the live cell `w.cells.length`; input number `i` has
the registration `raceHandler` in its `deferreds` when it is pending and as a
queued task when it is settled. -/
theorem race_registered (w : World) (qs : List Nat) (hqs : ∀ x ∈ qs, x < w.heap.length) :
    (Promise.race w (qs.map .promise)).1 = w.heap.length ∧
    (Promise.race w (qs.map .promise)).2.Live w.cells.length w.heap.length ∧
    (Promise.race w (qs.map .promise)).2.stateOf w.heap.length = .pending ∧
    (Promise.race w (qs.map .promise)).2.log = w.log ∧
    ∀ i q, qs[i]? = some q →
      (w.stateOf q = .pending →
        raceHandler w.cells.length i ∈ (Promise.race w (qs.map .promise)).2.deferredsOf q) ∧
      (w.stateOf q ≠ .pending →
        (⟨q, raceHandler w.cells.length i⟩ : Task) ∈
          (Promise.race w (qs.map .promise)).2.queue) ∧
      GoodCell (Promise.race w (qs.map .promise)).2 w.heap.length (w.cells.length + 1 + i) := by
  obtain ⟨h1, h2, h3, _, _, _, h7, h8⟩ := raceLoop_facts w.cells.length w.heap.length qs
    (w.allocPromise.allocCell w.heap.length)
    (fun x hx => by
      have := hqs x hx
      simp [World.allocCell, World.allocPromise]; omega)
    (by simp [World.allocCell, World.allocPromise])
  have hrace : (Promise.race w (qs.map .promise)).2 =
      (raceLoop w.cells.length (qs.map .promise) (w.allocPromise.allocCell w.heap.length)).1 := by
    simp only [Promise.race, newPromise, doResolve, allocPromise_cells]
    split
    · rename_i heq
      rw [heq]
    · rename_i heq
      rw [heq] at h1
      cases h1
  rw [hrace]
  refine ⟨rfl, h2 _ _ ?_, ?_, h7, ?_⟩
  · show (w.cells ++ [_])[w.cells.length]? = _
    simp
  · rw [(h3 _).1, stateOf_allocCell, stateOf_allocPromise]
    simp [World.stateOf, World.getP, PromiseObj.fresh]
  · intro i q hq
    obtain ⟨g1, g2, g3⟩ := h8 i q hq
    have hc : (w.allocPromise.allocCell w.heap.length).cells.length = w.cells.length + 1 := by
      simp [World.allocCell, World.allocPromise]
    have hst : (w.allocPromise.allocCell w.heap.length).stateOf q = w.stateOf q := by
      rw [stateOf_allocCell, stateOf_allocPromise]
    rw [hc, hst] at g1 g2
    rw [hc] at g3
    exact ⟨g1, g2, g3⟩

/-! ## `always` -/

theorem tick_idle (env : Env) (w : World) (hq : w.queue = []) :
    tick env w = (w, .normal .undefined) := by
  simp only [tick, hq]

theorem runTicks_idle (env : Env) (w : World) (hq : w.queue = []) :
    ∀ n, runTicks env n w = w := by
  intro n
  induction n with
  | zero => rfl
  | succ n ih =>
    show runTicks env n (tick env w).1 = w
    rw [tick_idle env w hq]
    exact ih

theorem deferredsOf_fresh (w : World) (t : Nat) :
    (w.allocPromise.allocCell t).deferredsOf w.heap.length = [] := by
  simp [World.deferredsOf, World.getP, World.allocPromise, World.allocCell, PromiseObj.fresh]

/-- The dispatch of the registration made by `always` on a fulfilled promise:
the first closure (lines 278-280) returns the value, which fulfils the derived
promise; `callback` is not read. -/
theorem always_fulfilled_tick (env : Env) (w : World) (p : Nat) (callback : Val)
    (hs : w.stateOf p = .fulfilled) (hv : (w.valueOf p).plain = true) (hq : w.queue = []) :
    tick env (Promise.always w p callback).2 =
      (finale (((((w.allocSlot callback).allocPromise).allocCell w.heap.length).setDone
        w.cells.length).settle w.heap.length .fulfilled (w.valueOf p)) w.heap.length,
        .normal .undefined) := by
  have hs1 : (w.allocSlot callback).stateOf p ≠ .pending := by
    show w.stateOf p ≠ .pending
    rw [hs]; decide
  have hsel : (if ((w.allocSlot callback).allocPromise.allocCell
      (w.allocSlot callback).heap.length).stateOf p = .fulfilled
      then (thenHandler (.func .alwaysValue) (.func (.alwaysReason w.slots.length))
        (w.allocSlot callback).cells.length).onFulfilled
      else (thenHandler (.func .alwaysValue) (.func (.alwaysReason w.slots.length))
        (w.allocSlot callback).cells.length).onRejected) = some .alwaysValue := by
    rw [stateOf_allocCell, stateOf_allocPromise]
    show (if w.stateOf p = .fulfilled then _ else _) = _
    rw [if_pos hs]
    rfl
  unfold Promise.always
  rw [tick_then_settled env (w.allocSlot callback) p _ _ hs1 hq,
    runTask_some env _ _ .alwaysValue hsel]
  show callFn env (.guardFulfilled (w.allocSlot callback).cells.length) _ _ = _
  rw [callFn_guardFulfilled_live env _ (live_fresh (w.allocSlot callback))]
  have hval : ((w.allocSlot callback).allocPromise.allocCell
      (w.allocSlot callback).heap.length).valueOf p = w.valueOf p := by
    rw [valueOf_allocCell, valueOf_allocPromise]
    rfl
  show (resolve _ _ (((w.allocSlot callback).allocPromise.allocCell
      (w.allocSlot callback).heap.length).valueOf p), _) = _
  rw [hval, resolve_plain _ _ _ hv]
  rfl

/-- C14: for a promise `p` fulfilled with `v`, `p.always(cb)` returns a promise
that the next task fulfils with `v`, but `cb` is never invoked: the scheduler
is idle after that task and no call was logged, however long it runs. -/
theorem always_fulfilled_skips_callback (env : Env) (w : World) (p : Nat) (cb : Val) (n : Nat)
    (hs : w.stateOf p = .fulfilled) (hv : (w.valueOf p).plain = true) (hq : w.queue = []) :
    (runTicks env (n + 1) (Promise.always w p cb).2).log = w.log ∧
    (runTicks env (n + 1) (Promise.always w p cb).2).queue = [] ∧
    (runTicks env (n + 1) (Promise.always w p cb).2).stateOf (Promise.always w p cb).1
      = .fulfilled ∧
    (runTicks env (n + 1) (Promise.always w p cb).2).valueOf (Promise.always w p cb).1
      = w.valueOf p := by
  have hd : w.heap.length < (((w.allocSlot cb).allocPromise.allocCell w.heap.length).setDone
      w.cells.length).heap.length := by
    show w.heap.length < (w.allocSlot cb).allocPromise.heap.length
    rw [allocPromise_length]
    exact Nat.lt_succ_self _
  have hst := stateOf_fulfil _ w.heap.length (w.valueOf p) hd
  have hqueue : (finale (((((w.allocSlot cb).allocPromise).allocCell w.heap.length).setDone
      w.cells.length).settle w.heap.length .fulfilled (w.valueOf p)) w.heap.length).queue
      = [] := by
    have hdf : (((w.allocSlot cb).allocPromise.allocCell w.heap.length).setDone
        w.cells.length).deferredsOf w.heap.length = [] :=
      deferredsOf_fresh (w.allocSlot cb) w.heap.length
    have hne : ((((w.allocSlot cb).allocPromise.allocCell w.heap.length).setDone
        w.cells.length).settle w.heap.length .fulfilled (w.valueOf p)).stateOf w.heap.length
        ≠ .pending := by
      rw [stateOf_settle, if_pos ⟨rfl, hd⟩]
      decide
    rw [finale_queue _ _ hne, deferredsOf_settle, hdf]
    show w.queue ++ [] = []
    rw [hq]
    rfl
  have hfst : (Promise.always w p cb).1 = w.heap.length := rfl
  show (runTicks env n (tick env (Promise.always w p cb).2).1).log = _ ∧
    (runTicks env n (tick env (Promise.always w p cb).2).1).queue = _ ∧
    (runTicks env n (tick env (Promise.always w p cb).2).1).stateOf _ = _ ∧
    (runTicks env n (tick env (Promise.always w p cb).2).1).valueOf _ = _
  rw [always_fulfilled_tick env w p cb hs hv hq, runTicks_idle env _ hqueue n, hfst]
  exact ⟨by simp [World.allocSlot], hqueue, hst.1, hst.2⟩

/-- C14 on promise 0 of `exampleFulfilled`, fulfilled with 1, and the callback
`user 0`: after three tasks the derived promise 1 is fulfilled and the log of
calls is empty. -/
theorem always_fulfilled_skips_callback_witness :
    (runTicks exampleEnv 3 (Promise.always exampleFulfilled 0 (.func (.user 0))).2).log = [] ∧
    (runTicks exampleEnv 3 (Promise.always exampleFulfilled 0 (.func (.user 0))).2).stateOf 1
      = .fulfilled :=
  ⟨(always_fulfilled_skips_callback exampleEnv exampleFulfilled 0 (.func (.user 0)) 2
      rfl rfl rfl).1,
   (always_fulfilled_skips_callback exampleEnv exampleFulfilled 0 (.func (.user 0)) 2
      rfl rfl rfl).2.2.1⟩

theorem runTask_guards_log (env : Env) (u : World) (q c ci : Nat) :
    (runTask env ⟨q, thenHandler (.func (.guardFulfilled c)) (.func (.guardRejected c)) ci⟩
      u).1.log = u.log := by
  by_cases hf : u.stateOf q = .fulfilled
  · rw [runTask_some env _ u (.guardFulfilled c) (by simp [thenHandler, asCallback, hf])]
    have h1 := (touches_callFn_guard env u c (u.valueOf q)).1.log
    have h2 := (callFn_guard_completion env u c (u.valueOf q)).1
    generalize callFn env (.guardFulfilled c) (u.valueOf q) u = r at h1 h2
    obtain ⟨u1, k⟩ := r
    simp only at h1 h2
    subst h2
    exact ((touches_callFn_guard env u1 ci .undefined).1.log).trans h1
  · rw [runTask_some env _ u (.guardRejected c) (by simp [thenHandler, asCallback, hf])]
    have h1 := (touches_callFn_guard env u c (u.valueOf q)).2.log
    have h2 := (callFn_guard_completion env u c (u.valueOf q)).2
    generalize callFn env (.guardRejected c) (u.valueOf q) u = r at h1 h2
    obtain ⟨u1, k⟩ := r
    simp only at h1 h2
    subst h2
    exact ((touches_callFn_guard env u1 ci .undefined).1.log).trans h1

/-- The last two dispatches of `always` on a rejected promise.  The promise `q`
made from what `callback` returned is fulfilled; its continuation, the closure
of lines 282-284, throws the reason kept in slot `s3`, which rejects the
promise `d3` of that `then`; the derived promise `d1` of `always`, which waits
for `d3` through the closures of cell `c4`, is rejected with the same reason.
No user callback is called. -/
theorem rethrow_chain (env : Env) (u : World) (q d3 d1 c3 c4 c5 s3 : Nat) (r : Val)
    (hq : u.queue = [⟨q, thenHandler (.func (.rethrow s3)) .undefined c3⟩])
    (hsq : u.stateOf q = .fulfilled) (hslot : u.slotOf s3 = r)
    (hl3 : u.Live c3 d3) (hd3 : d3 < u.heap.length)
    (hdef : u.deferredsOf d3 =
      [thenHandler (.func (.guardFulfilled c4)) (.func (.guardRejected c4)) c5])
    (hl4 : u.Live c4 d1) (hd1 : d1 < u.heap.length) (hc5 : u.targetOf c5 ≠ d1)
    (hne : c3 ≠ c4) :
    (runTicks env 2 u).log = u.log ∧ (runTicks env 2 u).stateOf d1 = .rejected ∧
    (runTicks env 2 u).valueOf d1 = r := by
  have hl3' : World.Live { u with queue := [] } c3 d3 := hl3
  have hsel : (if World.stateOf { u with queue := [] } q = .fulfilled
      then (thenHandler (.func (.rethrow s3)) .undefined c3).onFulfilled
      else (thenHandler (.func (.rethrow s3)) .undefined c3).onRejected) = some (.rethrow s3) := by
    show (if u.stateOf q = .fulfilled then _ else _) = _
    rw [if_pos hsq]
    rfl
  have ht1 : tick env u =
      (reject (World.setDone { u with queue := [] } c3) d3 r, .normal .undefined) := by
    rw [tick_cons env u _ [] hq, runTask_some env _ _ (.rethrow s3) hsel]
    show callFn env (.guardRejected c3) (u.slotOf s3) _ = _
    rw [callFn_guardRejected_live env _ hl3', hslot]
  have hd3' : d3 < (World.setDone { u with queue := [] } c3).heap.length := hd3
  have hst := stateOf_reject_self (World.setDone { u with queue := [] } c3) d3 r hd3'
  have hq5 : (reject (World.setDone { u with queue := [] } c3) d3 r).queue =
      [⟨d3, thenHandler (.func (.guardFulfilled c4)) (.func (.guardRejected c4)) c5⟩] := by
    unfold reject
    rw [finale_queue _ _ (by
      rw [stateOf_settle, if_pos ⟨rfl, hd3'⟩]
      decide), deferredsOf_settle]
    show [] ++ (u.deferredsOf d3).map _ = _
    rw [hdef]
    rfl
  rw [runTicks_two, ht1]
  show (tick env (reject (World.setDone { u with queue := [] } c3) d3 r)).1.log = _ ∧
    (tick env (reject (World.setDone { u with queue := [] } c3) d3 r)).1.stateOf d1 = _ ∧
    (tick env (reject (World.setDone { u with queue := [] } c3) d3 r)).1.valueOf d1 = _
  rw [tick_cons env _ _ [] hq5]
  have hcells : World.cells { reject (World.setDone { u with queue := [] } c3) d3 r with
      queue := [] } = (u.setDone c3).cells := by
    show (reject (World.setDone { u with queue := [] } c3) d3 r).cells = _
    rw [reject_cells]
    rfl
  have hl4' : World.Live { reject (World.setDone { u with queue := [] } c3) d3 r with
      queue := [] } c4 d1 := by
    unfold World.Live
    rw [hcells]
    exact live_setDone_ne hl4 hne
  have hc5' : World.targetOf { reject (World.setDone { u with queue := [] } c3) d3 r with
      queue := [] } c5 ≠ d1 := by
    unfold World.targetOf
    rw [hcells]
    intro h
    apply hc5
    rw [← h]
    simp only [World.targetOf, World.setDone, List.getElem?_modify]
    cases u.cells[c5]? <;> simp
    split <;> rfl
  have hlen : d1 < (World.heap { reject (World.setDone { u with queue := [] } c3) d3 r
      with queue := [] }).length := by
    show d1 < (reject (World.setDone { u with queue := [] } c3) d3 r).heap.length
    rw [reject_length]
    exact hd1
  obtain ⟨_, r1, r2, _⟩ := runTask_guards env _ d3 c4 c5 d1 hl4' hlen
    (by
      show (reject (World.setDone { u with queue := [] } c3) d3 r).stateOf d3 ≠ .pending
      rw [hst.1]; decide)
    (by
      intro h
      have h' : (reject (World.setDone { u with queue := [] } c3) d3 r).stateOf d3
          = .fulfilled := h
      rw [hst.1] at h'
      cases h')
    hc5'
  refine ⟨?_, r1.trans hst.1, r2.trans hst.2⟩
  rw [runTask_guards_log]
  show (reject (World.setDone { u with queue := [] } c3) d3 r).log = _
  rw [reject_log]
  rfl

theorem alwaysWaiting_eq (env : Env) (w : World) (q d1 c1 : Nat) (reason : Val)
    (hsq : w.stateOf q = .fulfilled) (hl : w.Live c1 d1) (hd1 : d1 < w.heap.length) :
    callFn env (.guardFulfilled c1) (.promise w.heap.length)
      (Promise.then (w.allocSlot reason) q (.func (.rethrow w.slots.length)) .undefined).2 =
      (alwaysWaiting w q d1 c1 reason, .normal .undefined) := by
  have hs1 : (w.allocSlot reason).stateOf q ≠ .pending := by
    show w.stateOf q ≠ .pending
    rw [hsq]; decide
  rw [then_settled (w.allocSlot reason) q _ _ hs1]
  have hl3 : World.Live (((w.allocSlot reason).allocPromise.allocCell w.heap.length).ast
      ⟨q, thenHandler (.func (.rethrow w.slots.length)) .undefined w.cells.length⟩) c1 d1 :=
    live_append_left hl [⟨false, w.heap.length⟩] rfl
  show callFn env (.guardFulfilled c1) (.promise w.heap.length)
    (((w.allocSlot reason).allocPromise.allocCell w.heap.length).ast
      ⟨q, thenHandler (.func (.rethrow w.slots.length)) .undefined w.cells.length⟩) = _
  rw [callFn_guardFulfilled_live env _ hl3]
  have hne : ¬ w.heap.length = d1 := by omega
  unfold resolve
  rw [if_neg hne]
  simp only [doResolve]
  rw [then_pending _ w.heap.length _ _ (by
    simp only [stateOf_allocCell, stateOf_setDone, stateOf_ast, stateOf_allocPromise]
    show w.stateOf w.heap.length = .pending
    simp [World.stateOf, World.getP, PromiseObj.fresh])]
  have e1 : ((((w.allocSlot reason).allocPromise.allocCell w.heap.length).ast
      ⟨q, thenHandler (.func (.rethrow w.slots.length)) .undefined w.cells.length⟩).setDone
      c1).cells.length = w.cells.length + 1 := by
    rw [setDone_length]
    simp [World.allocSlot]
  have e2 : (((((w.allocSlot reason).allocPromise.allocCell w.heap.length).ast
      ⟨q, thenHandler (.func (.rethrow w.slots.length)) .undefined w.cells.length⟩).setDone
      c1).allocCell d1).heap.length = w.heap.length + 1 := by
    simp [World.allocSlot]
  have e3 : (((((w.allocSlot reason).allocPromise.allocCell w.heap.length).ast
      ⟨q, thenHandler (.func (.rethrow w.slots.length)) .undefined w.cells.length⟩).setDone
      c1).allocCell d1).cells.length = w.cells.length + 2 := by
    rw [allocCell_cells, List.length_append, e1]
    rfl
  simp only [e1, e2, e3, alwaysWaiting]

theorem alwaysWaiting_cells (w : World) (q d1 c1 : Nat) (reason : Val) :
    (alwaysWaiting w q d1 c1 reason).cells =
      (w.cells ++ [(⟨false, w.heap.length⟩ : Cell)]).modify
        (fun cell => { cell with done := true }) c1
        ++ [(⟨false, d1⟩ : Cell)] ++ [(⟨false, w.heap.length + 1⟩ : Cell)] := by
  simp [alwaysWaiting, World.setDone, World.allocSlot]

/-- From the world after `Promise.resolve(callback())`, in which the promise
`q` it gave is fulfilled and the scheduler is idle, two dispatches reject the
derived promise `d1` of `always` with the captured reason. -/
theorem always_rejected_from (env : Env) (w : World) (q d1 c1 : Nat) (reason : Val)
    (hq : w.queue = []) (hsq : w.stateOf q = .fulfilled) (hl : w.Live c1 d1)
    (hd1 : d1 < w.heap.length) :
    (runTicks env 2 (alwaysWaiting w q d1 c1 reason)).log = w.log ∧
    (runTicks env 2 (alwaysWaiting w q d1 c1 reason)).stateOf d1 = .rejected ∧
    (runTicks env 2 (alwaysWaiting w q d1 c1 reason)).valueOf d1 = reason := by
  have hc1 : c1 < w.cells.length := lt_cells_of_live hl
  have hlen : (alwaysWaiting w q d1 c1 reason).heap.length = w.heap.length + 2 := by
    simp [alwaysWaiting, World.allocSlot]
  have hlog : (alwaysWaiting w q d1 c1 reason).log = w.log := by
    simp [alwaysWaiting, World.allocSlot, World.setDone]
  rw [← hlog]
  refine rethrow_chain env (alwaysWaiting w q d1 c1 reason) q w.heap.length d1 w.cells.length
    (w.cells.length + 1) (w.cells.length + 2) w.slots.length reason ?_ ?_ ?_ ?_ ?_ ?_ ?_ ?_ ?_ ?_
  · simp [alwaysWaiting, World.allocSlot, hq]
  · simp only [alwaysWaiting, stateOf_pushDeferred, stateOf_allocCell, stateOf_allocPromise,
      stateOf_setDone, stateOf_ast]
    exact hsq
  · show ((w.slots ++ [reason])[w.slots.length]?).getD .undefined = reason
    simp
  · unfold World.Live
    rw [alwaysWaiting_cells]
    rw [List.append_assoc, List.getElem?_append_left (by simp),
      List.getElem?_modify_ne _ _ (by omega)]
    simp
  · rw [hlen]; omega
  · unfold alwaysWaiting
    rw [deferredsOf_pushDeferred _ _ _ (by simp [World.allocSlot]; omega), deferredsOf_alloc]
    have h0 : (((((w.allocSlot reason).allocPromise.allocCell w.heap.length).ast
        ⟨q, thenHandler (.func (.rethrow w.slots.length)) .undefined w.cells.length⟩).setDone
        c1).allocCell d1).deferredsOf w.heap.length = [] :=
      deferredsOf_fresh (w.allocSlot reason) w.heap.length
    rw [h0]
    rfl
  · unfold World.Live
    rw [alwaysWaiting_cells]
    rw [List.getElem?_append_left (by simp), List.getElem?_append_right (by simp)]
    simp
  · rw [hlen]; omega
  · unfold World.targetOf
    rw [alwaysWaiting_cells]
    rw [List.getElem?_append_right (by simp)]
    simp
    omega
  · omega

theorem callFn_alwaysReason (env : Env) (w w2 : World) (s g q : Nat) (v x : Val)
    (hslot : w.slotOf s = .func (.user g)) (hx : env g .undefined = .normal x)
    (hres : Promise.resolve (w.logCall g .undefined) x = (.promise q, w2)) :
    callFn env (.alwaysReason s) v w =
      ((Promise.then (w2.allocSlot v) q (.func (.rethrow w2.slots.length)) .undefined).2,
        .normal (.promise w2.heap.length)) := by
  simp only [callFn, callNoArgs, hslot, callBase, hx, hres]
  rfl

/-- The first dispatch of `always` on a rejected promise: the second closure
(lines 281-285) calls `callback()` once and, `Promise.resolve` of the returned
value being the fulfilled promise `q` in world `w2`, leaves the derived promise
waiting. -/
theorem always_rejected_tick (env : Env) (w w2 : World) (p g q : Nat) (x : Val)
    (hs : w.stateOf p = .rejected) (hq : w.queue = [])
    (hx : env g .undefined = .normal x)
    (hres : Promise.resolve ((((w.allocSlot (.func (.user g))).allocPromise.allocCell
      w.heap.length)).logCall g .undefined) x = (.promise q, w2))
    (hsq : w2.stateOf q = .fulfilled) (hl : w2.Live w.cells.length w.heap.length)
    (hd : w.heap.length < w2.heap.length) :
    (tick env (Promise.always w p (.func (.user g))).2).1 =
      alwaysWaiting w2 q w.heap.length w.cells.length (w.valueOf p) := by
  have hs1 : (w.allocSlot (.func (.user g))).stateOf p ≠ .pending := by
    show w.stateOf p ≠ .pending
    rw [hs]; decide
  have hsel : (if ((w.allocSlot (.func (.user g))).allocPromise.allocCell
      (w.allocSlot (.func (.user g))).heap.length).stateOf p = .fulfilled
      then (thenHandler (.func .alwaysValue) (.func (.alwaysReason w.slots.length))
        (w.allocSlot (.func (.user g))).cells.length).onFulfilled
      else (thenHandler (.func .alwaysValue) (.func (.alwaysReason w.slots.length))
        (w.allocSlot (.func (.user g))).cells.length).onRejected)
      = some (.alwaysReason w.slots.length) := by
    rw [stateOf_allocCell, stateOf_allocPromise]
    show (if w.stateOf p = .fulfilled then _ else _) = _
    rw [hs, if_neg (by decide)]
    rfl
  have hslot : ((w.allocSlot (.func (.user g))).allocPromise.allocCell
      (w.allocSlot (.func (.user g))).heap.length).slotOf w.slots.length = .func (.user g) := by
    show ((w.slots ++ [Val.func (.user g)])[w.slots.length]?).getD .undefined = _
    simp
  have hval : ((w.allocSlot (.func (.user g))).allocPromise.allocCell
      (w.allocSlot (.func (.user g))).heap.length).valueOf p = w.valueOf p := by
    rw [valueOf_allocCell, valueOf_allocPromise]
    rfl
  unfold Promise.always
  rw [tick_then_settled env (w.allocSlot (.func (.user g))) p _ _ hs1 hq,
    runTask_some env _ _ (.alwaysReason w.slots.length) hsel,
    callFn_alwaysReason env _ w2 _ g q _ x hslot hx hres]
  show (callFn env (.guardFulfilled w.cells.length) (.promise w2.heap.length)
    (Promise.then (w2.allocSlot _) q (.func (.rethrow w2.slots.length)) .undefined).2).1 = _
  rw [alwaysWaiting_eq env w2 q w.heap.length w.cells.length _ hsq hl hd, hval]

/-- Resolution of a promise without continuations with a value that is not a
thenable, or with foreign thenables nested around one whose `then` methods call
their first argument at once: the promise is fulfilled, nothing is queued or
logged, and the closures that were live stay live. -/
theorem resolve_nested_facts (y : Val) (hy : y.plain = true) : ∀ (rests : List Body) (w : World)
    (d : Nat), d < w.heap.length → w.deferredsOf d = [] →
    (resolve w d (nested rests y)).queue = w.queue ∧
    (resolve w d (nested rests y)).log = w.log ∧
    (resolve w d (nested rests y)).stateOf d = .fulfilled ∧
    (resolve w d (nested rests y)).heap.length = w.heap.length ∧
    ∀ c t, w.Live c t → (resolve w d (nested rests y)).Live c t := by
  intro rests
  induction rests with
  | nil =>
    intro w d hd hdef
    show (resolve w d y).queue = _ ∧ (resolve w d y).log = _ ∧ (resolve w d y).stateOf d = _ ∧
      (resolve w d y).heap.length = _ ∧ ∀ c t, w.Live c t → (resolve w d y).Live c t
    rw [resolve_plain _ _ _ hy]
    refine ⟨?_, by simp, (stateOf_fulfil w d y hd).1, by simp, fun c t h => ?_⟩
    · rw [finale_queue _ _ (by
        rw [stateOf_settle, if_pos ⟨rfl, hd⟩]
        decide), deferredsOf_settle, hdef]
      simp
    · unfold World.Live
      rw [finale_cells, settle_cells]
      exact h
  | cons rest rests ih =>
    intro w d hd hdef
    have e : resolve w d (nested (rest :: rests) y) =
        resolve ((w.allocCell d).setDone w.cells.length) d (nested rests y) := by
      have e0 : resolve w d (.obj (.method (.callFirst (nested rests y) rest))) =
          doResolve (fun c w1 => runBody w1 c (.callFirst (nested rests y) rest)) d w := by
        unfold resolve
        rfl
      exact e0.trans (doResolve_callFirst w d (nested rests y) rest)
    obtain ⟨h1, h2, h3, h4, h5⟩ := ih ((w.allocCell d).setDone w.cells.length) d hd hdef
    rw [e]
    refine ⟨h1, h2, h3, h4, fun c t h => h5 c t ?_⟩
    have hc : c < w.cells.length := lt_cells_of_live h
    have h0 : (w.allocCell d).Live c t := live_append_left h [⟨false, d⟩] rfl
    exact live_setDone_ne h0 (by omega)

theorem resolveStatic_nested (w : World) (rests : List Body) (y : Val) (hy : y.plain = true) :
    Promise.resolve w (nested rests y) =
      (.promise w.heap.length,
        resolve ((w.allocPromise.allocCell w.heap.length).setDone w.cells.length)
          w.heap.length (nested rests y)) := by
  have h : Promise.resolve w (nested rests y) =
      (.promise (newPromise w (script (.callFirst (nested rests y) .ret))).1,
        (newPromise w (script (.callFirst (nested rests y) .ret))).2) := by
    cases rests with
    | cons rest rests => rfl
    | nil =>
      show Promise.resolve w y = (.promise (newPromise w (script (.callFirst y .ret))).1,
        (newPromise w (script (.callFirst y .ret))).2)
      cases y with
      | promise q => simp [Val.plain] at hy
      | obj t => rfl
      | undefined => rfl
      | null => rfl
      | prim n => rfl
      | func f => rfl
      | array xs => rfl
      | typeError msg => rfl
  rw [h, newPromise_callFirst]

/-- C15: let `p` be rejected with `r`, let the scheduler be idle, and let `cb`
be a user function that returns `x` when called without arguments, `x` being a
value that is not a thenable, or foreign thenables nested around such a value
whose `then` methods call their first argument, or a promise that is fulfilled.
After three dispatches the call log has grown by exactly the call `cb()`, and
the promise returned by `p.always(cb)` is rejected with `r`. -/
theorem always_rejected (env : Env) (w : World) (p g : Nat) (x : Val)
    (hs : w.stateOf p = .rejected) (hq : w.queue = [])
    (hx : env g .undefined = .normal x)
    (hxk : (∃ rests y, x = nested rests y ∧ y.plain = true) ∨
      ∃ q, x = .promise q ∧ w.stateOf q = .fulfilled) :
    (runTicks env 3 (Promise.always w p (.func (.user g))).2).log
      = w.log ++ [(g, .undefined)] ∧
    (runTicks env 3 (Promise.always w p (.func (.user g))).2).stateOf
      (Promise.always w p (.func (.user g))).1 = .rejected ∧
    (runTicks env 3 (Promise.always w p (.func (.user g))).2).valueOf
      (Promise.always w p (.func (.user g))).1 = w.valueOf p := by
  have hfst : (Promise.always w p (.func (.user g))).1 = w.heap.length := rfl
  have h3 : ∀ u : World, runTicks env 3 u = runTicks env 2 (tick env u).1 := fun _ => rfl
  rw [hfst, h3]
  rcases hxk with ⟨rests, y, rfl, hy⟩ | ⟨q, rfl, hqf⟩
  · have hres := resolveStatic_nested ((((w.allocSlot (.func (.user g))).allocPromise.allocCell
      w.heap.length)).logCall g .undefined) rests y hy
    have hlen : ((((w.allocSlot (.func (.user g))).allocPromise.allocCell
        w.heap.length)).logCall g .undefined).heap.length = w.heap.length + 1 := by
      simp [World.logCall, World.allocSlot]
    have hcl : ((((w.allocSlot (.func (.user g))).allocPromise.allocCell
        w.heap.length)).logCall g .undefined).cells.length = w.cells.length + 1 := by
      simp [World.logCall, World.allocSlot]
    rw [hlen, hcl] at hres
    have hd : w.heap.length + 1 < ((((((w.allocSlot (.func (.user g))).allocPromise.allocCell
        w.heap.length)).logCall g .undefined).allocPromise.allocCell
        (w.heap.length + 1)).setDone (w.cells.length + 1)).heap.length := by
      simp [World.logCall, World.allocSlot]
    have hdef : ((((((w.allocSlot (.func (.user g))).allocPromise.allocCell
        w.heap.length)).logCall g .undefined).allocPromise.allocCell
        (w.heap.length + 1)).setDone (w.cells.length + 1)).deferredsOf (w.heap.length + 1)
        = [] := by
      have := deferredsOf_fresh ((((w.allocSlot (.func (.user g))).allocPromise.allocCell
        w.heap.length)).logCall g .undefined) (w.heap.length + 1)
      rw [hlen] at this
      exact this
    obtain ⟨f1, f2, f3, f4, f5⟩ := resolve_nested_facts y hy rests _ (w.heap.length + 1) hd hdef
    have hl := f5 w.cells.length w.heap.length
      (live_setDone_ne (live_first w w.heap.length (w.heap.length + 1) _ rfl) (by omega))
    have hd1 : w.heap.length < (resolve ((((((w.allocSlot (.func (.user g))).allocPromise.allocCell
        w.heap.length)).logCall g .undefined).allocPromise.allocCell
        (w.heap.length + 1)).setDone (w.cells.length + 1)) (w.heap.length + 1)
        (nested rests y)).heap.length := by
      rw [f4]
      omega
    rw [always_rejected_tick env w _ p g (w.heap.length + 1) _ hs hq hx hres f3 hl hd1]
    have hmain := always_rejected_from env _ (w.heap.length + 1) w.heap.length w.cells.length
      (w.valueOf p) (f1.trans hq) f3 hl hd1
    exact ⟨hmain.1.trans f2, hmain.2⟩
  · have hq2 : ((((w.allocSlot (.func (.user g))).allocPromise.allocCell
        w.heap.length)).logCall g .undefined).queue = [] := hq
    have hsq : ((((w.allocSlot (.func (.user g))).allocPromise.allocCell
        w.heap.length)).logCall g .undefined).stateOf q = .fulfilled := by
      show ((w.allocSlot (.func (.user g))).allocPromise).stateOf q = .fulfilled
      rw [stateOf_allocPromise]
      exact hqf
    have hl : ((((w.allocSlot (.func (.user g))).allocPromise.allocCell
        w.heap.length)).logCall g .undefined).Live w.cells.length w.heap.length :=
      live_fresh (w.allocSlot (.func (.user g)))
    have hd : w.heap.length < ((((w.allocSlot (.func (.user g))).allocPromise.allocCell
        w.heap.length)).logCall g .undefined).heap.length := by
      simp [World.logCall, World.allocSlot]
    rw [always_rejected_tick env w _ p g q (.promise q) hs hq hx rfl hsq hl hd]
    exact always_rejected_from env _ q w.heap.length w.cells.length (w.valueOf p) hq2 hsq hl hd

/-- C15 on promise 0 of `exampleRejected`, rejected with 2, and callback 0,
which returns the primitive 9: after three dispatches the log holds the one
call of the callback and the derived promise 1 is rejected. -/
theorem always_rejected_witness :
    (runTicks exampleEnv 3 (Promise.always exampleRejected 0 (.func (.user 0))).2).log
      = [(0, .undefined)] ∧
    (runTicks exampleEnv 3 (Promise.always exampleRejected 0 (.func (.user 0))).2).stateOf 1
      = .rejected ∧
    (runTicks exampleEnv 3 (Promise.always exampleRejected 0 (.func (.user 0))).2).valueOf 1
      = .prim 2 :=
  always_rejected exampleEnv exampleRejected 0 0 (.prim 9) rfl rfl rfl
    (Or.inl ⟨[], .prim 9, rfl, rfl⟩)

/-! ## Assignments to an object held by a promise -/

theorem assignThen_cells (w : World) (p : Nat) (t : ThenProp) :
    (w.assignThen p t).cells = w.cells := rfl

theorem assignThen_queue (w : World) (p : Nat) (t : ThenProp) :
    (w.assignThen p t).queue = w.queue := rfl

theorem assignThen_length (w : World) (p : Nat) (t : ThenProp) :
    (w.assignThen p t).heap.length = w.heap.length := by
  simp [World.assignThen]

theorem stateOf_assignThen (w : World) (p : Nat) (t : ThenProp) (q : Nat) :
    (w.assignThen p t).stateOf q = w.stateOf q := by
  simp only [World.stateOf, World.getP, World.assignThen, List.getElem?_modify]
  by_cases h : p = q
  · cases hq : w.heap[q]? with
    | none => simp [h]
    | some o =>
      simp only [h, if_true, Option.map_eq_map, Option.map_some', Option.getD_some]
      split <;> rfl
  · cases hq : w.heap[q]? <;> simp [h]

theorem inv_assignThen {w : World} (p : Nat) (t : ThenProp) (h : Inv w) :
    Inv (w.assignThen p t) :=
  inv_of_same (assignThen_cells w p t) (by rw [assignThen_length])
    (stateOf_assignThen w p t) h

/-! ## The registrations of `Promise.race` on pending inputs -/

theorem touches_raceLoop (c p' : Nat) : ∀ (qs : List Nat) (w : World),
    Touches p' w (raceLoop c (qs.map .promise) w).1 := by
  intro qs
  induction qs with
  | nil => intro w; exact touches_refl p' w
  | cons q0 qs ih =>
    intro w
    simp only [List.map_cons, raceLoop]
    exact touches_trans (touches_then p' w q0 _ _) (ih _)

theorem inv_raceLoop (c : Nat) : ∀ (qs : List Nat) (w : World), Inv w →
    Inv (raceLoop c (qs.map .promise) w).1 := by
  intro qs
  induction qs with
  | nil => intro w h; exact h
  | cons q0 qs ih =>
    intro w h
    simp only [List.map_cons, raceLoop]
    exact ih _ (inv_then q0 _ _ h)

theorem inv_race {w : World} (qs : List Nat) (h : Inv w) :
    Inv (Promise.race w (qs.map .promise)).2 :=
  inv_newPromise _ h (fun hi => inv_raceLoop _ qs _ hi) (touches_raceLoop _ 0 qs _).cells

/-- While every input is pending, the loop of `Promise.race` hands nothing to
the scheduler, and what it adds to the `deferreds` of a promise are the
registrations of the loop. -/
theorem raceLoop_pending (c : Nat) : ∀ (qs : List Nat) (w : World),
    (∀ x ∈ qs, w.stateOf x = .pending) →
    (raceLoop c (qs.map .promise) w).1.queue = w.queue ∧
    ∀ x d, d ∈ (raceLoop c (qs.map .promise) w).1.deferredsOf x →
      d ∈ w.deferredsOf x ∨ ∃ k, k < qs.length ∧
        d = thenHandler (.func (.guardFulfilled c)) (.func (.guardRejected c))
          (w.cells.length + k) := by
  intro qs
  induction qs with
  | nil => intro w _; exact ⟨rfl, fun x d hd => Or.inl hd⟩
  | cons q0 qs ih =>
    intro w hp
    have hp0 : w.stateOf q0 = .pending := hp q0 (List.mem_cons_self _ _)
    obtain ⟨_, f2, _, f4, _, _, _, _, _⟩ :=
      then_facts w q0 (.func (.guardFulfilled c)) (.func (.guardRejected c))
    have e := then_pending w q0 (.func (.guardFulfilled c)) (.func (.guardRejected c)) hp0
    obtain ⟨i1, i2⟩ := ih (Promise.then w q0 (.func (.guardFulfilled c))
      (.func (.guardRejected c))).2 (fun x hx => by
        rw [(f4 x).1]; exact hp x (List.mem_cons_of_mem _ hx))
    have hlen : (Promise.then w q0 (.func (.guardFulfilled c))
        (.func (.guardRejected c))).2.cells.length = w.cells.length + 1 := by
      rw [f2]; simp
    simp only [List.map_cons, raceLoop]
    refine ⟨i1.trans (by rw [e]; rfl), fun x d hd => ?_⟩
    rcases i2 x d hd with h | ⟨k, hk, rfl⟩
    · rw [e] at h
      by_cases hx : q0 = x
      · subst hx
        by_cases hlt : q0 < w.heap.length
        · rw [deferredsOf_pushDeferred _ _ _ (by simp; omega), deferredsOf_alloc] at h
          rcases List.mem_append.1 h with h' | h'
          · exact Or.inl h'
          · rw [List.mem_singleton] at h'
            exact Or.inr ⟨0, by simp, by rw [h']; rfl⟩
        · by_cases heq : q0 = w.heap.length
          · rw [deferredsOf_pushDeferred _ _ _ (by simp; omega), deferredsOf_alloc] at h
            rcases List.mem_append.1 h with h' | h'
            · exact Or.inl h'
            · rw [List.mem_singleton] at h'
              exact Or.inr ⟨0, by simp, by rw [h']; rfl⟩
          · have hid : (w.allocPromise.allocCell w.heap.length).pushDeferred q0
                (thenHandler (.func (.guardFulfilled c)) (.func (.guardRejected c))
                  w.cells.length) = w.allocPromise.allocCell w.heap.length := by
              simp only [World.pushDeferred]
              rw [List.modify_eq_self (by simp [World.allocCell, World.allocPromise]; omega)]
            rw [hid, deferredsOf_alloc] at h
            exact Or.inl h
      · rw [deferredsOf_pushDeferred_ne _ _ _ _ hx, deferredsOf_alloc] at h
        exact Or.inl h
    · refine Or.inr ⟨k + 1, by simp; omega, ?_⟩
      rw [hlen]
      congr 1
      omega

/-! ## What a settlement hands to the scheduler -/

theorem dispatched_reject (w : World) (d : Nat) (e : Val) (h : d < w.heap.length) :
    Dispatched d w (reject w d e) := by
  constructor
  · unfold reject
    rw [finale_queue _ _ (by
      rw [stateOf_settle, if_pos ⟨rfl, h⟩]
      decide), deferredsOf_settle]
    rfl
  · intro c t hl
    unfold World.Live
    rw [reject_cells]
    exact hl

theorem dispatched_fulfil (w : World) (d : Nat) (v : Val) (h : d < w.heap.length) :
    Dispatched d w (finale (w.settle d .fulfilled v) d) := by
  constructor
  · rw [finale_queue _ _ (by
      rw [stateOf_settle, if_pos ⟨rfl, h⟩]
      decide), deferredsOf_settle]
    rfl
  · intro c t hl
    unfold World.Live
    rw [finale_cells, settle_cells]
    exact hl

/-- The settlement seen from before the `doResolve` call that led to it. -/
theorem dispatched_in_cell {w w' : World} {d : Nat}
    (h : Dispatched d ((w.allocCell d).setDone w.cells.length) w') : Dispatched d w w' := by
  refine ⟨h.1, fun c t hl => h.2 c t ?_⟩
  have hc : c < w.cells.length := lt_cells_of_live hl
  have h0 : (w.allocCell d).Live c t := live_append_left hl [⟨false, d⟩] rfl
  exact live_setDone_ne h0 (by omega)

mutual
/-- When `resolve.call(d, v)` settles the pending promise `d` before it returns,
the continuations of `d` are handed to the scheduler, whatever `v` is. -/
theorem dispatched_resolve : ∀ (v : Val) (w : World) (d : Nat), d < w.heap.length →
    w.stateOf d = .pending → (resolve w d v).stateOf d ≠ .pending →
    Dispatched d w (resolve w d v)
  | .promise q, w, d, h, hp, hset => by
    by_cases hq : q = d
    · unfold resolve
      rw [if_pos hq]
      exact dispatched_reject w d _ h
    · exfalso
      have ho := outcome_resolve (.promise q) w d h
      unfold settles at ho
      rw [if_neg hq] at ho
      exact hset (ho.1.trans hp)
  | .obj (.getterThrows error), w, d, h, _, _ => by
    unfold resolve
    exact dispatched_reject w d error h
  | .obj (.method body), w, d, h, hp, hset => by
    have e : resolve w d (.obj (.method body)) =
        doResolve (fun c w1 => runBody w1 c body) d w := by
      unfold resolve
      rfl
    rw [e] at hset ⊢
    exact dispatched_body body w d h hp hset
  | .obj .notCallable, w, d, h, _, _ => by unfold resolve; exact dispatched_fulfil w d _ h
  | .undefined, w, d, h, _, _ => by unfold resolve; exact dispatched_fulfil w d _ h
  | .null, w, d, h, _, _ => by unfold resolve; exact dispatched_fulfil w d _ h
  | .prim n, w, d, h, _, _ => by unfold resolve; exact dispatched_fulfil w d _ h
  | .typeError msg, w, d, h, _, _ => by unfold resolve; exact dispatched_fulfil w d _ h
  | .array items, w, d, h, _, _ => by unfold resolve; exact dispatched_fulfil w d _ h
  | .func f, w, d, h, _, _ => by unfold resolve; exact dispatched_fulfil w d _ h
theorem dispatched_body : ∀ (b : Body) (w : World) (d : Nat), d < w.heap.length →
    w.stateOf d = .pending →
    (doResolve (fun c w1 => runBody w1 c b) d w).stateOf d ≠ .pending →
    Dispatched d w (doResolve (fun c w1 => runBody w1 c b) d w)
  | .ret, w, d, _, hp, hset => by
    exfalso
    rw [doResolve_ret] at hset
    exact hset hp
  | .throw error, w, d, h, _, _ => by
    rw [doResolve_throw]
    exact dispatched_in_cell (dispatched_reject _ d error h)
  | .callFirst v rest, w, d, h, hp, hset => by
    rw [doResolve_callFirst] at hset ⊢
    exact dispatched_in_cell (dispatched_resolve v _ d h hp hset)
  | .callSecond v rest, w, d, h, _, _ => by
    rw [doResolve_callSecond]
    exact dispatched_in_cell (dispatched_reject _ d v h)
end

theorem race_eq (w : World) (qs : List Nat) (hqs : ∀ x ∈ qs, x < w.heap.length) :
    (Promise.race w (qs.map .promise)).2 =
      (raceLoop w.cells.length (qs.map .promise) (w.allocPromise.allocCell w.heap.length)).1 := by
  have h1 := (raceLoop_facts w.cells.length w.heap.length qs
    (w.allocPromise.allocCell w.heap.length)
    (fun x hx => by
      have := hqs x hx
      simp [World.allocCell, World.allocPromise]; omega)
    (by simp [World.allocCell, World.allocPromise])).1
  simp only [Promise.race, newPromise, doResolve, allocPromise_cells]
  split
  · rename_i heq
    rw [heq]
  · rename_i heq
    rw [heq] at h1
    cases h1

/-- `Promise.race` on inputs that are all pending: nothing is handed to the
scheduler, the closures that could fire still can, the promises that existed
keep their state, and what is added to the `deferreds` of a promise are the
registrations of the call. -/
theorem race_pending (w : World) (qs : List Nat) (hqs : ∀ x ∈ qs, x < w.heap.length)
    (hp : ∀ x ∈ qs, w.stateOf x = .pending) :
    (Promise.race w (qs.map .promise)).2.queue = w.queue ∧
    (∀ c t, w.Live c t → (Promise.race w (qs.map .promise)).2.Live c t) ∧
    (∀ x, (Promise.race w (qs.map .promise)).2.stateOf x = w.stateOf x) ∧
    w.heap.length < (Promise.race w (qs.map .promise)).2.heap.length ∧
    ∀ x d, d ∈ (Promise.race w (qs.map .promise)).2.deferredsOf x →
      d ∈ w.deferredsOf x ∨ ∃ k, k < qs.length ∧ d = raceHandler w.cells.length k := by
  have hst : ∀ x, (w.allocPromise.allocCell w.heap.length).stateOf x = w.stateOf x := by
    intro x
    rw [stateOf_allocCell, stateOf_allocPromise]
  obtain ⟨_, f2, f3, _, _, _, _, _⟩ := raceLoop_facts w.cells.length w.heap.length qs
    (w.allocPromise.allocCell w.heap.length)
    (fun x hx => by
      have := hqs x hx
      simp [World.allocCell, World.allocPromise]; omega)
    (by simp [World.allocCell, World.allocPromise])
  obtain ⟨g1, g2⟩ := raceLoop_pending w.cells.length qs (w.allocPromise.allocCell w.heap.length)
    (fun x hx => by rw [hst]; exact hp x hx)
  have hlen := (touches_raceLoop w.cells.length 0 qs
    (w.allocPromise.allocCell w.heap.length)).len
  rw [race_eq w qs hqs]
  refine ⟨g1, fun c t hl => f2 c t (live_append_left hl [⟨false, w.heap.length⟩] rfl),
    fun x => ((f3 x).1).trans (hst x), ?_, fun x d hd => ?_⟩
  · have h0 : (w.allocPromise.allocCell w.heap.length).heap.length = w.heap.length + 1 := by
      simp [World.allocCell, World.allocPromise]
    omega
  · rcases g2 x d hd with h | ⟨k, hk, rfl⟩
    · rw [deferredsOf_alloc] at h
      exact Or.inl h
    · refine Or.inr ⟨k, hk, ?_⟩
      show _ = thenHandler _ _ (w.cells.length + 1 + k)
      have hc : (w.allocPromise.allocCell w.heap.length).cells.length = w.cells.length + 1 := by
        simp [World.allocCell, World.allocPromise]
      rw [hc]

/-- The settlement of a pending promise `q` through a closure of its live cell
`c`, when the call has settled `q`: the continuations of `q` are handed to the
scheduler. -/
theorem dispatched_callFn (env : Env) (w : World) (c q : Nat) (f : Fn) (v : Val)
    (hl : w.Live c q) (hq : q < w.heap.length) (hp : w.stateOf q = .pending)
    (hf : f = .guardFulfilled c ∨ f = .guardRejected c)
    (hset : (callFn env f v w).1.stateOf q ≠ .pending) :
    Dispatched q (w.setDone c) (callFn env f v w).1 ∧ Touches q w (callFn env f v w).1 := by
  have ht := touches_callFn_guard env w c v
  rw [targetOf_of_live hl] at ht
  have hq' : q < (w.setDone c).heap.length := hq
  rcases hf with rfl | rfl
  · refine ⟨?_, ht.1⟩
    rw [callFn_guardFulfilled_live env v hl] at hset ⊢
    exact dispatched_resolve v (w.setDone c) q hq' hp hset
  · refine ⟨?_, ht.2⟩
    rw [callFn_guardRejected_live env v hl]
    exact dispatched_reject (w.setDone c) q v hq'

/-! ## C13: `Promise.race` -/

/-- C13: let the done flags of `w` be as the library maintains them
(`Inv`), the scheduler be idle, and the inputs `qs` of `Promise.race` be
pending promises; let input `q`, on which nothing was registered before, be the
first to be settled afterwards, by a call `f(v)` of a closure of its cell `c`
(world `s`), and let the program then assign to the `then` of an object held by
some promise (world `m`; the assignment changes nothing when that value is not
an object).  If the value of `q`, when `q` is fulfilled, is at that time a value
whose `then` can be read and is not a function, then: the aggregate is pending
until the dispatch, the next task run by the scheduler gives it the state and
the value of `q`, and it keeps them through every later sequence of events
(calls of the closures of the other inputs and dispatches included). -/
theorem race_first_settlement (env : Env) (w s m : World) (qs : List Nat) (i q c p : Nat)
    (f : Fn) (v : Val) (t : ThenProp) (evs : List Event)
    (hinv : Inv w) (hq : w.queue = [])
    (hqs : ∀ x ∈ qs, x < w.heap.length) (hpend : ∀ x ∈ qs, w.stateOf x = .pending)
    (hi : qs[i]? = some q) (hdef : w.deferredsOf q = []) (hl : w.Live c q)
    (hf : f = .guardFulfilled c ∨ f = .guardRejected c)
    (hS : s = (callFn env f v (Promise.race w (qs.map .promise)).2).1)
    (hset : s.stateOf q ≠ .pending)
    (hM : m = s.assignThen p t)
    (hv : m.stateOf q = .fulfilled → (m.valueOf q).plain = true) :
    (Promise.race w (qs.map .promise)).1 = w.heap.length ∧
    (Promise.race w (qs.map .promise)).2.stateOf w.heap.length = .pending ∧
    (Promise.race w (qs.map .promise)).2.queue = [] ∧
    s.stateOf w.heap.length = .pending ∧
    (tick env m).1.stateOf w.heap.length = m.stateOf q ∧
    (tick env m).1.valueOf w.heap.length = m.valueOf q ∧
    (run env (tick env m).1 evs).stateOf w.heap.length = m.stateOf q ∧
    (run env (tick env m).1 evs).valueOf w.heap.length = m.valueOf q := by
  subst hS hM
  obtain ⟨r1, r2, r3, _, r5⟩ := race_registered w qs hqs
  obtain ⟨p1, p2, p3, p4, p5⟩ := race_pending w qs hqs hpend
  have hinvR := inv_race qs hinv
  have hqmem : q ∈ qs := List.getElem?_mem hi
  have hqlt : q < w.heap.length := hqs q hqmem
  have hqp : w.stateOf q = .pending := hpend q hqmem
  have hmem := (r5 i q hi).1 hqp
  have hgood : ∀ k, k < qs.length → GoodCell (Promise.race w (qs.map .promise)).2
      w.heap.length (w.cells.length + 1 + k) := fun k hk =>
    (r5 k qs[k] (List.getElem?_eq_getElem hk)).2.2
  generalize (Promise.race w (qs.map .promise)).2 = R at *
  have hc : c < w.cells.length := lt_cells_of_live hl
  obtain ⟨hD, hT⟩ := dispatched_callFn env R c q f v (p2 c q hl) (by omega)
    ((p3 q).trans hqp) hf hset
  have hsagg := (hT.frame w.heap.length (by omega) p4).1.trans r3
  have hla : (callFn env f v R).1.Live w.cells.length w.heap.length :=
    hD.2 _ _ (live_setDone_ne r2 (by omega))
  have hlen : w.heap.length < (callFn env f v R).1.heap.length :=
    Nat.lt_of_lt_of_le p4 hT.len
  have hinvS : Inv (callFn env f v R).1 := inv_callFn env f v hinvR
  refine ⟨r1, r3, p1.trans hq, hsagg, ?_⟩
  cases hds : R.deferredsOf q with
  | nil =>
    rw [hds] at hmem
    cases hmem
  | cons d0 ds =>
    have hd0 : d0 ∈ R.deferredsOf q := by
      rw [hds]
      exact List.mem_cons_self _ _
    rcases p5 q d0 hd0 with h | ⟨k, hk, rfl⟩
    · rw [hdef] at h
      cases h
    · have hqm : ((callFn env f v R).1.assignThen p t).queue =
          ⟨q, raceHandler w.cells.length k⟩ :: ds.map (fun h => (⟨q, h⟩ : Task)) := by
        rw [assignThen_queue, hD.1]
        show R.queue ++ (R.deferredsOf q).map _ = _
        rw [p1, hq, hds]
        rfl
      have hci : ((callFn env f v R).1).targetOf (w.cells.length + 1 + k) ≠ w.heap.length :=
        targetOf_of_goodCell (goodCell_of_cellsExt hT.cells (hgood k hk))
      have hinvU : Inv { (callFn env f v R).1.assignThen p t with
          queue := ds.map (fun h => (⟨q, h⟩ : Task)) } :=
        inv_of_same (w := (callFn env f v R).1.assignThen p t) rfl (Nat.le_refl _)
          (fun _ => rfl) (inv_assignThen p t hinvS)
      obtain ⟨_, g1, g2, _⟩ := runTask_guards env
        { (callFn env f v R).1.assignThen p t with queue := ds.map (fun h => (⟨q, h⟩ : Task)) }
        q w.cells.length (w.cells.length + 1 + k) w.heap.length hla
        (by
          show w.heap.length < ((callFn env f v R).1.assignThen p t).heap.length
          rw [assignThen_length]
          exact hlen)
        (by
          show ((callFn env f v R).1.assignThen p t).stateOf q ≠ .pending
          rw [stateOf_assignThen]
          exact hset)
        hv hci
      have htick : tick env ((callFn env f v R).1.assignThen p t) =
          runTask env ⟨q, thenHandler (.func (.guardFulfilled w.cells.length))
            (.func (.guardRejected w.cells.length)) (w.cells.length + 1 + k)⟩
            { (callFn env f v R).1.assignThen p t with
              queue := ds.map (fun h => (⟨q, h⟩ : Task)) } :=
        tick_cons env _ _ _ hqm
      have hinvT := (inv_stable_runTask env
        ⟨q, thenHandler (.func (.guardFulfilled w.cells.length))
          (.func (.guardRejected w.cells.length)) (w.cells.length + 1 + k)⟩ hinvU).1
      rw [htick]
      have hsettled : (runTask env ⟨q, thenHandler (.func (.guardFulfilled w.cells.length))
          (.func (.guardRejected w.cells.length)) (w.cells.length + 1 + k)⟩
          { (callFn env f v R).1.assignThen p t with
            queue := ds.map (fun h => (⟨q, h⟩ : Task)) }).1.stateOf w.heap.length
          ≠ .pending := by
        rw [g1]
        show ((callFn env f v R).1.assignThen p t).stateOf q ≠ .pending
        rw [stateOf_assignThen]
        exact hset
      obtain ⟨e1, e2⟩ := (inv_stable_run env evs hinvT).2 w.heap.length hsettled
      exact ⟨g1, g2, e1.trans g1, e2.trans g2⟩

/-- C13 on `race([slow, fast])`, both pending at the call: `fast` is rejected
with 2 and the next task rejects the aggregate, promise 2, with 2; `slow` is
fulfilled with 5 afterwards and two more tasks run, and the aggregate is still
rejected with 2. -/
theorem race_first_settlement_witness :
    (tick exampleEnv (exampleRaceRejected.assignThen 0 .notCallable)).1.stateOf 2 = .rejected ∧
    (run exampleEnv (tick exampleEnv (exampleRaceRejected.assignThen 0 .notCallable)).1
      [.call (.guardFulfilled 0) (.prim 5), .tick, .tick]).stateOf 0 = .fulfilled ∧
    (run exampleEnv (tick exampleEnv (exampleRaceRejected.assignThen 0 .notCallable)).1
      [.call (.guardFulfilled 0) (.prim 5), .tick, .tick]).stateOf 2 = .rejected ∧
    (run exampleEnv (tick exampleEnv (exampleRaceRejected.assignThen 0 .notCallable)).1
      [.call (.guardFulfilled 0) (.prim 5), .tick, .tick]).valueOf 2 = .prim 2 :=
  ⟨(race_first_settlement exampleEnv exampleTwoPending exampleRaceRejected
      (exampleRaceRejected.assignThen 0 .notCallable) [0, 1] 1 1 1 0 (.guardRejected 1) (.prim 2)
      .notCallable [] (inv_stable_run exampleEnv _ inv_empty).1 rfl (by decide) (by decide) rfl
      rfl rfl (Or.inr rfl) rfl (by decide) rfl (fun h => absurd h (by decide))).2.2.2.2.1,
   by decide,
   (race_first_settlement exampleEnv exampleTwoPending exampleRaceRejected
      (exampleRaceRejected.assignThen 0 .notCallable) [0, 1] 1 1 1 0 (.guardRejected 1) (.prim 2)
      .notCallable [.call (.guardFulfilled 0) (.prim 5), .tick, .tick]
      (inv_stable_run exampleEnv _ inv_empty).1 rfl (by decide) (by decide) rfl
      rfl rfl (Or.inr rfl) rfl (by decide) rfl (fun h => absurd h (by decide))).2.2.2.2.2.2.1,
   (race_first_settlement exampleEnv exampleTwoPending exampleRaceRejected
      (exampleRaceRejected.assignThen 0 .notCallable) [0, 1] 1 1 1 0 (.guardRejected 1) (.prim 2)
      .notCallable [.call (.guardFulfilled 0) (.prim 5), .tick, .tick]
      (inv_stable_run exampleEnv _ inv_empty).1 rfl (by decide) (by decide) rfl
      rfl rfl (Or.inr rfl) rfl (by decide) rfl (fun h => absurd h (by decide))).2.2.2.2.2.2.2⟩

/-- C13 does not hold without the condition on the value of a fulfilled input:
in `exampleRaceAssigned` the only input of the race,
promise 0, is fulfilled with an object that has gained a callable `then` since;
the next task, the dispatch of that settlement, does not fulfil the aggregate,
promise 1, with the object: it rejects it with 7, what the object's `then`
passes to its second argument (`values[i].then(resolve, reject)` at line 248
makes the dispatch call `resolve`, which reads `value.then` at line 124). -/
theorem race_first_settlement_counterexample :
    exampleRaceAssigned.stateOf 0 = .fulfilled ∧
    exampleRaceAssigned.stateOf 1 = .pending ∧
    (tick exampleEnv exampleRaceAssigned).1.stateOf 1 = .rejected ∧
    (tick exampleEnv exampleRaceAssigned).1.valueOf 1 = .prim 7 ∧
    (tick exampleEnv exampleRaceAssigned).1.stateOf 1 ≠ exampleRaceAssigned.stateOf 0 :=
  ⟨by decide, by decide, by decide, rfl, by decide⟩

end MyPromise
